import Mathlib

/-!
# Verification of the JSON ↔ TOON codec (bhanitgaurav/jsontotoon)

Shallow embedding of the repository's TypeScript codec:
* `toToon` / `convertToToon`      — TOON serializer (src/utils/toonUtils.ts, full version)
* `convertToJson` / `parseValue`  — TOON parser (same file)
* `validateToon`                  — structural validator (same file)
* `repairJson` / `balanceBrackets` — JSON repair path (src/utils/jsonRepairUtils.ts)

JavaScript strings are modelled as Lean `String` (sequences of Unicode scalar
values); JavaScript numbers are modelled by `JsNum`: exact rationals for finite
doubles plus the two infinities.  Each JavaScript double is represented by the
rational value of its shortest round-trip decimal representation, so
`Number(x.toString()) === x` corresponds to exactness of the rational model.
-/

namespace Toon

/-- ECMAScript whitespace (`\s`, `String.prototype.trim`, `Number()` trimming):
WhiteSpace ∪ LineTerminator code points. -/
def jsWs (c : Char) : Bool :=
  c.toNat = 0x20 || c.toNat = 0x09 || c.toNat = 0x0a || c.toNat = 0x0d ||
  c.toNat = 0x0b || c.toNat = 0x0c ||
  c.toNat = 0xa0 || c.toNat = 0x1680 ||
  (0x2000 ≤ c.toNat && c.toNat ≤ 0x200a) ||
  c.toNat = 0x2028 || c.toNat = 0x2029 ||
  c.toNat = 0x202f || c.toNat = 0x205f ||
  c.toNat = 0x3000 || c.toNat = 0xfeff

/-- Drop leading JS whitespace. -/
def trimLeft : List Char → List Char
  | [] => []
  | c :: cs => if jsWs c then trimLeft cs else c :: cs

/-- Drop trailing JS whitespace. -/
def trimR (l : List Char) : List Char := (trimLeft l.reverse).reverse

/-- `String.prototype.trim()`. -/
def jsTrimL (l : List Char) : List Char := trimLeft (trimR l)

def jsTrim (s : String) : String := ⟨jsTrimL s.data⟩

/-- `str.search(/\S/)`: index of the first non-whitespace character
(`none` models the JS result `-1`). -/
def searchNonWsL : List Char → Option Nat
  | [] => none
  | c :: cs =>
    if jsWs c then (searchNonWsL cs).map (· + 1) else some 0

def searchNonWs (s : String) : Option Nat := searchNonWsL s.data

/-- `str.split('\n')` (on the character list). -/
def splitNlL : List Char → List (List Char)
  | [] => [[]]
  | c :: cs =>
    if c = '\n' then [] :: splitNlL cs
    else
      match splitNlL cs with
      | [] => [[c]]
      | l :: ls => (c :: l) :: ls

def splitNl (s : String) : List String := (splitNlL s.data).map (⟨·⟩)

/-- `str.startsWith(p)`. -/
def strStarts (p s : String) : Bool := p.data.isPrefixOf s.data

/-- `str.endsWith(p)`. -/
def strEnds (p s : String) : Bool := p.data.reverse.isPrefixOf s.data.reverse

/-- `str.includes(c)` for a single character. -/
def strHas (c : Char) (s : String) : Bool := s.data.contains c

/-- `str.indexOf(c)` for a single character (`none` models `-1`). -/
def strIndexOfL (c : Char) : List Char → Option Nat
  | [] => none
  | d :: ds => if d = c then some 0 else (strIndexOfL c ds).map (· + 1)

def strIndexOf (c : Char) (s : String) : Option Nat := strIndexOfL c s.data

/-- `str.substring(0, n)` (take the first `n` characters). -/
def strTake (n : Nat) (s : String) : String := ⟨s.data.take n⟩

/-- `str.substring(n)` (drop the first `n` characters). -/
def strDrop (n : Nat) (s : String) : String := ⟨s.data.drop n⟩

/-- `str.substring(a, b)` with the JS clamp-and-swap semantics. -/
def jsSubstring (a b : Nat) (s : String) : String :=
  let a' := min a s.data.length
  let b' := min b s.data.length
  ⟨(s.data.take (max a' b')).drop (min a' b')⟩

def strLen (s : String) : Nat := s.data.length

/-- `'  '.repeat(n)`: n two-space units. -/
def spaces (n : Nat) : String := ⟨List.replicate (2 * n) ' '⟩

/-! ## JavaScript numbers

A finite double is modelled by the exact value of its shortest round-trip
decimal representation: a decimal rational `mant * 10 ^ exp` in canonical form
(`mant` not divisible by 10 unless zero; zero is `0 * 10 ^ 0`).  All numeric
text reachable in this codec denotes such values, and JS guarantees
`Number(x.toString()) === x`, which corresponds to exactness here. -/

def tenPow : Nat → Int
  | 0 => 1
  | k + 1 => 10 * tenPow k

/-- Exact decimal number `mant * 10 ^ exp` in canonical form. -/
structure Dec where
  mant : Int
  exp : Int
deriving DecidableEq, Repr

/-- Strip factors of ten from the mantissa into the exponent. -/
def stripTens : Nat → Int → Int → Int × Int
  | 0, m, e => (m, e)
  | fuel + 1, m, e =>
    if m % 10 = 0 then stripTens fuel (m / 10) (e + 1) else (m, e)

/-- Canonicalizing constructor for `Dec`. -/
def mkDec (m : Int) (e : Int) : Dec :=
  if m = 0 then ⟨0, 0⟩
  else
    let p := stripTens m.natAbs m e
    ⟨p.1, p.2⟩

/-- A JavaScript number as the codec observes it: a finite double or an
infinity.  `NaN` never enters the value model (all numeric branches are
guarded by `!isNaN`). -/
inductive JsNum where
  | fin (d : Dec)
  | inf
  | negInf
deriving DecidableEq, Repr

def isDigit (c : Char) : Bool := 48 ≤ c.toNat && c.toNat ≤ 57

def digitVal (c : Char) : Nat := c.toNat - '0'.toNat

/-- Numeric value of a digit string (most significant first). -/
def digitsToNat (l : List Char) : Nat :=
  l.foldl (fun a c => a * 10 + digitVal c) 0

def isHexDigit (c : Char) : Bool :=
  isDigit c || (97 ≤ c.toNat && c.toNat ≤ 102) || (65 ≤ c.toNat && c.toNat ≤ 70)

def hexVal (c : Char) : Nat :=
  if isDigit c then digitVal c
  else if 97 ≤ c.toNat && c.toNat ≤ 102 then c.toNat - 'a'.toNat + 10
  else c.toNat - 'A'.toNat + 10

def hexToNat (l : List Char) : Nat :=
  l.foldl (fun a c => a * 16 + hexVal c) 0

/-- The value of integer/fraction digit runs with a decimal exponent:
`(ip.fp) * 10 ^ e` as a canonical `Dec`. -/
def decOfParts (neg : Bool) (ip fp : List Char) (e : Int) : Dec :=
  let m : Int := (digitsToNat ip : Int) * tenPow fp.length + (digitsToNat fp : Int)
  mkDec (if neg then -m else m) (e - (fp.length : Int))

/-- Split off the leading run of decimal digits. -/
def spanDigits (l : List Char) : List Char × List Char :=
  match l with
  | [] => ([], [])
  | c :: cs =>
    if isDigit c then
      let (d, r) := spanDigits cs
      (c :: d, r)
    else ([], l)

/-- Exponent part of a decimal literal: `e`/`E`, optional sign, digits.
Returns the signed exponent, requiring the rest to be consumed entirely. -/
def parseExpPart : List Char → Option Int
  | [] => some 0
  | c :: cs =>
    if c = 'e' || c = 'E' then
      match cs with
      | '+' :: ds =>
        let (dg, r) := spanDigits ds
        if dg ≠ [] && r = [] then some (digitsToNat dg : Int) else none
      | '-' :: ds =>
        let (dg, r) := spanDigits ds
        if dg ≠ [] && r = [] then some (-(digitsToNat dg : Int)) else none
      | ds =>
        let (dg, r) := spanDigits ds
        if dg ≠ [] && r = [] then some (digitsToNat dg : Int) else none
    else none

/-- Unsigned ECMAScript `StrUnsignedDecimalLiteral`:
`Infinity`, or `digits [. digits] [exp]`, or `. digits [exp]`. -/
def parseUnsignedDec (l : List Char) : Option JsNum :=
  if l = "Infinity".data then some .inf
  else
    let (ip, r1) := spanDigits l
    match r1 with
    | '.' :: r2 =>
      let (fp, r3) := spanDigits r2
      if ip = [] && fp = [] then none
      else
        match parseExpPart r3 with
        | some e => some (.fin (decOfParts false ip fp e))
        | none => none
    | _ =>
      if ip = [] then none
      else
        match parseExpPart r1 with
        | some e => some (.fin (decOfParts false ip [] e))
        | none => none

/-- ECMAScript `StringToNumber` (the semantics of `Number(str)`), returning
`none` for `NaN`.  Handles whitespace trimming, signs, `Infinity`,
decimal literals with exponents, and `0x`/`0o`/`0b` integer literals. -/
def jsToNum (s : String) : Option JsNum :=
  let t := jsTrimL s.data
  match t with
  | [] => some (.fin (mkDec 0 0))
  | '0' :: x :: rest =>
    if x = 'x' || x = 'X' then
      if rest ≠ [] && rest.all isHexDigit then some (.fin (mkDec (hexToNat rest : Int) 0))
      else none
    else if x = 'o' || x = 'O' then
      if rest ≠ [] && rest.all (fun c => '0' ≤ c && c ≤ '7') then
        some (.fin (mkDec (rest.foldl (fun a c => a * 8 + digitVal c) 0 : Int) 0))
      else none
    else if x = 'b' || x = 'B' then
      if rest ≠ [] && rest.all (fun c => c = '0' || c = '1') then
        some (.fin (mkDec (rest.foldl (fun a c => a * 2 + digitVal c) 0 : Int) 0))
      else none
    else parseUnsignedDec t
  | '+' :: rest => parseUnsignedDec rest
  | '-' :: rest =>
    match parseUnsignedDec rest with
    | some (.fin d) => some (.fin (mkDec (-d.mant) d.exp))
    | some .inf => some .negInf
    | some .negInf => some .inf
    | none => none
  | _ => parseUnsignedDec t

/-- `!isNaN(Number(s))`. -/
def jsIsNumeric (s : String) : Bool := (jsToNum s).isSome

/-- Decimal digits of `n`, most significant first (fuel-structural;
fuel > n suffices). -/
def natDigitsGo : Nat → Nat → List Char → List Char
  | 0, _, acc => acc
  | fuel + 1, n, acc =>
    if n < 10 then Char.ofNat (48 + n) :: acc
    else natDigitsGo fuel (n / 10) (Char.ofNat (48 + n % 10) :: acc)

/-- Decimal digits of `n` (no sign), most significant first. -/
def natDigits (n : Nat) : List Char := natDigitsGo (n + 1) n []

/-- `int.toString()`/`Int.repr` as the JS decimal rendering of an integer. -/
def intRepr (n : Int) : String :=
  if n < 0 then ⟨'-' :: natDigits n.natAbs⟩ else ⟨natDigits n.natAbs⟩

/-- Decimal rendering of a canonical `Dec`: the model of `num.toString()`
for finite doubles (shortest round-trip decimal).  JS switches to exponent
notation for magnitudes ≥ 1e21 or positive magnitudes < 1e-6; values proven
about stay in the plain-notation range. -/
def decimalRepr (d : Dec) : String :=
  let sign := if d.mant < 0 then "-" else ""
  match d.exp with
  | .ofNat e => sign ++ (⟨natDigits d.mant.natAbs ++ List.replicate e '0'⟩ : String)
  | .negSucc k' =>
    let k := k' + 1
    let ds := natDigits d.mant.natAbs
    let ds := if ds.length ≤ k then List.replicate (k + 1 - ds.length) '0' ++ ds else ds
    sign ++ (⟨ds.take (ds.length - k)⟩ : String) ++ "." ++ (⟨ds.drop (ds.length - k)⟩ : String)

/-- `num.toString()` on a `JsNum`. -/
def numRepr : JsNum → String
  | .fin q => decimalRepr q
  | .inf => "Infinity"
  | .negInf => "-Infinity"

/-! ## The value model -/

/-- JSON-like in-memory value: the common model shared by the serializer and
the parser (JS `null` / booleans / numbers / strings / arrays / objects with
insertion-ordered keys). -/
inductive Value where
  | vNull
  | vBool (b : Bool)
  | vNum (n : JsNum)
  | vStr (s : String)
  | vArr (items : List Value)
  | vObj (fields : List (String × Value))
deriving Repr

mutual

/-- Structural (and insertion-order-sensitive) equality of values. -/
def beqV : Value → Value → Bool
  | .vNull, .vNull => true
  | .vBool a, .vBool b => a = b
  | .vNum a, .vNum b => a = b
  | .vStr a, .vStr b => a = b
  | .vArr a, .vArr b => beqL a b
  | .vObj a, .vObj b => beqF a b
  | _, _ => false

def beqL : List Value → List Value → Bool
  | [], [] => true
  | a :: as, b :: bs => beqV a b && beqL as bs
  | _, _ => false

def beqF : List (String × Value) → List (String × Value) → Bool
  | [], [] => true
  | (k, a) :: as, (l, b) :: bs => k = l && beqV a b && beqF as bs
  | _, _ => false

end

mutual

/-- Soundness of `beqV`, packaged as a definition so the `DecidableEq`
instance below can be part of the data model. -/
def beqV_iff : ∀ a b : Value, beqV a b = true ↔ a = b
  | .vNull, b => by cases b <;> simp [beqV]
  | .vBool x, b => by cases b <;> simp [beqV]
  | .vNum x, b => by cases b <;> simp [beqV]
  | .vStr x, b => by cases b <;> simp [beqV]
  | .vArr xs, b => by
    cases b
    case vArr ys => simpa [beqV] using beqL_iff xs ys
    all_goals simp [beqV]
  | .vObj xs, b => by
    cases b
    case vObj ys => simpa [beqV] using beqF_iff xs ys
    all_goals simp [beqV]

def beqL_iff : ∀ a b : List Value, beqL a b = true ↔ a = b
  | [], b => by cases b <;> simp [beqL]
  | x :: xs, b => by
    cases b with
    | nil => simp [beqL]
    | cons y ys =>
      simp only [beqL, Bool.and_eq_true, List.cons.injEq]
      exact and_congr (beqV_iff x y) (beqL_iff xs ys)

def beqF_iff : ∀ a b : List (String × Value), beqF a b = true ↔ a = b
  | [], b => by cases b <;> simp [beqF]
  | (k, x) :: xs, b => by
    cases b with
    | nil => simp [beqF]
    | cons p ys =>
      obtain ⟨l, y⟩ := p
      simp only [beqF, Bool.and_eq_true, List.cons.injEq, Prod.mk.injEq,
        decide_eq_true_eq]
      rw [beqV_iff x y, beqF_iff xs ys]

end

instance : DecidableEq Value := fun a b => decidable_of_iff _ (beqV_iff a b)

/-! ## JSON string escaping (`JSON.stringify` on strings) and JSON parsing
(`JSON.parse`), used by both directions of the codec. -/

def hexDigitChar (n : Nat) : Char :=
  if n < 10 then Char.ofNat ('0'.toNat + n) else Char.ofNat ('a'.toNat + n - 10)

/-- Escape one character per the JSON string quoting rules. -/
def escChar (c : Char) : List Char :=
  if c = '"' then ['\\', '"']
  else if c = '\\' then ['\\', '\\']
  else if c = Char.ofNat 0x08 then ['\\', 'b']
  else if c = Char.ofNat 0x0c then ['\\', 'f']
  else if c = '\n' then ['\\', 'n']
  else if c = '\r' then ['\\', 'r']
  else if c = '\t' then ['\\', 't']
  else if c.toNat < 0x20 then
    ['\\', 'u', '0', '0', hexDigitChar (c.toNat / 16), hexDigitChar (c.toNat % 16)]
  else [c]

/-- `JSON.stringify(s)` for a string `s`: quote and escape. -/
def jsonQuote (s : String) : String :=
  ⟨'"' :: s.data.flatMap escChar ++ ['"']⟩

/-- JSON whitespace (the only whitespace `JSON.parse` accepts). -/
def jsonWs (c : Char) : Bool := c = ' ' || c = '\t' || c = '\n' || c = '\r'

def skipJsonWs : List Char → List Char
  | [] => []
  | c :: cs => if jsonWs c then skipJsonWs cs else c :: cs

/-- Consume the body of a JSON string literal after the opening quote,
returning the decoded characters and the input after the closing quote.
Lone `\uXXXX` surrogate escapes decode to U+FFFD (unreachable from
`jsonQuote` output).  Fuel-structural; fuel ≥ input length suffices. -/
def strLitBodyGo (fuel : Nat) (l : List Char) : Option (List Char × List Char) :=
  match fuel with
  | 0 => none
  | fuel + 1 =>
    match l with
    | [] => none
    | '"' :: rest => some ([], rest)
    | '\\' :: e :: rest =>
      (match e with
       | '"' => (strLitBodyGo fuel rest).map (fun (b, r) => ('"' :: b, r))
       | '\\' => (strLitBodyGo fuel rest).map (fun (b, r) => ('\\' :: b, r))
       | '/' => (strLitBodyGo fuel rest).map (fun (b, r) => ('/' :: b, r))
       | 'b' => (strLitBodyGo fuel rest).map (fun (b, r) => (Char.ofNat 0x08 :: b, r))
       | 'f' => (strLitBodyGo fuel rest).map (fun (b, r) => (Char.ofNat 0x0c :: b, r))
       | 'n' => (strLitBodyGo fuel rest).map (fun (b, r) => ('\n' :: b, r))
       | 'r' => (strLitBodyGo fuel rest).map (fun (b, r) => ('\r' :: b, r))
       | 't' => (strLitBodyGo fuel rest).map (fun (b, r) => ('\t' :: b, r))
       | 'u' =>
         (match rest with
          | h1 :: h2 :: h3 :: h4 :: rest' =>
            if isHexDigit h1 && isHexDigit h2 && isHexDigit h3 && isHexDigit h4 then
              let n := hexToNat [h1, h2, h3, h4]
              if 0xd800 ≤ n ∧ n ≤ 0xdbff then
                match rest' with
                | '\\' :: 'u' :: l1 :: l2 :: l3 :: l4 :: rest'' =>
                  if isHexDigit l1 && isHexDigit l2 && isHexDigit l3 && isHexDigit l4 then
                    let m := hexToNat [l1, l2, l3, l4]
                    if 0xdc00 ≤ m ∧ m ≤ 0xdfff then
                      (strLitBodyGo fuel rest'').map (fun (b, r) =>
                        (Char.ofNat (0x10000 + (n - 0xd800) * 0x400 + (m - 0xdc00)) :: b, r))
                    else
                      (strLitBodyGo fuel ('\\' :: 'u' :: l1 :: l2 :: l3 :: l4 :: rest'')).map
                        (fun (b, r) => (Char.ofNat 0xfffd :: b, r))
                  else
                    (strLitBodyGo fuel ('\\' :: 'u' :: l1 :: l2 :: l3 :: l4 :: rest'')).map
                      (fun (b, r) => (Char.ofNat 0xfffd :: b, r))
                | other => (strLitBodyGo fuel other).map (fun (b, r) => (Char.ofNat 0xfffd :: b, r))
              else if 0xdc00 ≤ n ∧ n ≤ 0xdfff then
                (strLitBodyGo fuel rest').map (fun (b, r) => (Char.ofNat 0xfffd :: b, r))
              else (strLitBodyGo fuel rest').map (fun (b, r) => (Char.ofNat n :: b, r))
            else none
          | _ => none)
       | _ => none)
    | c :: rest =>
      if c.toNat < 0x20 then none
      else (strLitBodyGo fuel rest).map (fun (b, r) => (c :: b, r))

def strLitBody (l : List Char) : Option (List Char × List Char) :=
  strLitBodyGo (l.length + 1) l

/-- Consume one JSON string literal (opening quote included). -/
def strLit : List Char → Option (List Char × List Char)
  | '"' :: rest => strLitBody rest
  | _ => none

/-- `JSON.parse(s)` succeeding iff `s` is exactly one JSON string literal
surrounded by optional whitespace (the shape the codec applies it to:
inputs that start with a double quote). -/
def jsonParseStr (s : String) : Option String :=
  match strLit (skipJsonWs s.data) with
  | some (b, r) => if skipJsonWs r = [] then some ⟨b⟩ else none
  | none => none

/-- Object field assignment `container[key] = v`: overwrite in place if the
key exists, otherwise append (JS object insertion-order semantics). -/
def objInsert (fields : List (String × Value)) (k : String) (v : Value) :
    List (String × Value) :=
  if fields.any (fun f => f.1 = k) then
    fields.map (fun f => if f.1 = k then (k, v) else f)
  else fields ++ [(k, v)]

/-- Strict JSON number grammar: `-?(0|[1-9][0-9]*)(\.[0-9]+)?([eE][+-]?[0-9]+)?`. -/
def jsonNum (l : List Char) : Option (Dec × List Char) :=
  let (neg, l1) : Bool × List Char :=
    match l with
    | '-' :: r => (true, r)
    | _ => (false, l)
  let ipOpt : Option (List Char × List Char) :=
    match l1 with
    | '0' :: r => some (['0'], r)
    | c :: _ =>
      if isDigit c ∧ c ≠ '0' then
        let (dg, r) := spanDigits l1
        some (dg, r)
      else none
    | [] => none
  match ipOpt with
  | none => none
  | some (ip, r2) =>
    let (fp, r3) : List Char × List Char :=
      match r2 with
      | '.' :: r => spanDigits r
      | _ => ([], r2)
    if r2 ≠ [] ∧ r2.head? = some '.' ∧ fp = [] then none
    else
      let expOpt : Option (Int × List Char) :=
        match r3 with
        | c :: r4 =>
          if c = 'e' ∨ c = 'E' then
            match r4 with
            | '+' :: r5 =>
              let (dg, r6) := spanDigits r5
              if dg = [] then none else some ((digitsToNat dg : Int), r6)
            | '-' :: r5 =>
              let (dg, r6) := spanDigits r5
              if dg = [] then none else some (-(digitsToNat dg : Int), r6)
            | _ =>
              let (dg, r6) := spanDigits r4
              if dg = [] then none else some ((digitsToNat dg : Int), r6)
          else some (0, r3)
        | [] => some (0, r3)
      match expOpt with
      | none => none
      | some (e, r7) => some (decOfParts neg ip fp e, r7)

mutual

/-- One JSON value (fuel-bounded recursive descent; fuel ≥ input length
always suffices). -/
def jsonVal (fuel : Nat) (l : List Char) : Option (Value × List Char) :=
  match fuel with
  | 0 => none
  | fuel + 1 =>
    match skipJsonWs l with
    | 't' :: 'r' :: 'u' :: 'e' :: r => some (.vBool true, r)
    | 'f' :: 'a' :: 'l' :: 's' :: 'e' :: r => some (.vBool false, r)
    | 'n' :: 'u' :: 'l' :: 'l' :: r => some (.vNull, r)
    | '"' :: r => (strLitBody r).map (fun (b, r') => (.vStr ⟨b⟩, r'))
    | '[' :: r =>
      (match skipJsonWs r with
       | ']' :: r' => some (.vArr [], r')
       | _ =>
         match jsonElems fuel r with
         | some (items, r') =>
           match skipJsonWs r' with
           | ']' :: r'' => some (.vArr items, r'')
           | _ => none
         | none => none)
    | '\x7b' :: r =>
      (match skipJsonWs r with
       | '\x7d' :: r' => some (.vObj [], r')
       | _ =>
         match jsonMembers fuel r with
         | some (pairs, r') =>
           match skipJsonWs r' with
           | '\x7d' :: r'' =>
             some (.vObj (pairs.foldl (fun acc f => objInsert acc f.1 f.2) []), r'')
           | _ => none
         | none => none)
    | rest =>
      (jsonNum rest).map (fun (q, r) => (.vNum (.fin q), r))

def jsonElems (fuel : Nat) (l : List Char) : Option (List Value × List Char) :=
  match fuel with
  | 0 => none
  | fuel + 1 =>
    match jsonVal fuel l with
    | none => none
    | some (v, r) =>
      match skipJsonWs r with
      | ',' :: r' =>
        (jsonElems fuel r').map (fun (vs, r'') => (v :: vs, r''))
      | _ => some ([v], r)

def jsonMembers (fuel : Nat) (l : List Char) :
    Option (List (String × Value) × List Char) :=
  match fuel with
  | 0 => none
  | fuel + 1 =>
    match strLit (skipJsonWs l) with
    | none => none
    | some (k, r) =>
      match skipJsonWs r with
      | ':' :: r' =>
        match jsonVal fuel r' with
        | none => none
        | some (v, r'') =>
          match skipJsonWs r'' with
          | ',' :: r3 =>
            (jsonMembers fuel r3).map (fun (fs, r4) => ((⟨k⟩, v) :: fs, r4))
          | _ => some ([(⟨k⟩, v)], r'')
      | _ => none

end

/-- `JSON.parse(s)` as a `Value` (`none` models a thrown `SyntaxError`). -/
def jsonParse (s : String) : Option Value :=
  match jsonVal (s.data.length + 1) s.data with
  | some (v, r) => if skipJsonWs r = [] then some v else none
  | none => none

/-! ## The TOON serializer (`toToon` / `convertToToon`) -/

/-- `[A-Za-z0-9_]` (regex `\w`). -/
def isWordChar (c : Char) : Bool :=
  (97 ≤ c.toNat && c.toNat ≤ 122) || (65 ≤ c.toNat && c.toNat ≤ 90) ||
  isDigit c || c.toNat = 95

/-- `/^[a-zA-Z0-9_.]+$/.test(s)` — strings safe to emit bare. -/
def isBareStr (s : String) : Bool :=
  s.data ≠ [] && s.data.all (fun c => isWordChar c || c = '.')

/-- `/^[a-zA-Z0-9_]+$/.test(s)` — keys safe to emit bare. -/
def isBareKey (s : String) : Bool :=
  s.data ≠ [] && s.data.all isWordChar

/-- `typeof item !== 'object' || item === null`: scalar test used for the
simple/complex array distinction. -/
def isScalar : Value → Bool
  | .vArr _ => false
  | .vObj _ => false
  | _ => true

/-- `Array.prototype.join(sep)`. -/
def strJoin (sep : String) : List String → String
  | [] => ""
  | [x] => x
  | x :: xs => x ++ sep ++ strJoin sep xs

/-- `objStr.replace(new RegExp('^' + itemIndent), target)`:
replace the leading occurrence of `itemIndent`, if present. -/
def dashReplace (itemIndent target objStr : String) : String :=
  if strStarts itemIndent objStr then target ++ strDrop (strLen itemIndent) objStr
  else objStr

mutual

/-- The TOON serializer `toToon(data, indentLevel)`. -/
def toToon : Value → Nat → String
  | .vNull, _ => "null"
  | .vBool b, _ => if b then "true" else "false"
  | .vNum n, _ => numRepr n
  | .vStr s, _ =>
    if s = "true" || s = "false" || s = "null" || jsIsNumeric s then jsonQuote s
    else if isBareStr s then s
    else jsonQuote s
  | .vArr items, lvl =>
    if items.isEmpty then "[]"
    else if items.all isScalar then strJoin "," (toToonAtZero items)
    else strJoin "\n" (toToonItems items lvl)
  | .vObj fields, lvl =>
    if fields.isEmpty then "\x7b\x7d"
    else strJoin "\n" (toToonFields fields lvl)

/-- `data.map(item => toToon(item, 0))` for simple (all-scalar) arrays. -/
def toToonAtZero : List Value → List String
  | [] => []
  | v :: vs => toToon v 0 :: toToonAtZero vs

/-- Complex-array items: objects get the dash spliced into their first
line's indentation; other items are serialized at level 0 after `- `. -/
def toToonItems : List Value → Nat → List String
  | [], _ => []
  | v :: vs, lvl =>
    (match v with
     | .vObj fs =>
       dashReplace (spaces (lvl + 1)) (spaces lvl ++ "- ") (toToon (.vObj fs) (lvl + 1))
     | w => spaces lvl ++ "- " ++ toToon w 0)
    :: toToonItems vs lvl

/-- Object fields, one line (or block) each, in insertion order. -/
def toToonFields : List (String × Value) → Nat → List String
  | [], _ => []
  | (k, v) :: fs, lvl =>
    (let fk := if isBareKey k then k else jsonQuote k
     let ind := spaces lvl
     match v with
     | .vArr items =>
       let lenSfx := "[" ++ intRepr (items.length : Int) ++ "]"
       if items.all isScalar then
         if items.isEmpty then ind ++ fk ++ lenSfx ++ ": []"
         else ind ++ fk ++ lenSfx ++ ": " ++ toToon (.vArr items) 0 ++ " "
       else
         if items.isEmpty then ind ++ fk ++ lenSfx ++ ": []"
         else ind ++ fk ++ lenSfx ++ ":\n" ++ toToon (.vArr items) (lvl + 1)
     | .vObj ofs =>
       if ofs.isEmpty then ind ++ fk ++ ": \x7b \x7d "
       else ind ++ fk ++ ": \n" ++ toToon (.vObj ofs) (lvl + 1) ++ " "
     | w => ind ++ fk ++ ": " ++ toToon w 0 ++ " ")
    :: toToonFields fs lvl

end

/-- `convertToToon`: `JSON.parse` the input, then serialize
(`none` models the thrown conversion error). -/
def convertToToon (s : String) : Option String :=
  (jsonParse s).map (fun v => toToon v 0)

/-! ## The structural validator (`validateToon`) -/

/-- One iteration of the `validateToon` loop (`true` = do not reject). -/
def validLine (line : String) : Bool :=
  if jsTrim line = "" then true
  else
    match searchNonWs line with
    | none => true
    | some ind =>
      if ind % 2 ≠ 0 then false
      else
        let content := jsTrim line
        strStarts "- " content || strHas ':' content

/-- `validateToon(toonString)`. -/
def validateToon (s : String) : Bool := (splitNl s).all validLine

/-! ## The TOON parser (`convertToJson`) -/

/-- Scalar parsing (`parseValue(valueStr)`). -/
def parseValue (vs : String) : Value :=
  if vs = "true" then .vBool true
  else if vs = "false" then .vBool false
  else if vs = "null" then .vNull
  else if vs = "[]" then .vArr []
  else if vs = "\x7b\x7d" then .vObj []
  else if jsIsNumeric vs && !strStarts "\"" vs && !strStarts "'" vs && vs ≠ "" then
    -- the guard makes `jsToNum vs` defined; the default is never reached
    .vNum ((jsToNum vs).getD (.fin (mkDec 0 0)))
  else if (strStarts "\"" vs && strEnds "\"" vs) || (strStarts "'" vs && strEnds "'" vs) then
    if strStarts "\"" vs then
      match jsonParse vs with
      | some v => v
      | none => .vStr (jsSubstring 1 (strLen vs - 1) vs)
    else .vStr (jsSubstring 1 (strLen vs - 1) vs)
  else .vStr vs

/-- The `splitByComma` scanner: split on commas outside quoted spans,
recognizing a quote as literal when the previous character is a backslash. -/
def splitCommaGo (l : List Char) (prev : Option Char) (inQuote : Bool) (quoteChar : Char)
    (cur : List Char) (acc : List (List Char)) : List (List Char) :=
  match l with
  | [] => acc ++ [jsTrimL cur]
  | c :: rest =>
    let qs : Bool × Char :=
      if (c = '"' || c = '\'') && prev ≠ some '\\' then
        if !inQuote then (true, c)
        else if c = quoteChar then (false, quoteChar)
        else (inQuote, quoteChar)
      else (inQuote, quoteChar)
    if c = ',' && !qs.1 then
      splitCommaGo rest (some c) qs.1 qs.2 [] (acc ++ [jsTrimL cur])
    else
      splitCommaGo rest (some c) qs.1 qs.2 (cur ++ [c]) acc

def splitByComma (s : String) : List String :=
  (splitCommaGo s.data none false ' ' [] []).map (⟨·⟩)

/-- A container being built by the parser: an object or an array. -/
inductive Container where
  | cObj (fields : List (String × Value))
  | cArr (items : List Value)
deriving Repr, DecidableEq

/-- How a frame's container is connected to its parent when the frame is
popped: appended to a parent array, assigned to a parent-object field,
the root itself, or discarded (pushed onto a non-array parent). -/
inductive Attach where
  | root
  | toArr
  | toField (k : String)
  | orphan
deriving Repr, DecidableEq

/-- A parser stack frame: the container under construction and the
indentation of the line that opened it. -/
structure Frame where
  cont : Container
  indent : Int
  attach : Attach
deriving Repr, DecidableEq

def finishC : Container → Value
  | .cObj fields => .vObj fields
  | .cArr items => .vArr items

def isArrC : Container → Bool
  | .cArr _ => true
  | .cObj _ => false

/-- `container[key] = v` (a no-op for recording purposes when the container
is an array: `JSON.stringify` drops non-index properties of arrays). -/
def objAssignC (c : Container) (k : String) (v : Value) : Container :=
  match c with
  | .cObj fields => .cObj (objInsert fields k v)
  | .cArr items => .cArr items

/-- Pop a finished frame into the frame below it. -/
def attachTo (f g : Frame) : Frame :=
  match f.attach with
  | .toArr =>
    { g with cont := match g.cont with
        | .cArr xs => .cArr (xs ++ [finishC f.cont])
        | o => o }
  | .toField k => { g with cont := objAssignC g.cont k (finishC f.cont) }
  | .root => g
  | .orphan => g

/-- The ancestor-finding loop: pop frames whose recorded indentation is not
below the current line's, retaining an array frame at equal indentation when
the line is another `- ` item.  Fuel-structural; fuel ≥ stack length
suffices (the stack shrinks by one per iteration). -/
def popFramesGo (fuel : Nat) (ind : Int) (content : String) (st : List Frame) :
    List Frame :=
  match fuel with
  | 0 => st
  | fuel + 1 =>
    match st with
    | [] => []
    | [f] => [f]
    | f :: g :: rest =>
      if f.indent < ind then f :: g :: rest
      else if f.indent = ind && isArrC f.cont && strStarts "- " content then f :: g :: rest
      else popFramesGo fuel ind content (attachTo f g :: rest)

def popFrames (ind : Int) (content : String) (st : List Frame) : List Frame :=
  popFramesGo st.length ind content st

/-- Assign into the top frame's container. -/
def assignTop (k : String) (v : Value) : List Frame → List Frame
  | [] => []
  | f :: rest => { f with cont := objAssignC f.cont k v } :: rest

/-- Append a parsed primitive to the top frame's array (dropped when the
top container is not an array, as in the source). -/
def pushArrTop (v : Value) : List Frame → List Frame
  | [] => []
  | f :: rest =>
    match f.cont with
    | .cArr xs => { f with cont := .cArr (xs ++ [v]) } :: rest
    | .cObj _ => f :: rest

/-- `processValue(container, key, valueStr, indent, stack, lines, i)`:
empty value opens a nested container chosen by one-line lookahead; `[]`/`{}`
assign empty containers; a comma-bearing value not parseable as one quoted
string becomes an inline array; otherwise one scalar. -/
def processValue (key vs : String) (ind : Int) (next : Option (Int × String))
    (st : List Frame) : List Frame :=
  if vs = "" then
    let isNextArr :=
      match next with
      | some (nInd, nContent) => nInd ≥ ind && strStarts "- " nContent
      | none => false
    let newC : Container := if isNextArr then .cArr [] else .cObj []
    match st with
    | [] => []
    | f :: rest =>
      { cont := newC, indent := ind,
        attach := match f.cont with
          | .cObj _ => .toField key
          | .cArr _ => .orphan } :: f :: rest
  else if vs = "[]" then assignTop key (.vArr []) st
  else if vs = "\x7b\x7d" then assignTop key (.vObj []) st
  else
    let isQuoted := (strStarts "\"" vs && strEnds "\"" vs) ||
      (strStarts "'" vs && strEnds "'" vs)
    if strHas ',' vs then
      let isSingle := isQuoted && (jsonParse vs).isSome
      if isSingle then assignTop key (parseValue vs) st
      else assignTop key (.vArr ((splitByComma vs).map parseValue)) st
    else assignTop key (parseValue vs) st

/-- `key.replace(/\[\d+\]$/, '')`: strip one trailing `[digits]`. -/
def stripLenSuffix (k : String) : String :=
  match k.data.reverse with
  | ']' :: rest =>
    let (dg, rest') := spanDigits rest
    match rest' with
    | '[' :: rest'' => if dg ≠ [] then ⟨rest''.reverse⟩ else k
    | _ => k
  | _ => k

/-- `key.replace(/^["']|["']$/g, '')`: strip one leading and one trailing
quote character (single or double). -/
def stripQuoteEnds (k : String) : String :=
  let d1 := match k.data with
    | c :: rest => if c = '"' || c = '\'' then rest else k.data
    | [] => []
  let d2 := match d1.reverse with
    | c :: rest => if c = '"' || c = '\'' then rest.reverse else d1
    | [] => []
  ⟨d2⟩

/-- `/^["']?[\w\d_]+["']?$/.test(keyPart)`. -/
def dashKeyRe1 (s : String) : Bool :=
  let l := s.data
  let l1 := match l with
    | c :: rest => if c = '"' || c = '\'' then rest else l
    | [] => []
  let l2 := match l1.reverse with
    | c :: rest => if c = '"' || c = '\'' then rest.reverse else l1
    | [] => []
  l2 ≠ [] && l2.all isWordChar

/-- `/^"[^"]+"$/.test(keyPart)`. -/
def dashKeyRe2 (s : String) : Bool :=
  match s.data with
  | '"' :: rest =>
    (match rest.reverse with
     | '"' :: mid => mid ≠ [] && mid.all (· ≠ '"')
     | _ => false)
  | _ => false

/-- The `- ` branch of the line loop, after root coercion: an empty rest
opens an object; a `key: value` rest opens an object and processes the
inline first field; anything else is a primitive item. -/
def dashBody (vs : String) (ind : Int) (next : Option (Int × String))
    (st : List Frame) : List Frame :=
  if vs = "" then
    match st with
    | [] => []
    | f :: rest =>
      { cont := .cObj [], indent := ind,
        attach := match f.cont with
          | .cArr _ => .toArr
          | .cObj _ => .orphan } :: f :: rest
  else
    let prim := pushArrTop (parseValue vs) st
    match strIndexOf ':' vs with
    | none => prim
    | some ci =>
      let keyPart := strTake ci vs
      if dashKeyRe1 keyPart || dashKeyRe2 keyPart then
        match st with
        | [] => []
        | f :: rest =>
          let st' : List Frame :=
            { cont := .cObj [], indent := ind,
              attach := match f.cont with
                | .cArr _ => .toArr
                | .cObj _ => .orphan } :: f :: rest
          let key := jsTrim keyPart
          let valStr := jsTrim (strDrop (ci + 1) vs)
          let cleanKey := stripQuoteEnds (stripLenSuffix key)
          processValue cleanKey valStr (ind + 2) next st'
      else prim

/-- Process one (non-blank) line: find the parent by popping frames, then
dispatch on `- ` item lines versus `key: value` lines (lines that are
neither are skipped).  `none` models the exception thrown by `JSON.parse`
on a malformed quoted key. -/
def lineStep (ind : Int) (content : String) (next : Option (Int × String))
    (st : List Frame) : Option (List Frame) :=
  let st1 := popFrames ind content st
  if strStarts "- " content then
    let vs := jsTrim (strDrop 2 content)
    let st2 :=
      match st1 with
      | [] => []
      | f :: rest =>
        if !isArrC f.cont && f.indent = -1 && f.cont = .cObj [] then
          { f with cont := .cArr [] } :: rest
        else f :: rest
    some (dashBody vs ind next st2)
  else
    match strIndexOf ':' content with
    | none => some st1
    | some ci =>
      let key := jsTrim (strTake ci content)
      let vs := jsTrim (strDrop (ci + 1) content)
      let cleanKey := stripLenSuffix key
      if strStarts "\"" cleanKey && strEnds "\"" cleanKey then
        match jsonParseStr cleanKey with
        | some fk => some (processValue fk vs ind next st1)
        | none => none
      else some (processValue cleanKey vs ind next st1)

/-- The indentation (`line.search(/\S/)`, with `-1` as `none`→`-1`) and
trimmed content of a line: all the loop reads from a line. -/
def analyzeLine (l : String) : Int × String :=
  (match searchNonWs l with
   | some n => (n : Int)
   | none => -1,
   jsTrim l)

/-- The per-line loop with one-line lookahead. -/
def runLines : List (Int × String) → List Frame → Option (List Frame)
  | [], st => some st
  | (ind, c) :: rest, st =>
    match lineStep ind c rest.head? st with
    | none => none
    | some st' => runLines rest st'

/-- Pop every remaining frame and return the root container's value
(`stack[0].obj` at the end of the loop). -/
def collapseStack (st : List Frame) : Value :=
  match popFrames (-2) "" st with
  | [f] => finishC f.cont
  | _ => .vNull

/-- `convertToJson`, up to the final `JSON.stringify`: the parsed `Value`
(`none` models the thrown conversion error). -/
def convertToJsonValue (s : String) : Option Value :=
  let lines := (splitNl s).filter (fun l => jsTrim l ≠ "")
  if lines.isEmpty then some (.vObj [])
  else
    match runLines (lines.map analyzeLine) [⟨.cObj [], -1, .root⟩] with
    | some st => some (collapseStack st)
    | none => none

mutual

/-- `JSON.stringify(value, null, 2)` at a given accumulated indentation. -/
def jsonStringifyVal : Value → String → String
  | .vNull, _ => "null"
  | .vBool b, _ => if b then "true" else "false"
  | .vNum n, _ =>
    (match n with
     | .fin q => decimalRepr q
     | _ => "null")
  | .vStr s, _ => jsonQuote s
  | .vArr [], _ => "[]"
  | .vArr (x :: xs), ind =>
    "[\n" ++ strJoin ",\n" (jsonStringifyItems (x :: xs) (ind ++ "  ")) ++
      "\n" ++ ind ++ "]"
  | .vObj [], _ => "\x7b\x7d"
  | .vObj (f :: fs), ind =>
    "\x7b\n" ++ strJoin ",\n" (jsonStringifyFields (f :: fs) (ind ++ "  ")) ++
      "\n" ++ ind ++ "\x7d"

def jsonStringifyItems : List Value → String → List String
  | [], _ => []
  | v :: vs, ind => (ind ++ jsonStringifyVal v ind) :: jsonStringifyItems vs ind

def jsonStringifyFields : List (String × Value) → String → List String
  | [], _ => []
  | (k, v) :: fs, ind =>
    (ind ++ jsonQuote k ++ ": " ++ jsonStringifyVal v ind) :: jsonStringifyFields fs ind

end

def jsonStringify (v : Value) : String := jsonStringifyVal v ""

/-- `convertToJson(toonString)`: parse, then pretty-print the result
(the empty-input early return `'{}'` coincides with
`jsonStringify (.vObj [])`). -/
def convertToJson (s : String) : Option String :=
  (convertToJsonValue s).map jsonStringify

/-! ## JSON repair (`src/utils/jsonRepairUtils.ts`)

`jsonrepair` (the npm library) and `formatJson` (`JSON.parse` +
`JSON.stringify` re-rendering) are external capabilities; `repairJson` is
parameterized by them, `none` modelling a thrown exception. -/

/-- The single counting pass of `balanceBrackets`: net `{`/`}` and `[`/`]`
counts over the whole text. -/
def bracketCounts (s : String) : Int × Int :=
  s.data.foldl
    (fun (p : Int × Int) c =>
      (if c = '\x7b' then p.1 + 1 else if c = '\x7d' then p.1 - 1 else p.1,
       if c = '[' then p.2 + 1 else if c = ']' then p.2 - 1 else p.2))
    (0, 0)

/-- `balanceBrackets(str)`: append one `}` per net unmatched `{`, then one
`]` per net unmatched `[` (nothing is appended for negative counts). -/
def balanceBrackets (s : String) : String :=
  s ++ ⟨List.replicate (bracketCounts s).1.toNat '\x7d'⟩ ++
    ⟨List.replicate (bracketCounts s).2.toNat ']'⟩

/-- `repairJson`: primary attempt `formatJson(jsonrepair(s))`; on failure of
either stage, one fallback attempt on the bracket-balanced text; if that
also fails, the error (`none`) surfaces. -/
def repairJson (jsonrepair formatJson : String → Option String) (s : String) :
    Option String :=
  match (jsonrepair s).bind formatJson with
  | some f => some f
  | none => (jsonrepair (balanceBrackets s)).bind formatJson

/-! ## Definitions referenced by claim statements -/

/-- The example JSON input of spec example 1. -/
def c2Input : String :=
  "\x7b\"user\":\x7b\"name\":\"Alice\",\"active\":true\x7d,\"scores\":[85,92,78]\x7d"

/-- The TOON output the spec claims for it (no trailing spaces). -/
def c2Claimed : String := "user:\n  name: Alice\n  active: true\nscores[3]: 85,92,78"

/-- The TOON output the code actually produces: the serializer's template
literals append a space after each scalar field value, after each nested
block, and between the colon and newline of a nested-object header. -/
def c2Actual : String :=
  "user: \n  name: Alice \n  active: true  \nscores[3]: 85,92,78 "

/-- Count of leading `' '` characters — the claim's reading of a line's
indentation (the code instead uses `line.search(/\S/)`, the index of the
first non-whitespace character, which also advances over tabs). -/
def countLeadSpaces : List Char → Nat
  | [] => 0
  | c :: cs => if c = ' ' then countLeadSpaces cs + 1 else 0

/-- The claim's validator characterization, stated with indentation as the
count of leading spaces. -/
def c5ClaimCond (t : String) : Prop :=
  ∀ l ∈ splitNl t, jsTrim l ≠ "" →
    countLeadSpaces l.data % 2 = 0 ∧
    (strStarts "- " (jsTrim l) = true ∨ strHas ':' (jsTrim l) = true)

instance (t : String) : Decidable (c5ClaimCond t) := by
  unfold c5ClaimCond; infer_instance

/-- Scalar parsing as described by the amended claim, written following the
spec's words: the literals `true`/`false`/`null` map to Bool/Bool/Null and
additionally `[]`/`{}` map to the empty Array/Object; a nonempty text not
starting with a quote whose `Number()` value is not `NaN` maps to that
number (this includes `Infinity`); a double-quoted text is JSON-unescaped,
falling back to delimiter stripping when unescaping fails; a single-quoted
text has its delimiters stripped with no escape processing; anything else
is a bare String. -/
def parseValueSpec (t : String) : Value :=
  if t = "true" then .vBool true
  else if t = "false" then .vBool false
  else if t = "null" then .vNull
  else if t = "[]" then .vArr []
  else if t = "\x7b\x7d" then .vObj []
  else if t ≠ "" && !strStarts "\"" t && !strStarts "'" t && (jsToNum t).isSome then
    .vNum ((jsToNum t).getD (.fin (mkDec 0 0)))
  else if strStarts "\"" t && strEnds "\"" t then
    match jsonParse t with
    | some v => v
    | none => .vStr (jsSubstring 1 (strLen t - 1) t)
  else if strStarts "'" t && strEnds "'" t then
    .vStr (jsSubstring 1 (strLen t - 1) t)
  else .vStr t

/-! ## The round-trip class

A decidable class of `Value`s for which the serialize-then-parse round trip
is proven exact.  The definitions below describe the values; the line
generators `linesO`/`linesA` describe the analyzed lines their serialization
produces, and `popSim` is the stack-simulation relation used to track the
parser's leftover frames. -/

/-- `Dec` values actually produced by `mkDec` (mantissa not divisible by
ten unless the value is the canonical zero). -/
def canonicalDec (d : Dec) : Bool :=
  (decide (d.mant = 0) && decide (d.exp = 0)) || decide (d.mant % 10 ≠ 0)

/-- Finite doubles whose JS `toString()` uses plain decimal notation
(magnitude in `[1e-6, 1e21)` or zero), the range `decimalRepr` models. -/
def plainRange (d : Dec) : Bool :=
  decide (d.mant = 0) ||
  (decide (-5 ≤ d.exp + ((natDigits d.mant.natAbs).length : Int)) &&
   decide (d.exp + ((natDigits d.mant.natAbs).length : Int) ≤ 21))

def goodNum : JsNum → Bool
  | .fin d => canonicalDec d && plainRange d
  | .inf => true
  | .negInf => true

/-- Keys that are not bare but whose quoted form `"k"` is escape-free,
colon-free and nonempty: the parser's key cleaning recovers them exactly. -/
def quotedSafeKey (k : String) : Bool :=
  !k.data.isEmpty && k.data.all (fun c =>
    !(c = '"' || c = '\\' || c = ':' || decide (c.toNat < 0x20)))

def goodKey (k : String) : Bool := isBareKey k || quotedSafeKey k

def isArrV : Value → Bool
  | .vArr _ => true
  | _ => false

/-- No key repeats a later key (so `objInsert` always appends). -/
def keysFresh : List (String × Value) → Bool
  | [] => true
  | (k, _) :: fs => !(fs.any (fun f => decide (f.1 = k))) && keysFresh fs

/-- Scalars safe inside an inline (comma-joined) array: any good scalar
whose serialized form the comma scanner re-splits correctly — for strings,
not ending in a backslash. -/
def inlineSafeItem : Value → Bool
  | .vNull => true
  | .vBool _ => true
  | .vNum n => goodNum n
  | .vStr s => !(s.data.getLast? == some '\\')
  | _ => false

mutual

/-- Field values that round trip in place. -/
def goodFieldVal : Value → Bool
  | .vNull => true
  | .vBool _ => true
  | .vNum n => goodNum n
  | .vStr _ => true
  | .vArr items =>
    if items.isEmpty then true
    else if items.all isScalar then
      decide (2 ≤ items.length) && items.all inlineSafeItem
    else goodItems items
  | .vObj fields => !fields.isEmpty && goodFields fields && keysFresh fields

/-- Fields of a round-tripping object: good keys, good values. -/
def goodFields : List (String × Value) → Bool
  | [] => true
  | (k, v) :: fs => goodKey k && goodFieldVal v && goodFields fs

/-- Items of a complex (dash-form) array: nonempty good objects whose
first field is not array-valued (an array-valued first field breaks the
parser's `key[N]:`-in-dash recognition). -/
def goodItems : List Value → Bool
  | [] => true
  | .vObj fields :: rest =>
    (match fields with
     | [] => false
     | (_, v1) :: _ => !isArrV v1) &&
    (!fields.isEmpty && goodFields fields && keysFresh fields) && goodItems rest
  | _ :: _ => false

end

/-- Root values for which the round trip is proven: nonempty good objects,
or nonempty arrays of good objects (the root coercion handles the latter). -/
def goodRoot : Value → Bool
  | .vObj fields => !fields.isEmpty && goodFields fields && keysFresh fields
  | .vArr items => !items.isEmpty && goodItems items
  | _ => false

/-- The serializer's key rendering. -/
def fmtKey (k : String) : String := if isBareKey k then k else jsonQuote k

mutual

/-- The analyzed `(indent, trimmed content)` lines the serializer produces
for an object's fields at character indent `n`. -/
def linesO : List (String × Value) → Int → List (Int × String)
  | [], _ => []
  | (k, v) :: fs, n =>
    (match v with
     | .vArr items =>
       if items.isEmpty then [(n, fmtKey k ++ "[0]: []")]
       else if items.all isScalar then
         [(n, fmtKey k ++ "[" ++ intRepr (items.length : Int) ++ "]: " ++
            strJoin "," (toToonAtZero items))]
       else (n, fmtKey k ++ "[" ++ intRepr (items.length : Int) ++ "]:") ::
         linesA items (n + 2)
     | .vObj ofs =>
       if ofs.isEmpty then [(n, fmtKey k ++ ": \x7b \x7d")]
       else (n, fmtKey k ++ ":") :: linesO ofs (n + 2)
     | w => [(n, fmtKey k ++ ": " ++ toToon w 0)]) ++ linesO fs n

/-- The analyzed lines for a complex array's items at indent `n`. -/
def linesA : List Value → Int → List (Int × String)
  | [], _ => []
  | v :: vs, n =>
    (match v with
     | .vObj ofs =>
       (match linesO ofs (n + 2) with
        | [] => [(n, "- ")]
        | (_, c1) :: more => (n, "- " ++ c1) :: more)
     | w => [(n, "- " ++ toToon w 0)]) ++ linesA vs n

end

/-- The root coercion the dash branch applies after popping (extracted from
`lineStep` for stating the machine lemmas). -/
def rootCoerce (st : List Frame) : List Frame :=
  match st with
  | [] => []
  | f :: rest =>
    if !isArrC f.cont && f.indent = -1 && f.cont = .cObj [] then
      { f with cont := .cArr [] } :: rest
    else f :: rest

/-- The analyzed non-blank lines of a text: exactly what
`convertToJsonValue` feeds to the line loop. -/
def analyzedLines (s : String) : List (Int × String) :=
  ((splitNl s).filter (fun l => jsTrim l ≠ "")).map analyzeLine

/-- Stack simulation up to indent `n`: both stacks answer the
ancestor-popping search identically for every line strictly shallower than
`n` and — when `dashOK`, for every line, otherwise for non-dash lines — at
`n` itself. -/
def popSim (n : Int) (dashOK : Bool) (st ideal : List Frame) : Prop :=
  ∀ (ind : Int) (c : String),
    (ind < n ∨ (ind = n ∧ (dashOK = true ∨ strStarts "- " c = false))) →
    popFrames ind c st = popFrames ind c ideal

/-- Decomposition of a serialized object block: `m` leading spaces, a solid
first-line core, and a tail that is either trailing whitespace or a newline
followed by the remaining lines; `ls` is the block's analyzed line list. -/
def bridgeOut (s : String) (m : Nat) (ls : List (Int × String)) : Prop :=
  ∃ core tail more,
    s.data = List.replicate m ' ' ++ core ++ tail ∧
    (∃ c0 t, core = c0 :: t ∧ jsWs c0 = false) ∧
    (∃ cl, core.getLast? = some cl ∧ jsWs cl = false) ∧
    '\n' ∉ core ∧
    ls = (((m : Nat) : Int), (⟨core⟩ : String)) :: more ∧
    (((∀ c ∈ tail, jsWs c = true) ∧ '\n' ∉ tail ∧ more = []) ∨
     (∃ w rest2, tail = w ++ '\n' :: rest2 ∧ (∀ c ∈ w, jsWs c = true) ∧ '\n' ∉ w ∧
        analyzedLines ⟨rest2⟩ = more))

/-! ## Supporting lemmas -/

theorem bracketCounts_spec (s : String) :
    bracketCounts s = ((s.data.count '\x7b' : Int) - s.data.count '\x7d',
      (s.data.count '[' : Int) - s.data.count ']') := by
  have h : ∀ (l : List Char) (p : Int × Int),
      l.foldl (fun (p : Int × Int) c =>
        (if c = '\x7b' then p.1 + 1 else if c = '\x7d' then p.1 - 1 else p.1,
         if c = '[' then p.2 + 1 else if c = ']' then p.2 - 1 else p.2)) p
      = (p.1 + l.count '\x7b' - l.count '\x7d', p.2 + l.count '[' - l.count ']') := by
    intro l
    induction l with
    | nil => intro p; simp
    | cons c cs ih =>
      intro p
      simp only [List.foldl_cons, ih, List.count_cons, Prod.mk.injEq]
      constructor <;> (split_ifs <;> simp_all <;> omega)
  have := h s.data (0, 0)
  simpa [bracketCounts] using this

theorem trimLeft_eq_nil_iff (l : List Char) : trimLeft l = [] ↔ ∀ c ∈ l, jsWs c := by
  induction l with
  | nil => simp [trimLeft]
  | cons c cs ih =>
    simp only [trimLeft]
    by_cases h : jsWs c <;> simp [h, ih]

theorem trimLeft_decomp (l : List Char) :
    ∃ p, (∀ c ∈ p, jsWs c) ∧ l = p ++ trimLeft l := by
  induction l with
  | nil => exact ⟨[], by simp, by simp [trimLeft]⟩
  | cons c cs ih =>
    by_cases h : jsWs c
    · obtain ⟨p, hp, hl⟩ := ih
      exact ⟨c :: p, by simpa [h] using hp, by simp [trimLeft, h]; exact hl⟩
    · exact ⟨[], by simp, by simp [trimLeft, h]⟩

theorem jsTrimL_eq_nil_iff (l : List Char) : jsTrimL l = [] ↔ ∀ c ∈ l, jsWs c := by
  unfold jsTrimL trimR
  constructor
  · intro h c hc
    obtain ⟨p, hp, hdec⟩ := trimLeft_decomp l.reverse
    rw [trimLeft_eq_nil_iff] at h
    rcases (by
      have : c ∈ l.reverse := by simpa using hc
      rw [hdec] at this
      simpa using this : c ∈ p ∨ c ∈ trimLeft l.reverse) with h1 | h1
    · exact hp c h1
    · exact h c (by simpa using h1)
  · intro h
    have h1 : trimLeft l.reverse = [] := by
      rw [trimLeft_eq_nil_iff]; intro c hc; exact h c (by simpa using hc)
    simp [h1, trimLeft]

theorem searchNonWsL_eq_none_iff (l : List Char) :
    searchNonWsL l = none ↔ ∀ c ∈ l, jsWs c := by
  induction l with
  | nil => simp [searchNonWsL]
  | cons c cs ih =>
    simp only [searchNonWsL]
    by_cases h : jsWs c <;> simp [h, ih]

theorem searchNonWs_isSome_of_trim_ne (l : String) (h : jsTrim l ≠ "") :
    ∃ n, searchNonWs l = some n := by
  rcases hs : searchNonWs l with _ | n
  · exfalso
    apply h
    have hws := (searchNonWsL_eq_none_iff l.data).mp hs
    have : jsTrimL l.data = [] := (jsTrimL_eq_nil_iff l.data).mpr hws
    simp [jsTrim, this]
  · exact ⟨n, rfl⟩

theorem trimLeft_append (a b : List Char) :
    trimLeft (a ++ b) = if trimLeft a = [] then trimLeft b else trimLeft a ++ b := by
  induction a with
  | nil => simp [trimLeft]
  | cons c cs ih =>
    simp only [List.cons_append, trimLeft]
    by_cases h : jsWs c
    · simp [h, ih]
    · simp [h]

theorem trimLeft_of_head (c : Char) (l : List Char) (h : ¬ jsWs c = true) :
    trimLeft (c :: l) = c :: l := by simp [trimLeft, h]

theorem trimR_eq_nil_iff (l : List Char) : trimR l = [] ↔ ∀ c ∈ l, jsWs c := by
  unfold trimR
  rw [List.reverse_eq_nil_iff, trimLeft_eq_nil_iff]
  constructor <;> (intro h c hc; exact h c (by simpa using hc))

theorem trimR_append (a b : List Char) (hb : trimR b ≠ []) :
    trimR (a ++ b) = a ++ trimR b := by
  unfold trimR at *
  rw [List.reverse_append, trimLeft_append, if_neg (fun h => hb (by simp [h])),
    List.reverse_append]
  simp

theorem trimR_solid (a : List Char) (ha : ∀ c ∈ a, ¬ jsWs c = true) (hne : a ≠ []) :
    trimR a = a := by
  unfold trimR
  rcases h : a.reverse with _ | ⟨c, cs⟩
  · exact absurd (by simpa using h) hne
  · have hc : c ∈ a := by
      have : c ∈ a.reverse := by rw [h]; exact List.mem_cons_self c cs
      simpa using this
    rw [trimLeft_of_head c cs (ha c hc), ← h, List.reverse_reverse]

theorem jsTrim_solid_append (k X : List Char) (hne : k ≠ [])
    (hk : ∀ c ∈ k, ¬ jsWs c = true) :
    jsTrimL (k ++ X) = k ++ trimR X := by
  unfold jsTrimL
  by_cases hX : trimR X = []
  · have h1 : trimR (k ++ X) = trimR k := by
      unfold trimR at *
      rw [List.reverse_append, trimLeft_append, if_pos (by simpa using hX)]
    rw [h1, trimR_solid k hk hne, hX, List.append_nil]
    rcases hd : k with _ | ⟨c, cs⟩
    · exact absurd hd hne
    · exact trimLeft_of_head c cs (hk c (hd ▸ List.mem_cons_self c cs))
  · rw [trimR_append k X hX]
    rcases hd : k with _ | ⟨c, cs⟩
    · exact absurd hd hne
    · rw [List.cons_append, trimLeft_of_head c _ (hk c (hd ▸ List.mem_cons_self c cs))]

theorem trimR_cons_solid (c : Char) (y : List Char) (hc : ¬ jsWs c = true) :
    ∃ y', trimR (c :: y) = c :: y' := by
  by_cases hy : trimR y = []
  · refine ⟨[], ?_⟩
    have : trimR (c :: y) = trimR [c] := by
      show trimR ([c] ++ y) = trimR [c]
      unfold trimR
      rw [List.reverse_append, trimLeft_append, if_pos (by simpa [trimR] using hy)]
    rw [this]
    simp [trimR_solid [c] (by simpa using hc) (by simp)]
  · refine ⟨trimR y, ?_⟩
    show trimR ([c] ++ y) = [c] ++ trimR y
    exact trimR_append [c] y hy

theorem searchNonWsL_cons_head (c : Char) (l : List Char) (h : ¬ jsWs c = true) :
    searchNonWsL (c :: l) = some 0 := by simp [searchNonWsL, h]

theorem strIndexOfL_append_not_mem (c : Char) (a b : List Char) (h : c ∉ a) :
    strIndexOfL c (a ++ b) = (strIndexOfL c b).map (· + a.length) := by
  induction a with
  | nil =>
    simp only [List.nil_append, List.length_nil]
    cases strIndexOfL c b <;> simp
  | cons d ds ih =>
    have hd : d ≠ c := by rintro rfl; exact h (List.mem_cons_self d ds)
    have ih2 := ih (fun hc => h (List.mem_cons_of_mem d hc))
    rw [List.cons_append]
    show (if d = c then some 0 else (strIndexOfL c (ds ++ b)).map (· + 1)) = _
    rw [if_neg hd, ih2]
    cases strIndexOfL c b with
    | none => simp
    | some x => simp; omega

theorem strIndexOfL_cons_self (c : Char) (l : List Char) :
    strIndexOfL c (c :: l) = some 0 := by simp [strIndexOfL]

theorem spanDigits_full (d r : List Char) (hd : ∀ c ∈ d, isDigit c = true)
    (hr : ∀ c ∈ r.head?, isDigit c = false) :
    spanDigits (d ++ r) = (d, r) := by
  induction d with
  | nil =>
    cases r with
    | nil => rfl
    | cons c cs =>
      have := hr c (by simp)
      simp [spanDigits, this]
  | cons c cs ih =>
    have hc := hd c (List.mem_cons_self c cs)
    simp only [List.cons_append, spanDigits, hc, if_true,
      ih (fun x hx => hd x (List.mem_cons_of_mem c hx)) ]
    simp [hc, ih (fun x hx => hd x (List.mem_cons_of_mem c hx))]

theorem digitChar_isDigit (m : Nat) (hm : m < 10) :
    isDigit (Char.ofNat (48 + m)) = true := by
  interval_cases m <;> decide

theorem natDigitsGo_acc (fuel n : Nat) (acc : List Char) :
    natDigitsGo fuel n acc = natDigitsGo fuel n [] ++ acc := by
  induction fuel generalizing n acc with
  | zero => simp [natDigitsGo]
  | succ fuel ih =>
    simp only [natDigitsGo]
    by_cases h : n < 10
    · simp [h]
    · simp only [h, if_false, reduceIte]
      rw [ih (n / 10) _, ih (n / 10) [Char.ofNat (48 + n % 10)]]
      simp

theorem natDigitsGo_digits (fuel n : Nat) :
    ∀ c ∈ natDigitsGo fuel n [], isDigit c = true := by
  induction fuel generalizing n with
  | zero => simp [natDigitsGo]
  | succ fuel ih =>
    intro c hc
    simp only [natDigitsGo] at hc
    by_cases h : n < 10
    · rw [if_pos h] at hc
      simp at hc
      rw [hc]
      exact digitChar_isDigit n h
    · rw [if_neg h, natDigitsGo_acc] at hc
      rcases List.mem_append.mp hc with h1 | h1
      · exact ih (n / 10) c h1
      · simp at h1
        rw [h1]
        exact digitChar_isDigit (n % 10) (Nat.mod_lt _ (by omega))

theorem natDigits_digits (n : Nat) : ∀ c ∈ natDigits n, isDigit c = true :=
  natDigitsGo_digits (n + 1) n

theorem natDigitsGo_ne_nil (fuel n : Nat) (h : n < fuel) :
    natDigitsGo fuel n [] ≠ [] := by
  induction fuel generalizing n with
  | zero => omega
  | succ fuel ih =>
    simp only [natDigitsGo]
    by_cases hn : n < 10
    · simp [hn]
    · rw [if_neg hn, natDigitsGo_acc]
      simp

theorem natDigits_ne_nil (n : Nat) : natDigits n ≠ [] :=
  natDigitsGo_ne_nil (n + 1) n (by omega)

theorem isWordChar_props (c : Char) (h : isWordChar c = true) :
    ¬ jsWs c = true ∧ c ≠ '-' ∧ c ≠ ':' ∧ c ≠ '"' ∧ c ≠ '\'' ∧ c ≠ ']' ∧
    c ≠ '[' ∧ c ≠ '\n' ∧ c ≠ ',' ∧ c ≠ '.' ∧ c ≠ '\\' := by
  have hn : (97 ≤ c.toNat ∧ c.toNat ≤ 122) ∨ (65 ≤ c.toNat ∧ c.toNat ≤ 90) ∨
      (48 ≤ c.toNat ∧ c.toNat ≤ 57) ∨ c.toNat = 95 := by
    unfold isWordChar isDigit at h
    simpa [or_assoc] using h
  refine ⟨?_, ?_, ?_, ?_, ?_, ?_, ?_, ?_, ?_, ?_, ?_⟩
  · intro hw
    unfold jsWs at hw
    simp only [Bool.or_eq_true, Bool.and_eq_true, decide_eq_true_eq] at hw
    rcases hn with ⟨h1, h2⟩ | ⟨h1, h2⟩ | ⟨h1, h2⟩ | h1 <;> omega
  all_goals (intro hx; subst hx; revert h; decide)

theorem splitNlL_shape (l : List Char) : ∃ h t, splitNlL l = h :: t := by
  induction l with
  | nil => exact ⟨[], [], rfl⟩
  | cons c cs ih =>
    obtain ⟨h, t, ht⟩ := ih
    by_cases hc : c = '\n'
    · exact ⟨[], splitNlL cs, by simp [splitNlL, hc]⟩
    · exact ⟨c :: h, t, by simp [splitNlL, hc, ht]⟩

theorem splitNlL_append_noNl (a b : List Char) (ha : '\n' ∉ a) :
    splitNlL (a ++ b) = (a ++ (splitNlL b).headI) :: (splitNlL b).tail := by
  induction a with
  | nil =>
    obtain ⟨h, t, ht⟩ := splitNlL_shape b
    simp [ht]
  | cons c cs ih =>
    have hc : c ≠ '\n' := fun he => ha (he ▸ List.mem_cons_self c cs)
    have ih2 := ih (fun hm => ha (List.mem_cons_of_mem c hm))
    simp only [List.cons_append, splitNlL, if_neg hc, List.append_eq]
    rw [ih2]

theorem strStarts_cons_neq (p : Char) (rest : List Char) (c : Char) (l : List Char)
    (h : c ≠ p) : strStarts ⟨p :: rest⟩ ⟨c :: l⟩ = false := by
  have : (p == c) = false := by simp [Ne.symm h]
  simp [strStarts, List.isPrefixOf, this]

theorem popFramesGo_nondash (fuel : Nat) (ind : Int) (c1 c2 : String)
    (st : List Frame) (h1 : strStarts "- " c1 = false) (h2 : strStarts "- " c2 = false) :
    popFramesGo fuel ind c1 st = popFramesGo fuel ind c2 st := by
  induction fuel generalizing st with
  | zero => rfl
  | succ fuel ih =>
    match st with
    | [] => rfl
    | [f] => rfl
    | f :: g :: rest =>
      simp only [popFramesGo, h1, h2, Bool.and_false]
      by_cases hf : f.indent < ind
      · simp [hf]
      · simp only [hf, if_false, reduceIte]
        exact ih _

theorem stripLenSuffix_annotated (A dg : List Char) (hdg : dg ≠ [])
    (hd : ∀ c ∈ dg, isDigit c = true) :
    stripLenSuffix ⟨A ++ '[' :: (dg ++ [']'])⟩ = ⟨A⟩ := by
  have hrev : (A ++ '[' :: (dg ++ [']'])).reverse = ']' :: (dg.reverse ++ '[' :: A.reverse) := by
    simp
  have hspan : spanDigits (dg.reverse ++ '[' :: A.reverse) = (dg.reverse, '[' :: A.reverse) :=
    spanDigits_full dg.reverse ('[' :: A.reverse)
      (fun c hc => hd c (by simpa using hc)) (fun c hc => by simp at hc; subst hc; decide)
  show stripLenSuffix ⟨A ++ '[' :: (dg ++ [']'])⟩ = ⟨A⟩
  unfold stripLenSuffix
  simp only [hrev, hspan]
  simp [hdg]

theorem stripLenSuffix_bare (A : List Char) (hA : ∀ c ∈ A, isWordChar c = true) :
    stripLenSuffix ⟨A⟩ = ⟨A⟩ := by
  unfold stripLenSuffix
  split
  · next rest heq =>
    exfalso
    have hmem : ']' ∈ A := by
      have : ']' ∈ A.reverse := by
        show ']' ∈ (⟨A⟩ : String).data.reverse
        rw [heq]
        exact List.mem_cons_self _ _
      simpa using this
    exact (isWordChar_props ']' (hA ']' hmem)).2.2.2.2.2.1 rfl
  · rfl

/-- `intRepr` of a nonnegative integer is just its digits. -/
theorem intRepr_ofNat (n : Nat) : intRepr (n : Int) = ⟨natDigits n⟩ := by
  unfold intRepr
  rw [if_neg (by omega)]
  simp

theorem strData_append (a b : String) : (a ++ b).data = a.data ++ b.data := rfl

theorem isDigit_isWordChar (c : Char) (h : isDigit c = true) : isWordChar c = true := by
  unfold isDigit at h
  unfold isWordChar isDigit
  simp only [Bool.and_eq_true, decide_eq_true_eq, Bool.or_eq_true] at h ⊢
  omega

theorem jsTrimL_solid (P : List Char) (hne : P ≠ [])
    (hs : ∀ c ∈ P, ¬ jsWs c = true) : jsTrimL P = P := by
  unfold jsTrimL
  rw [trimR_solid P hs hne]
  rcases hd : P with _ | ⟨c, cs⟩
  · exact absurd hd hne
  · exact trimLeft_of_head c cs (hs c (hd ▸ List.mem_cons_self c cs))

theorem drop_append_cons (P c0 : List Char) (c : Char) :
    (P ++ c :: c0).drop (P.length + 1) = c0 := by
  rw [show P ++ c :: c0 = (P ++ [c]) ++ c0 by simp,
    show P.length + 1 = (P ++ [c]).length by simp]
  exact List.drop_left _ _

/-- Computation rule for `lineStep` on a field line (no dash, colon at a
known index). -/
theorem lineStep_field (ind : Int) (content : String) (next : Option (Int × String))
    (st : List Frame) (hdash : strStarts "- " content = false) (ci : Nat)
    (hci : strIndexOfL ':' content.data = some ci) :
    lineStep ind content next st =
      (if strStarts "\"" (stripLenSuffix (jsTrim (strTake ci content))) &&
          strEnds "\"" (stripLenSuffix (jsTrim (strTake ci content))) then
        match jsonParseStr (stripLenSuffix (jsTrim (strTake ci content))) with
        | some fk =>
          some (processValue fk (jsTrim (strDrop (ci + 1) content)) ind next
            (popFrames ind content st))
        | none => none
      else
        some (processValue (stripLenSuffix (jsTrim (strTake ci content)))
          (jsTrim (strDrop (ci + 1) content)) ind next (popFrames ind content st))) := by
  unfold lineStep
  rw [hdash]
  simp only [Bool.false_eq_true, if_false, reduceIte]
  rw [show strIndexOf ':' content = some ci from hci]

/-- The key lemma for the `[N]` annotation claim: a field line with a bare
key and a `[N]` length annotation is processed exactly like the same line
without the annotation — the parser strips the annotation before doing
anything with the key. -/
theorem lineStep_annotated (A dg c0 : List Char) (ind : Int)
    (next : Option (Int × String)) (st : List Frame)
    (hA : A ≠ []) (hAw : ∀ c ∈ A, isWordChar c = true)
    (hdg : dg ≠ []) (hd : ∀ c ∈ dg, isDigit c = true) :
    lineStep ind ⟨(A ++ '[' :: (dg ++ [']'])) ++ ':' :: c0⟩ next st =
    lineStep ind ⟨A ++ ':' :: c0⟩ next st := by
  obtain ⟨a, A', rfl⟩ : ∃ a A', A = a :: A' := by
    cases A with
    | nil => exact absurd rfl hA
    | cons x xs => exact ⟨x, xs, rfl⟩
  have haw := isWordChar_props a (hAw a (List.mem_cons_self a A'))
  have hsolidA : ∀ c ∈ a :: A', ¬ jsWs c = true :=
    fun c hc => (isWordChar_props c (hAw c hc)).1
  have hsolidD : ∀ c ∈ '[' :: (dg ++ [']']), ¬ jsWs c = true := by
    intro c hc
    rcases List.mem_cons.mp hc with rfl | hc2
    · decide
    · rcases List.mem_append.mp hc2 with h3 | h3
      · exact (isWordChar_props c (isDigit_isWordChar c (hd c h3))).1
      · simp at h3; subst h3; decide
  have hP1 : ((a :: A') ++ '[' :: (dg ++ [']'])) ++ ':' :: c0 =
      a :: ((A' ++ '[' :: (dg ++ [']'])) ++ ':' :: c0) := by simp
  have hP2 : (a :: A') ++ ':' :: c0 = a :: (A' ++ ':' :: c0) := by simp
  have hdash1 : strStarts "- " ⟨((a :: A') ++ '[' :: (dg ++ [']'])) ++ ':' :: c0⟩ = false := by
    rw [hP1]; exact strStarts_cons_neq '-' [' '] a _ haw.2.1
  have hdash2 : strStarts "- " ⟨(a :: A') ++ ':' :: c0⟩ = false := by
    rw [hP2]; exact strStarts_cons_neq '-' [' '] a _ haw.2.1
  have hpop : popFrames ind ⟨((a :: A') ++ '[' :: (dg ++ [']'])) ++ ':' :: c0⟩ st =
      popFrames ind ⟨(a :: A') ++ ':' :: c0⟩ st :=
    popFramesGo_nondash _ _ _ _ _ hdash1 hdash2
  have hnc1 : ∀ c ∈ (a :: A') ++ '[' :: (dg ++ [']']), c ≠ ':' := by
    intro c hc
    rcases List.mem_append.mp hc with h3 | h3
    · exact (isWordChar_props c (hAw c h3)).2.2.1
    · rcases List.mem_cons.mp h3 with rfl | h4
      · decide
      · rcases List.mem_append.mp h4 with h5 | h5
        · exact (isWordChar_props c (isDigit_isWordChar c (hd c h5))).2.2.1
        · simp at h5; subst h5; decide
  have hnc2 : ∀ c ∈ (a :: A'), c ≠ ':' :=
    fun c hc => (isWordChar_props c (hAw c hc)).2.2.1
  have hidx1 : strIndexOfL ':' (((a :: A') ++ '[' :: (dg ++ [']'])) ++ ':' :: c0) =
      some ((a :: A') ++ '[' :: (dg ++ [']'])).length := by
    rw [strIndexOfL_append_not_mem ':' _ _ (fun hm => hnc1 ':' hm rfl),
      strIndexOfL_cons_self]
    simp
  have hidx2 : strIndexOfL ':' ((a :: A') ++ ':' :: c0) = some (a :: A').length := by
    rw [strIndexOfL_append_not_mem ':' _ _ (fun hm => hnc2 ':' hm rfl),
      strIndexOfL_cons_self]
    simp
  have hkey1 : jsTrim (strTake ((a :: A') ++ '[' :: (dg ++ [']'])).length
      ⟨((a :: A') ++ '[' :: (dg ++ [']'])) ++ ':' :: c0⟩) =
      ⟨(a :: A') ++ '[' :: (dg ++ [']'])⟩ := by
    show jsTrim ⟨(((a :: A') ++ '[' :: (dg ++ [']'])) ++ ':' :: c0).take _⟩ = _
    rw [List.take_left]
    show (⟨jsTrimL ((a :: A') ++ '[' :: (dg ++ [']']))⟩ : String) = _
    rw [jsTrimL_solid _ (by simp) (by
      intro c hc
      rcases List.mem_append.mp hc with h3 | h3
      · exact hsolidA c h3
      · exact hsolidD c h3)]
  have hkey2 : jsTrim (strTake (a :: A').length ⟨(a :: A') ++ ':' :: c0⟩) =
      ⟨(a :: A')⟩ := by
    show jsTrim ⟨((a :: A') ++ ':' :: c0).take _⟩ = _
    rw [List.take_left]
    show (⟨jsTrimL (a :: A')⟩ : String) = _
    rw [jsTrimL_solid _ (by simp) hsolidA]
  have hvs1 : strDrop (((a :: A') ++ '[' :: (dg ++ [']'])).length + 1)
      ⟨((a :: A') ++ '[' :: (dg ++ [']'])) ++ ':' :: c0⟩ = ⟨c0⟩ := by
    show (⟨(((a :: A') ++ '[' :: (dg ++ [']'])) ++ ':' :: c0).drop _⟩ : String) = _
    rw [drop_append_cons]
  have hvs2 : strDrop ((a :: A').length + 1) ⟨(a :: A') ++ ':' :: c0⟩ = ⟨c0⟩ := by
    show (⟨((a :: A') ++ ':' :: c0).drop _⟩ : String) = _
    rw [drop_append_cons]
  have hclean1 : stripLenSuffix ⟨(a :: A') ++ '[' :: (dg ++ [']'])⟩ = ⟨a :: A'⟩ :=
    stripLenSuffix_annotated _ dg hdg hd
  have hclean2 : stripLenSuffix ⟨a :: A'⟩ = ⟨a :: A'⟩ :=
    stripLenSuffix_bare _ hAw
  have hquote : strStarts "\"" ⟨a :: A'⟩ = false :=
    strStarts_cons_neq '"' [] a A' haw.2.2.2.1
  rw [lineStep_field ind _ next st hdash1 _ hidx1,
    lineStep_field ind _ next st hdash2 _ hidx2,
    hkey1, hkey2, hvs1, hvs2, hclean1, hclean2, hquote, hpop]

/-! ## Line-splitting and trimming infrastructure for the round trip -/

theorem trimLeft_head (l : List Char) (c : Char) (cs : List Char)
    (h : trimLeft l = c :: cs) : jsWs c = false := by
  induction l with
  | nil => simp [trimLeft] at h
  | cons d ds ih =>
    rw [trimLeft] at h
    by_cases hd : jsWs d
    · rw [if_pos hd] at h; exact ih h
    · rw [if_neg hd] at h
      cases h
      simpa using hd

theorem trimR_of_last (l : List Char) (cl : Char) (h : l.getLast? = some cl)
    (hcl : jsWs cl = false) : trimR l = l := by
  unfold trimR
  have hrev : l.reverse.head? = some cl := by
    rw [List.head?_reverse]; exact h
  cases hr : l.reverse with
  | nil => rw [hr] at hrev; simp at hrev
  | cons x xs =>
    rw [hr] at hrev
    simp only [List.head?_cons, Option.some.injEq] at hrev
    subst hrev
    rw [trimLeft_of_head x xs (by simp [hcl]), ← hr, List.reverse_reverse]

theorem trimR_append_ws (x w : List Char) (hw : ∀ c ∈ w, jsWs c = true) :
    trimR (x ++ w) = trimR x := by
  unfold trimR
  rw [List.reverse_append, trimLeft_append,
    if_pos ((trimLeft_eq_nil_iff _).mpr (fun c hc => hw c (by simpa using hc)))]

theorem jsTrimL_append_ws (x w : List Char) (hw : ∀ c ∈ w, jsWs c = true) :
    jsTrimL (x ++ w) = jsTrimL x := by
  unfold jsTrimL
  rw [trimR_append_ws x w hw]

/-- `str.split('\n')` distributes over a newline: the key compositional
fact for analyzing multi-line serializer output. -/
theorem splitNlL_nl (a b : List Char) :
    splitNlL (a ++ '\n' :: b) = splitNlL a ++ splitNlL b := by
  induction a with
  | nil => simp [splitNlL]
  | cons c cs ih =>
    by_cases hc : c = '\n'
    · subst hc
      simp only [List.cons_append, splitNlL, if_true, List.append_eq, ih,
        List.cons_append]
    · obtain ⟨h, t, ht⟩ := splitNlL_shape cs
      simp only [List.cons_append, splitNlL, if_neg hc, List.append_eq, ih, ht,
        List.cons_append]

theorem splitNlL_noNl (l : List Char) (h : '\n' ∉ l) : splitNlL l = [l] := by
  have := splitNlL_append_noNl l [] h
  simpa [splitNlL] using this

theorem searchNonWsL_append_some (x y : List Char) (i : Nat)
    (h : searchNonWsL x = some i) : searchNonWsL (x ++ y) = some i := by
  induction x generalizing i with
  | nil => simp [searchNonWsL] at h
  | cons c cs ih =>
    rw [searchNonWsL] at h
    by_cases hc : jsWs c
    · rw [if_pos hc] at h
      cases hx : searchNonWsL cs with
      | none => rw [hx] at h; simp at h
      | some j =>
        rw [hx] at h
        simp only [Option.map_some', Option.some.injEq] at h
        rw [List.cons_append, searchNonWsL, if_pos hc, ih j hx]
        simpa using h
    · rw [if_neg hc] at h
      rw [List.cons_append, searchNonWsL, if_neg hc]
      exact h

theorem searchNonWsL_spaces (m : Nat) (c : Char) (l : List Char)
    (hc : jsWs c = false) :
    searchNonWsL (List.replicate m ' ' ++ c :: l) = some m := by
  induction m with
  | zero => simp [searchNonWsL, hc]
  | succ k ih =>
    rw [List.replicate_succ, List.cons_append, searchNonWsL, if_pos (by decide), ih]
    rfl

theorem analyzedLines_nl (a b : List Char) :
    analyzedLines ⟨a ++ '\n' :: b⟩ = analyzedLines ⟨a⟩ ++ analyzedLines ⟨b⟩ := by
  unfold analyzedLines splitNl
  show ((((splitNlL (a ++ '\n' :: b))).map _).filter _).map _ = _
  rw [splitNlL_nl, List.map_append, List.filter_append, List.map_append]

/-- A single physical line `spaces ++ core ++ trailing-ws` analyzes to
indent = number of leading spaces and content = right-trimmed core. -/
theorem analyzedLines_line (m : Nat) (c0 : Char) (core' w : List Char)
    (hc0 : jsWs c0 = false) (hnl : '\n' ∉ c0 :: core')
    (hw : ∀ c ∈ w, jsWs c = true) (hwnl : '\n' ∉ w) :
    analyzedLines ⟨List.replicate m ' ' ++ (c0 :: core') ++ w⟩ =
      [((m : Int), ⟨trimR (c0 :: core')⟩)] := by
  have hnlall : '\n' ∉ List.replicate m ' ' ++ (c0 :: core') ++ w := by
    intro hmem
    rcases List.mem_append.mp hmem with h1 | h1
    · rcases List.mem_append.mp h1 with h2 | h2
      · have := List.eq_of_mem_replicate h2; simp at this
      · exact hnl h2
    · exact hwnl h1
  have htrimR : trimR (List.replicate m ' ' ++ (c0 :: core') ++ w) =
      List.replicate m ' ' ++ trimR (c0 :: core') := by
    rw [trimR_append_ws _ w hw, trimR_append]
    intro hnil
    rw [trimR_eq_nil_iff] at hnil
    rw [hnil c0 (List.mem_cons_self _ _)] at hc0
    simp at hc0
  obtain ⟨y', hy'⟩ := trimR_cons_solid c0 core' (by simp [hc0])
  have htrim : jsTrimL (List.replicate m ' ' ++ (c0 :: core') ++ w) =
      trimR (c0 :: core') := by
    unfold jsTrimL
    rw [htrimR, trimLeft_append,
      if_pos ((trimLeft_eq_nil_iff _).mpr
        (fun c hc => by rw [List.eq_of_mem_replicate hc]; decide)),
      hy', trimLeft_of_head _ _ (by simp [hc0])]
  have hne : jsTrim ⟨List.replicate m ' ' ++ (c0 :: core') ++ w⟩ ≠ "" := by
    intro hcontr
    have hdata : jsTrimL (List.replicate m ' ' ++ (c0 :: core') ++ w) = [] :=
      congrArg String.data hcontr
    rw [htrim, hy'] at hdata
    simp at hdata
  unfold analyzedLines splitNl
  rw [splitNlL_noNl _ hnlall]
  simp only [List.map_cons, List.map_nil, List.filter_cons, List.filter_nil]
  rw [if_pos (by simpa using hne)]
  simp only [List.map_cons, List.map_nil, List.cons.injEq, and_true]
  unfold analyzeLine
  rw [show searchNonWs ⟨List.replicate m ' ' ++ (c0 :: core') ++ w⟩ =
      some m from by
    show searchNonWsL _ = some m
    rw [List.append_assoc, List.cons_append]
    exact searchNonWsL_spaces m c0 (core' ++ w) hc0]
  show ((m : Int), jsTrim _) = ((m : Int), (⟨trimR (c0 :: core')⟩ : String))
  have hfin : jsTrim ⟨List.replicate m ' ' ++ (c0 :: core') ++ w⟩ =
      (⟨trimR (c0 :: core')⟩ : String) := congrArg String.mk htrim
  rw [hfin]

/-- Appending pure (newline-free) whitespace to a text does not change its
analyzed non-blank lines. -/
theorem analyzedLines_trailws_n (n : Nat) : ∀ (l w : List Char), l.length ≤ n →
    (∀ c ∈ w, jsWs c = true) → '\n' ∉ w →
    analyzedLines ⟨l ++ w⟩ = analyzedLines ⟨l⟩ := by
  induction n with
  | zero =>
    intro l w hl hw hwnl
    have : l = [] := List.eq_nil_of_length_eq_zero (by omega)
    subst this
    simp only [List.nil_append]
    unfold analyzedLines splitNl
    rw [splitNlL_noNl w hwnl]
    have hblank : jsTrim ⟨w⟩ = "" := by
      show (⟨jsTrimL w⟩ : String) = ""
      rw [(jsTrimL_eq_nil_iff w).mpr hw]
    have hblank2 : jsTrim (⟨[]⟩ : String) = "" := by decide
    simp [hblank, hblank2, splitNlL]
  | succ n ih =>
    intro l w hl hw hwnl
    by_cases hnl : '\n' ∈ l
    · obtain ⟨a, b, rfl⟩ := List.append_of_mem hnl
      have hb : b.length ≤ n := by
        rw [List.length_append, List.length_cons] at hl
        omega
      rw [List.append_assoc, List.cons_append, analyzedLines_nl,
        analyzedLines_nl, ih b w hb hw hwnl]
    · have hnlw : '\n' ∉ l ++ w := by
        intro hm
        rcases List.mem_append.mp hm with h | h
        · exact hnl h
        · exact hwnl h
      unfold analyzedLines splitNl
      rw [splitNlL_noNl _ hnlw, splitNlL_noNl _ hnl]
      have htr : jsTrim ⟨l ++ w⟩ = jsTrim ⟨l⟩ :=
        congrArg String.mk (jsTrimL_append_ws l w hw)
      by_cases hbl : jsTrim ⟨l⟩ = ""
      · simp [htr, hbl]
      · simp only [List.map_cons, List.map_nil, List.filter_cons, List.filter_nil]
        rw [if_pos (by simp [htr, hbl]), if_pos (by simp [hbl])]
        simp only [List.map_cons, List.map_nil, List.cons.injEq, and_true]
        unfold analyzeLine
        obtain ⟨i, hi⟩ := searchNonWs_isSome_of_trim_ne ⟨l⟩ hbl
        have hiw : searchNonWs ⟨l ++ w⟩ = some i := searchNonWsL_append_some l w i hi
        rw [hi, hiw, htr]

theorem analyzedLines_trailws (l w : List Char) (hw : ∀ c ∈ w, jsWs c = true)
    (hwnl : '\n' ∉ w) : analyzedLines ⟨l ++ w⟩ = analyzedLines ⟨l⟩ :=
  analyzedLines_trailws_n l.length l w (le_refl _) hw hwnl

theorem strJoin_cons (sep e : String) (es : List String) (hne : es ≠ []) :
    strJoin sep (e :: es) = e ++ sep ++ strJoin sep es := by
  cases es with
  | nil => exact absurd rfl hne
  | cons f fs => rfl

theorem analyzedLines_join_cons (e : String) (es : List String) (hne : es ≠ []) :
    analyzedLines (strJoin "\n" (e :: es)) =
      analyzedLines e ++ analyzedLines (strJoin "\n" es) := by
  rw [strJoin_cons _ _ _ hne]
  have hdata : (e ++ "\n" ++ strJoin "\n" es).data =
      e.data ++ '\n' :: (strJoin "\n" es).data := by
    rw [strData_append, strData_append]
    simp
  show analyzedLines ⟨(e ++ "\n" ++ strJoin "\n" es).data⟩ = _
  rw [hdata, analyzedLines_nl]

/-! ## Character-shape facts about serializer output -/

theorem hexDigitChar_props (n : Nat) (h : n < 16) :
    hexDigitChar n ≠ '\n' ∧ isHexDigit (hexDigitChar n) = true ∧
    hexVal (hexDigitChar n) = n := by
  interval_cases n <;> exact ⟨by decide, by decide, by decide⟩

theorem escChar_no_nl (c : Char) : '\n' ∉ escChar c := by
  unfold escChar
  split_ifs with g1 g2 g3 g4 g5 g6 g7 g8
  · decide
  · decide
  · decide
  · decide
  · decide
  · decide
  · decide
  · intro hm
    have hd1 := (hexDigitChar_props (c.toNat / 16) (by omega)).1
    have hd2 := (hexDigitChar_props (c.toNat % 16) (by omega)).1
    simp only [List.mem_cons, List.not_mem_nil, or_false] at hm
    rcases hm with h | h | h | h | h | h
    · exact absurd h (by decide)
    · exact absurd h (by decide)
    · exact absurd h (by decide)
    · exact absurd h (by decide)
    · exact hd1 h.symm
    · exact hd2 h.symm
  · intro hm
    simp only [List.mem_cons, List.not_mem_nil, or_false] at hm
    exact g5 hm.symm

theorem escChar_plain (c : Char) (h1 : c ≠ '"') (h2 : c ≠ '\\')
    (h3 : 32 ≤ c.toNat) : escChar c = [c] := by
  have n3 : c ≠ Char.ofNat 0x08 := by rintro rfl; exact absurd h3 (by decide)
  have n4 : c ≠ Char.ofNat 0x0c := by rintro rfl; exact absurd h3 (by decide)
  have n5 : c ≠ '\n' := by rintro rfl; exact absurd h3 (by decide)
  have n6 : c ≠ '\r' := by rintro rfl; exact absurd h3 (by decide)
  have n7 : c ≠ '\t' := by rintro rfl; exact absurd h3 (by decide)
  have n8 : ¬(c.toNat < 0x20) := by omega
  unfold escChar
  rw [if_neg h1, if_neg h2, if_neg n3, if_neg n4, if_neg n5, if_neg n6, if_neg n7,
    if_neg n8]

theorem flatMap_plain (l : List Char)
    (h : ∀ c ∈ l, c ≠ '"' ∧ c ≠ '\\' ∧ 32 ≤ c.toNat) :
    l.flatMap escChar = l := by
  induction l with
  | nil => rfl
  | cons c cs ih =>
    obtain ⟨h1, h2, h3⟩ := h c (List.mem_cons_self c cs)
    rw [List.flatMap_cons, escChar_plain c h1 h2 h3,
      ih (fun x hx => h x (List.mem_cons_of_mem c hx))]
    rfl

theorem jsonQuote_data (s : String) :
    (jsonQuote s).data = '"' :: s.data.flatMap escChar ++ ['"'] := rfl

theorem jsonQuote_no_nl (s : String) : '\n' ∉ (jsonQuote s).data := by
  rw [jsonQuote_data]
  intro hm
  rcases List.mem_cons.mp hm with h | h
  · exact absurd h (by decide)
  rcases List.mem_append.mp h with h | h
  · obtain ⟨c, _, hmem⟩ := List.mem_flatMap.mp h
    exact escChar_no_nl c hmem
  · simp at h

theorem jsonQuote_last (s : String) : (jsonQuote s).data.getLast? = some '"' := by
  rw [jsonQuote_data]
  exact List.getLast?_concat _

theorem quotedSafeKey_props (k : String) (h : quotedSafeKey k = true) :
    k.data ≠ [] ∧ ∀ c ∈ k.data, c ≠ '"' ∧ c ≠ '\\' ∧ c ≠ ':' ∧ 32 ≤ c.toNat := by
  unfold quotedSafeKey at h
  rw [Bool.and_eq_true] at h
  refine ⟨by simpa using h.1, fun c hc => ?_⟩
  have := List.all_eq_true.mp h.2 c hc
  simp only [Bool.not_eq_true', Bool.or_eq_false_iff, decide_eq_false_iff_not] at this
  exact ⟨by simpa using this.1.1.1, by simpa using this.1.1.2, by simpa using this.1.2,
    by omega⟩

/-- For an escape-free key, `jsonQuote` just wraps it in double quotes. -/
theorem jsonQuote_plain (k : String) (hq : quotedSafeKey k = true) :
    (jsonQuote k).data = '"' :: k.data ++ ['"'] := by
  obtain ⟨_, hall⟩ := quotedSafeKey_props k hq
  rw [jsonQuote_data, flatMap_plain k.data
    (fun c hc => ⟨(hall c hc).1, (hall c hc).2.1, (hall c hc).2.2.2⟩)]

theorem bareStr_solid (s : String) (h : isBareStr s = true) :
    s.data ≠ [] ∧ ∀ c ∈ s.data, jsWs c = false ∧ c ≠ '\n' ∧ c ≠ ':' ∧ c ≠ '-' ∧
      c ≠ '"' ∧ c ≠ '\'' ∧ c ≠ ',' ∧ c ≠ '\\' := by
  unfold isBareStr at h
  rw [Bool.and_eq_true] at h
  refine ⟨by simpa using h.1, fun c hc => ?_⟩
  have hall := List.all_eq_true.mp h.2 c hc
  have h2 : isWordChar c = true ∨ c = '.' := by simpa using hall
  rcases h2 with hw | hd
  · obtain ⟨p1, p2, p3, p4, p5, _, _, p8, p9, _, p11⟩ := isWordChar_props c hw
    exact ⟨by simpa using p1, p8, p3, p2, p4, p5, p9, p11⟩
  · subst hd
    exact ⟨by decide, by decide, by decide, by decide, by decide, by decide,
      by decide, by decide⟩

theorem bareKey_solid (s : String) (h : isBareKey s = true) :
    s.data ≠ [] ∧ ∀ c ∈ s.data, isWordChar c = true := by
  unfold isBareKey at h
  rw [Bool.and_eq_true] at h
  exact ⟨by simpa using h.1, fun c hc => List.all_eq_true.mp h.2 c hc⟩

theorem padded_digits_mem (m k : Nat) :
    ∀ c ∈ (if (natDigits m).length ≤ k then
        List.replicate (k + 1 - (natDigits m).length) '0' ++ natDigits m
      else natDigits m), isDigit c = true := by
  intro c hc
  split at hc
  · rcases List.mem_append.mp hc with h | h
    · rw [List.eq_of_mem_replicate h]; decide
    · exact natDigits_digits m c h
  · exact natDigits_digits m c hc

theorem decimalRepr_mem (d : Dec) :
    ∀ c ∈ (decimalRepr d).data, isDigit c = true ∨ c = '-' ∨ c = '.' := by
  intro c hc
  rcases he : d.exp with e | k'
  · simp only [decimalRepr, he] at hc
    rw [strData_append] at hc
    rcases List.mem_append.mp hc with h | h
    · split at h
      · simp at h; subst h; exact Or.inr (Or.inl rfl)
      · simp at h
    · have h2 : c ∈ natDigits d.mant.natAbs ∨ (¬e = 0 ∧ c = '0') := by simpa using h
      rcases h2 with h2 | ⟨_, h2⟩
      · exact Or.inl (natDigits_digits _ c h2)
      · subst h2; exact Or.inl (by decide)
  · simp only [decimalRepr, he] at hc
    rw [strData_append, strData_append, strData_append] at hc
    rcases List.mem_append.mp hc with h | h
    · rcases List.mem_append.mp h with h1 | h1
      · rcases List.mem_append.mp h1 with h2 | h2
        · split at h2
          · simp at h2; subst h2; exact Or.inr (Or.inl rfl)
          · simp at h2
        · have h3 := List.take_subset _ _ (by simpa using h2)
          exact Or.inl (padded_digits_mem d.mant.natAbs (k' + 1) c h3)
      · simp at h1; subst h1; exact Or.inr (Or.inr rfl)
    · have h3 := List.drop_subset _ _ (by simpa using h)
      exact Or.inl (padded_digits_mem d.mant.natAbs (k' + 1) c h3)

theorem decimalRepr_solid (d : Dec) :
    ∀ c ∈ (decimalRepr d).data, jsWs c = false ∧ c ≠ '\n' ∧ c ≠ '"' ∧
      c ≠ '\'' ∧ c ≠ ',' := by
  intro c hc
  rcases decimalRepr_mem d c hc with h | h | h
  · obtain ⟨p1, _, _, p4, p5, _, _, p8, p9, _, _⟩ :=
      isWordChar_props c (isDigit_isWordChar c h)
    exact ⟨by simpa using p1, p8, p4, p5, p9⟩
  · subst h; exact ⟨by decide, by decide, by decide, by decide, by decide⟩
  · subst h; exact ⟨by decide, by decide, by decide, by decide, by decide⟩

theorem decimalRepr_ne_nil (d : Dec) : (decimalRepr d).data ≠ [] := by
  rcases he : d.exp with e | k'
  · simp only [decimalRepr, he]
    rw [strData_append]
    intro hcontr
    rcases List.append_eq_nil.mp hcontr with ⟨_, h2⟩
    have h3 : natDigits d.mant.natAbs = [] ∧ e = 0 := by simpa using h2
    exact natDigits_ne_nil _ h3.1
  · simp only [decimalRepr, he]
    rw [strData_append, strData_append, strData_append]
    intro hcontr
    rcases List.append_eq_nil.mp hcontr with ⟨h1, _⟩
    rcases List.append_eq_nil.mp h1 with ⟨_, h2⟩
    simp at h2

theorem toToon_vStr (s : String) : toToon (.vStr s) 0 =
    (if s = "true" || s = "false" || s = "null" || jsIsNumeric s then jsonQuote s
     else if isBareStr s then s else jsonQuote s) := rfl

theorem jsonQuote_shape (s : String) :
    ∃ t, (jsonQuote s).data = '"' :: t ∧
      (∃ cl, (jsonQuote s).data.getLast? = some cl ∧ jsWs cl = false) ∧
      '\n' ∉ (jsonQuote s).data :=
  ⟨s.data.flatMap escChar ++ ['"'], jsonQuote_data s,
    ⟨'"', jsonQuote_last s, by decide⟩, jsonQuote_no_nl s⟩

theorem ne_nil_shape (l : List Char) (hne : l ≠ [])
    (hsolid : ∀ c ∈ l, jsWs c = false ∧ c ≠ '\n') :
    ∃ c0 t, l = c0 :: t ∧ jsWs c0 = false ∧
      (∃ cl, l.getLast? = some cl ∧ jsWs cl = false) ∧ '\n' ∉ l := by
  obtain ⟨c0, t, rfl⟩ := List.exists_cons_of_ne_nil hne
  have hne2 : c0 :: t ≠ [] := by simp
  refine ⟨c0, t, rfl, (hsolid c0 (by simp)).1,
    ⟨(c0 :: t).getLast hne2, List.getLast?_eq_getLast _ hne2,
      (hsolid _ (List.getLast_mem hne2)).1⟩, ?_⟩
  intro hm
  exact (hsolid _ hm).2 rfl

/-- Every scalar's serialized text is nonempty, solid at both ends, and
newline-free. -/
theorem scalar_repr_shape (v : Value) (hv : isScalar v = true) :
    ∃ c0 t, (toToon v 0).data = c0 :: t ∧ jsWs c0 = false ∧
      (∃ cl, (toToon v 0).data.getLast? = some cl ∧ jsWs cl = false) ∧
      '\n' ∉ (toToon v 0).data := by
  cases v with
  | vArr items => simp [isScalar] at hv
  | vObj fields => simp [isScalar] at hv
  | vNull =>
    exact ⟨'n', ['u', 'l', 'l'], rfl, by decide, ⟨'l', by decide, by decide⟩, by decide⟩
  | vBool b =>
    cases b
    · exact ⟨'f', ['a', 'l', 's', 'e'], rfl, by decide,
        ⟨'e', by decide, by decide⟩, by decide⟩
    · exact ⟨'t', ['r', 'u', 'e'], rfl, by decide, ⟨'e', by decide, by decide⟩, by decide⟩
  | vNum n =>
    cases n with
    | fin d =>
      have h2 := decimalRepr_solid d
      exact ne_nil_shape _ (decimalRepr_ne_nil d)
        (fun c hc => ⟨(h2 c hc).1, (h2 c hc).2.1⟩)
    | inf =>
      exact ⟨'I', ['n', 'f', 'i', 'n', 'i', 't', 'y'], rfl, by decide,
        ⟨'y', by decide, by decide⟩, by decide⟩
    | negInf =>
      exact ⟨'-', ['I', 'n', 'f', 'i', 'n', 'i', 't', 'y'], rfl, by decide,
        ⟨'y', by decide, by decide⟩, by decide⟩
  | vStr s =>
    rw [toToon_vStr]
    split_ifs with hA hB
    · obtain ⟨t, hd, hl, hn⟩ := jsonQuote_shape s
      exact ⟨'"', t, hd, by decide, hl, hn⟩
    · obtain ⟨hne, hsolid⟩ := bareStr_solid s hB
      exact ne_nil_shape _ hne (fun c hc => ⟨(hsolid c hc).1, (hsolid c hc).2.1⟩)
    · obtain ⟨t, hd, hl, hn⟩ := jsonQuote_shape s
      exact ⟨'"', t, hd, by decide, hl, hn⟩

/-! ## JSON string-literal round trip -/

theorem strLitBodyGo_close (fuel : Nat) (rest : List Char) :
    strLitBodyGo (fuel + 1) ('"' :: rest) = some ([], rest) := rfl

theorem strLitBodyGo_plain (fuel : Nat) (c : Char) (rest : List Char)
    (h1 : c ≠ '"') (h2 : c ≠ '\\') (h3 : 32 ≤ c.toNat) :
    strLitBodyGo (fuel + 1) (c :: rest) =
      (strLitBodyGo fuel rest).map (fun p => (c :: p.1, p.2)) := by
  conv_lhs => unfold strLitBodyGo
  split
  · rename_i heq
    simp at heq
  · rename_i heq
    rw [List.cons.injEq] at heq
    exact absurd heq.1 h1
  · rename_i e r heq
    rw [List.cons.injEq] at heq
    exact absurd heq.1 h2
  · rename_i l cc rr hne1 hne2 heq
    rw [List.cons.injEq] at heq
    obtain ⟨hc, hr⟩ := heq
    subst hc
    subst hr
    rw [if_neg (by omega)]

theorem strLitBodyGo_u (fuel : Nat) (a b c d : Char) (rest : List Char)
    (ha : isHexDigit a = true) (hb : isHexDigit b = true)
    (hc : isHexDigit c = true) (hd : isHexDigit d = true)
    (hlo : hexToNat [a, b, c, d] < 0xd800) :
    strLitBodyGo (fuel + 1) ('\\' :: 'u' :: a :: b :: c :: d :: rest) =
      (strLitBodyGo fuel rest).map
        (fun p => (Char.ofNat (hexToNat [a, b, c, d]) :: p.1, p.2)) := by
  conv_lhs => unfold strLitBodyGo
  simp only [ha, hb, hc, hd, Bool.and_self, Bool.true_and, if_true]
  rw [if_neg (by omega), if_neg (by omega)]

theorem strLitBodyGo_esc (fuel : Nat) (c : Char) (rest : List Char) :
    strLitBodyGo (fuel + 1) (escChar c ++ rest) =
      (strLitBodyGo fuel rest).map (fun p => (c :: p.1, p.2)) := by
  unfold escChar
  split_ifs with g1 g2 g3 g4 g5 g6 g7 g8
  · subst g1; rfl
  · subst g2; rfl
  · subst g3; rfl
  · subst g4; rfl
  · subst g5; rfl
  · subst g6; rfl
  · subst g7; rfl
  · have h16a : c.toNat / 16 < 16 := by omega
    have h16b : c.toNat % 16 < 16 := by omega
    obtain ⟨_, ha, hva⟩ := hexDigitChar_props _ h16a
    obtain ⟨_, hb2, hvb⟩ := hexDigitChar_props _ h16b
    have hz : hexVal '0' = 0 := by decide
    have hn : hexToNat ['0', '0', hexDigitChar (c.toNat / 16),
        hexDigitChar (c.toNat % 16)] = c.toNat := by
      show (((0 * 16 + hexVal '0') * 16 + hexVal '0') * 16 +
        hexVal (hexDigitChar (c.toNat / 16))) * 16 +
        hexVal (hexDigitChar (c.toNat % 16)) = c.toNat
      rw [hva, hvb, hz]
      omega
    rw [show ('\\' :: 'u' :: '0' :: '0' :: hexDigitChar (c.toNat / 16) ::
        hexDigitChar (c.toNat % 16) :: []) ++ rest =
        '\\' :: 'u' :: '0' :: '0' :: hexDigitChar (c.toNat / 16) ::
        hexDigitChar (c.toNat % 16) :: rest from rfl]
    rw [strLitBodyGo_u fuel _ _ _ _ rest (by decide) (by decide) ha hb2
      (by rw [hn]; omega)]
    rw [hn, Char.ofNat_toNat]
  · exact strLitBodyGo_plain fuel c rest g1 g2 (by omega)

theorem escChar_len (c : Char) : 1 ≤ (escChar c).length := by
  unfold escChar
  split_ifs <;> simp

theorem flatMap_escChar_len (cs : List Char) :
    cs.length ≤ (cs.flatMap escChar).length := by
  induction cs with
  | nil => simp
  | cons c cs ih =>
    rw [List.flatMap_cons, List.length_append, List.length_cons]
    have := escChar_len c
    omega

theorem strLitBodyGo_escList (cs : List Char) : ∀ (fuel : Nat) (rest : List Char),
    cs.length + 1 ≤ fuel →
    strLitBodyGo fuel (cs.flatMap escChar ++ '"' :: rest) = some (cs, rest) := by
  induction cs with
  | nil =>
    intro fuel rest hf
    obtain ⟨f, rfl⟩ : ∃ f, fuel = f + 1 := ⟨fuel - 1, by omega⟩
    exact strLitBodyGo_close f rest
  | cons c cs ih =>
    intro fuel rest hf
    obtain ⟨f, rfl⟩ : ∃ f, fuel = f + 1 := ⟨fuel - 1, by omega⟩
    rw [List.flatMap_cons, List.append_assoc, strLitBodyGo_esc f c _,
      ih f rest (by simp at hf; omega)]
    rfl

theorem strLitBody_escList (cs : List Char) (rest : List Char) :
    strLitBody (cs.flatMap escChar ++ '"' :: rest) = some (cs, rest) := by
  unfold strLitBody
  apply strLitBodyGo_escList
  have h1 := flatMap_escChar_len cs
  rw [List.length_append, List.length_cons]
  omega

theorem jsonParseStr_quote (k : String) : jsonParseStr (jsonQuote k) = some k := by
  unfold jsonParseStr
  rw [jsonQuote_data]
  rw [show skipJsonWs ('"' :: k.data.flatMap escChar ++ ['"']) =
    '"' :: k.data.flatMap escChar ++ ['"'] from rfl]
  rw [show strLit ('"' :: k.data.flatMap escChar ++ ['"']) =
    strLitBody (k.data.flatMap escChar ++ ['"']) from rfl]
  rw [show (k.data.flatMap escChar ++ ['"'] : List Char) =
    k.data.flatMap escChar ++ '"' :: [] from rfl]
  rw [strLitBody_escList]
  rfl

theorem jsonVal_quote (fuel : Nat) (r : List Char) :
    jsonVal (fuel + 1) ('"' :: r) =
      (strLitBody r).map (fun p => (Value.vStr ⟨p.1⟩, p.2)) := by
  conv_lhs => unfold jsonVal
  rw [show skipJsonWs ('"' :: r) = '"' :: r from rfl]
  rfl

theorem jsonParse_quote (s : String) : jsonParse (jsonQuote s) = some (.vStr s) := by
  unfold jsonParse
  rw [jsonQuote_data, List.cons_append, jsonVal_quote,
    show (s.data.flatMap escChar ++ ['"'] : List Char) =
      s.data.flatMap escChar ++ '"' :: [] from rfl, strLitBody_escList]
  rfl

theorem jsonParse_quote_extra (s : String) (c : Char) (tail : List Char)
    (hc : jsonWs c = false) :
    jsonParse ⟨(jsonQuote s).data ++ c :: tail⟩ = none := by
  unfold jsonParse
  rw [show ((⟨(jsonQuote s).data ++ c :: tail⟩ : String)).data =
    (jsonQuote s).data ++ c :: tail from rfl, jsonQuote_data]
  rw [show ('"' :: s.data.flatMap escChar ++ ['"']) ++ c :: tail =
    '"' :: (s.data.flatMap escChar ++ '"' :: (c :: tail)) from by simp]
  rw [jsonVal_quote, strLitBody_escList]
  show (if skipJsonWs (c :: tail) = [] then some (Value.vStr ⟨s.data⟩) else none) = none
  rw [show skipJsonWs (c :: tail) = c :: tail from by
    rw [skipJsonWs, if_neg (by simp [hc])]]
  simp

/-! ## `parseValue` on serialized strings -/

theorem jsonQuote_ne_of_head (t : String) (c : Char) (rest : List Char)
    (ht : t.data = c :: rest) (hc : c ≠ '"') (s : String) : jsonQuote s ≠ t := by
  intro h
  have hd := congrArg String.data h
  rw [jsonQuote_data, ht, List.cons_append, List.cons.injEq] at hd
  exact hc (hd.1 ▸ rfl)

theorem jsToNum_quote (s : String) (y : List Char)
    (htr : jsTrimL s.data = '"' :: y) : jsToNum s = none := by
  unfold jsToNum
  rw [htr]
  rfl

theorem jsIsNumeric_jsonQuote (s : String) : jsIsNumeric (jsonQuote s) = false := by
  obtain ⟨y, hy⟩ := trimR_cons_solid '"' (s.data.flatMap escChar ++ ['"']) (by decide)
  have htr : jsTrimL (jsonQuote s).data = '"' :: y := by
    rw [jsonQuote_data, List.cons_append]
    unfold jsTrimL
    rw [hy, trimLeft_of_head _ _ (by decide)]
  unfold jsIsNumeric
  rw [jsToNum_quote _ y htr]
  rfl

theorem strStarts_jsonQuote (s : String) : strStarts "\"" (jsonQuote s) = true := by
  unfold strStarts
  rw [jsonQuote_data, List.cons_append]
  show List.isPrefixOf ('"' :: []) ('"' :: (s.data.flatMap escChar ++ ['"'])) = true
  simp [List.isPrefixOf]

theorem strEnds_jsonQuote (s : String) : strEnds "\"" (jsonQuote s) = true := by
  unfold strEnds
  rw [jsonQuote_data]
  show List.isPrefixOf ('"' :: []).reverse
    (('"' :: s.data.flatMap escChar ++ ['"']).reverse) = true
  rw [List.reverse_append]
  simp [List.isPrefixOf]

theorem parseValue_quote (s : String) : parseValue (jsonQuote s) = .vStr s := by
  have h1 := jsonQuote_ne_of_head "true" 't' ['r', 'u', 'e'] rfl (by decide) s
  have h2 := jsonQuote_ne_of_head "false" 'f' ['a', 'l', 's', 'e'] rfl (by decide) s
  have h3 := jsonQuote_ne_of_head "null" 'n' ['u', 'l', 'l'] rfl (by decide) s
  have h4 := jsonQuote_ne_of_head "[]" '[' [']'] rfl (by decide) s
  have h5 := jsonQuote_ne_of_head "\x7b\x7d" '\x7b' ['\x7d'] rfl (by decide) s
  unfold parseValue
  rw [if_neg h1, if_neg h2, if_neg h3, if_neg h4, if_neg h5, jsIsNumeric_jsonQuote]
  rw [if_neg (by simp)]
  rw [if_pos (by rw [strStarts_jsonQuote s, strEnds_jsonQuote s]; rfl),
    if_pos (strStarts_jsonQuote s), jsonParse_quote]

theorem parseValue_bare (c0 : Char) (t : List Char) (hb : isBareStr ⟨c0 :: t⟩ = true)
    (h1 : (⟨c0 :: t⟩ : String) ≠ "true") (h2 : (⟨c0 :: t⟩ : String) ≠ "false")
    (h3 : (⟨c0 :: t⟩ : String) ≠ "null")
    (hnum : jsIsNumeric ⟨c0 :: t⟩ = false) : parseValue ⟨c0 :: t⟩ = .vStr ⟨c0 :: t⟩ := by
  obtain ⟨_, hsolid⟩ := bareStr_solid _ hb
  have hc0 := hsolid c0 (List.mem_cons_self c0 t)
  have h4 : (⟨c0 :: t⟩ : String) ≠ "[]" := by
    intro h; rw [h] at hb; exact absurd hb (by decide)
  have h5 : (⟨c0 :: t⟩ : String) ≠ "\x7b\x7d" := by
    intro h; rw [h] at hb; exact absurd hb (by decide)
  unfold parseValue
  rw [if_neg h1, if_neg h2, if_neg h3, if_neg h4, if_neg h5, hnum]
  rw [if_neg (by simp)]
  rw [if_neg (by
    rw [strStarts_cons_neq '"' [] c0 t hc0.2.2.2.2.1,
      strStarts_cons_neq '\'' [] c0 t hc0.2.2.2.2.2.1]
    simp)]

/-! ## Number and scalar round trip -/

theorem digitsToNat_acc (l : List Char) : ∀ (a : Nat),
    l.foldl (fun a c => a * 10 + digitVal c) a = a * 10 ^ l.length + digitsToNat l := by
  induction l with
  | nil => intro a; simp [digitsToNat]
  | cons c cs ih =>
    intro a
    show cs.foldl _ (a * 10 + digitVal c) = _
    rw [ih (a * 10 + digitVal c)]
    show _ = a * 10 ^ (c :: cs).length + cs.foldl _ (0 * 10 + digitVal c)
    rw [ih (0 * 10 + digitVal c)]
    simp [List.length_cons]
    ring

theorem digitsToNat_append (a b : List Char) :
    digitsToNat (a ++ b) = digitsToNat a * 10 ^ b.length + digitsToNat b := by
  unfold digitsToNat
  rw [List.foldl_append]
  exact digitsToNat_acc b _

theorem digitsToNat_zeros (k : Nat) : digitsToNat (List.replicate k '0') = 0 := by
  induction k with
  | zero => rfl
  | succ k ih =>
    rw [List.replicate_succ]
    show List.foldl _ (0 * 10 + digitVal '0') _ = 0
    rw [show (0 * 10 + digitVal '0') = 0 from by decide]
    exact ih

theorem digitsToNat_zeros_pre (k : Nat) (l : List Char) :
    digitsToNat (List.replicate k '0' ++ l) = digitsToNat l := by
  rw [digitsToNat_append, digitsToNat_zeros]
  simp

theorem digitVal_ofNat (m : Nat) (h : m < 10) :
    digitVal (Char.ofNat (48 + m)) = m := by
  interval_cases m <;> decide

theorem natDigitsGo_val (fuel : Nat) : ∀ (n : Nat), n < fuel →
    digitsToNat (natDigitsGo fuel n []) = n := by
  induction fuel with
  | zero => intro n h; omega
  | succ fuel ih =>
    intro n h
    rw [natDigitsGo]
    by_cases hn : n < 10
    · rw [if_pos hn]
      show 0 * 10 + digitVal (Char.ofNat (48 + n)) = n
      rw [digitVal_ofNat n hn]
      omega
    · rw [if_neg hn, natDigitsGo_acc, digitsToNat_append]
      rw [ih (n / 10) (by omega)]
      show n / 10 * 10 ^ ([Char.ofNat (48 + n % 10)].length) +
        (0 * 10 + digitVal (Char.ofNat (48 + n % 10))) = n
      rw [digitVal_ofNat (n % 10) (by omega)]
      simp
      omega

theorem natDigits_val (n : Nat) : digitsToNat (natDigits n) = n :=
  natDigitsGo_val (n + 1) n (by omega)

theorem natDigitsGo_head (fuel : Nat) : ∀ (n : Nat), n < fuel → 1 ≤ n →
    ∃ d ds, natDigitsGo fuel n [] = d :: ds ∧ isDigit d = true ∧ d ≠ '0' := by
  induction fuel with
  | zero => intro n h; omega
  | succ fuel ih =>
    intro n h h1
    rw [natDigitsGo]
    by_cases hn : n < 10
    · rw [if_pos hn]
      refine ⟨Char.ofNat (48 + n), [], rfl, digitChar_isDigit n hn, ?_⟩
      intro hcontr
      interval_cases n <;> revert hcontr <;> decide
    · rw [if_neg hn, natDigitsGo_acc]
      obtain ⟨d, ds, hgo, hd, hd0⟩ := ih (n / 10) (by omega) (by omega)
      exact ⟨d, ds ++ [Char.ofNat (48 + n % 10)], by rw [hgo]; rfl, hd, hd0⟩

theorem natDigits_head (n : Nat) (h1 : 1 ≤ n) :
    ∃ d ds, natDigits n = d :: ds ∧ isDigit d = true ∧ d ≠ '0' :=
  natDigitsGo_head (n + 1) n (by omega) h1

theorem tenPow_eq (k : Nat) : tenPow k = (10 : Int) ^ k := by
  induction k with
  | zero => rfl
  | succ k ih => rw [tenPow, ih, pow_succ]; ring

theorem stripTens_exact (k : Nat) : ∀ (fuel : Nat) (m e : Int), m % 10 ≠ 0 →
    k < fuel → stripTens fuel (m * 10 ^ k) e = (m, e + k) := by
  induction k with
  | zero =>
    intro fuel m e hm hk
    obtain ⟨f, rfl⟩ : ∃ f, fuel = f + 1 := ⟨fuel - 1, by omega⟩
    rw [stripTens]
    rw [if_neg (by rw [pow_zero, mul_one]; exact hm)]
    rw [pow_zero, mul_one]
    simp
  | succ k ih =>
    intro fuel m e hm hk
    obtain ⟨f, rfl⟩ : ∃ f, fuel = f + 1 := ⟨fuel - 1, by omega⟩
    rw [stripTens]
    rw [if_pos (by
      rw [pow_succ, ← mul_assoc]
      exact Int.mul_emod_left _ _)]
    rw [show m * 10 ^ (k + 1) / 10 = m * 10 ^ k from by
      rw [pow_succ, ← mul_assoc]
      exact Int.mul_ediv_cancel _ (by norm_num)]
    rw [ih f m (e + 1) hm (by omega)]
    congr 1
    omega

theorem mkDec_mul_pow (m : Int) (k : Nat) (e : Int) (hm : m % 10 ≠ 0) :
    mkDec (m * 10 ^ k) e = ⟨m, e + k⟩ := by
  have hm0 : m ≠ 0 := by intro h; rw [h] at hm; simp at hm
  unfold mkDec
  rw [if_neg (by
    intro h
    rcases mul_eq_zero.mp h with h1 | h1
    · exact hm0 h1
    · exact absurd h1 (by positivity))]
  have hfuel : k < (m * 10 ^ k).natAbs := by
    rw [Int.natAbs_mul]
    have h1 : 1 ≤ m.natAbs := by omega
    have h2 : (((10 : Int) ^ k).natAbs) = 10 ^ k := by
      rw [Int.natAbs_pow]
      rfl
    rw [h2]
    have h3 : k < 10 ^ k := Nat.lt_pow_self (by norm_num) k
    calc k < 10 ^ k := h3
    _ ≤ m.natAbs * 10 ^ k := by nlinarith
  rw [stripTens_exact k _ m e hm hfuel]

theorem mkDec_canon (m : Int) (e : Int) (hm : m % 10 ≠ 0) : mkDec m e = ⟨m, e⟩ := by
  have := mkDec_mul_pow m 0 e hm
  rw [pow_zero, mul_one] at this
  rw [this]
  simp

theorem parseUnsignedDec_plain (m k : Nat) (h1 : 1 ≤ m) :
    parseUnsignedDec (natDigits m ++ List.replicate k '0') =
      some (.fin (mkDec ((m : Int) * 10 ^ k) 0)) := by
  obtain ⟨d, ds, hds, hd, hd0⟩ := natDigits_head m h1
  have hall : ∀ c ∈ natDigits m ++ List.replicate k '0', isDigit c = true := by
    intro c hc
    rcases List.mem_append.mp hc with h | h
    · exact natDigits_digits m c h
    · rw [List.eq_of_mem_replicate h]; decide
  have hInf : ¬(natDigits m ++ List.replicate k '0' = "Infinity".data) := by
    intro h
    have hh := congrArg List.head? h
    rw [hds, List.cons_append, List.head?_cons] at hh
    have : d = 'I' := by simpa using hh
    rw [this] at hd
    exact absurd hd (by decide)
  unfold parseUnsignedDec
  rw [if_neg hInf]
  have hspan : spanDigits (natDigits m ++ List.replicate k '0') =
      (natDigits m ++ List.replicate k '0', []) := by
    have := spanDigits_full (natDigits m ++ List.replicate k '0') [] hall (by simp)
    simpa using this
  rw [hspan]
  show (if natDigits m ++ List.replicate k '0' = [] then none
    else match parseExpPart [] with
    | some e => some (JsNum.fin (decOfParts false (natDigits m ++ List.replicate k '0') [] e))
    | none => none) = some (JsNum.fin (mkDec ((m : Int) * 10 ^ k) 0))
  rw [if_neg (by simp [natDigits_ne_nil])]
  have harg : ((digitsToNat (natDigits m ++ List.replicate k '0') : Int) *
      tenPow ([] : List Char).length + (digitsToNat ([] : List Char) : Int)) =
      (m : Int) * 10 ^ k := by
    rw [digitsToNat_append, digitsToNat_zeros, natDigits_val, tenPow_eq,
      show digitsToNat ([] : List Char) = 0 from rfl]
    simp only [List.length_nil, List.length_replicate, pow_zero]
    push_cast
    ring
  show some (JsNum.fin (mkDec ((digitsToNat (natDigits m ++ List.replicate k '0') : Int) *
      tenPow ([] : List Char).length + (digitsToNat ([] : List Char) : Int))
      (0 - (([] : List Char).length : Int)))) =
    some (JsNum.fin (mkDec ((m : Int) * 10 ^ k) 0))
  rw [harg]
  norm_num

theorem parseUnsignedDec_split (T D : List Char) (hT : T ≠ [])
    (hTd : ∀ c ∈ T, isDigit c = true) (hDd : ∀ c ∈ D, isDigit c = true) :
    parseUnsignedDec (T ++ '.' :: D) =
      some (.fin (mkDec ((digitsToNat (T ++ D) : Int)) (-(D.length : Int)))) := by
  obtain ⟨d, ds, rfl⟩ := List.exists_cons_of_ne_nil hT
  have hInf : ¬((d :: ds) ++ '.' :: D = "Infinity".data) := by
    intro h
    have hh := congrArg List.head? h
    rw [List.cons_append, List.head?_cons] at hh
    have : d = 'I' := by simpa using hh
    rw [this] at hTd
    exact absurd (hTd 'I' (List.mem_cons_self _ _)) (by decide)
  unfold parseUnsignedDec
  rw [if_neg hInf]
  rw [spanDigits_full (d :: ds) ('.' :: D) hTd
    (by intro c hc; simp at hc; subst hc; decide)]
  have hD : spanDigits D = (D, []) := by
    have := spanDigits_full D [] hDd (by simp)
    simpa using this
  show (match spanDigits D with
    | (fp, r3) =>
      if (decide (d :: ds = []) && decide (fp = [])) = true then none
      else match parseExpPart r3 with
      | some e => some (JsNum.fin (decOfParts false (d :: ds) fp e))
      | none => none) = some (JsNum.fin (mkDec ((digitsToNat ((d :: ds) ++ D) : Int))
        (-(D.length : Int))))
  rw [hD]
  show (if (decide (d :: ds = []) && decide (D = [])) = true then none
    else match parseExpPart [] with
    | some e => some (JsNum.fin (decOfParts false (d :: ds) D e))
    | none => none) = some (JsNum.fin (mkDec ((digitsToNat ((d :: ds) ++ D) : Int))
      (-(D.length : Int))))
  rw [if_neg (by simp)]
  have harg : ((digitsToNat (d :: ds) : Int) * tenPow D.length + (digitsToNat D : Int)) =
      (digitsToNat ((d :: ds) ++ D) : Int) := by
    rw [digitsToNat_append, tenPow_eq]
    push_cast
    ring
  show some (JsNum.fin (mkDec ((digitsToNat (d :: ds) : Int) * tenPow D.length +
      (digitsToNat D : Int)) (0 - (D.length : Int)))) =
    some (JsNum.fin (mkDec ((digitsToNat ((d :: ds) ++ D) : Int)) (-(D.length : Int))))
  rw [harg]
  norm_num

theorem isDigit_ne_signs (d : Char) (h : isDigit d = true) :
    d ≠ '+' ∧ d ≠ '-' ∧ d ≠ '"' := by
  refine ⟨?_, ?_, ?_⟩ <;> (intro h2; subst h2; exact absurd h (by decide))

theorem decimalRepr_pos_ofNat (m k : Nat) :
    (decimalRepr ⟨(m : Int), Int.ofNat k⟩).data = natDigits m ++ List.replicate k '0' := by
  show ((if ((m : Int)) < 0 then "-" else "") ++
    (⟨natDigits ((m : Int)).natAbs ++ List.replicate k '0'⟩ : String)).data = _
  rw [if_neg (by omega), Int.natAbs_ofNat]
  rfl

theorem decimalRepr_pos_negSucc (m k' : Nat) :
    ∃ F : List Char, (∀ c ∈ F, isDigit c = true) ∧ digitsToNat F = m ∧
      k' + 1 ≤ F.length ∧ 1 ≤ F.length - (k' + 1) ∧
      (decimalRepr ⟨(m : Int), Int.negSucc k'⟩).data =
        F.take (F.length - (k' + 1)) ++ '.' :: F.drop (F.length - (k' + 1)) ∧
      (F.take (F.length - (k' + 1)) = ['0'] ∨
        (1 ≤ m ∧ ∃ d t', F.take (F.length - (k' + 1)) = d :: t' ∧ isDigit d = true ∧
          d ≠ '0')) := by
  have hL : 1 ≤ (natDigits m).length :=
    List.length_pos.mpr (natDigits_ne_nil m)
  refine ⟨if (natDigits m).length ≤ k' + 1 then
      List.replicate (k' + 1 + 1 - (natDigits m).length) '0' ++ natDigits m
    else natDigits m, padded_digits_mem m (k' + 1), ?_, ?_, ?_, ?_, ?_⟩
  · split
    · rw [digitsToNat_zeros_pre, natDigits_val]
    · exact natDigits_val m
  · split
    · next h =>
      rw [List.length_append, List.length_replicate]
      omega
    · next h => omega
  · split
    · next h =>
      rw [List.length_append, List.length_replicate]
      omega
    · next h => omega
  · show ((if ((m : Int)) < 0 then "-" else "") ++
      (⟨(if (natDigits ((m : Int)).natAbs).length ≤ k' + 1 then
          List.replicate (k' + 1 + 1 - (natDigits ((m : Int)).natAbs).length) '0' ++
            natDigits ((m : Int)).natAbs
        else natDigits ((m : Int)).natAbs).take
          ((if (natDigits ((m : Int)).natAbs).length ≤ k' + 1 then
            List.replicate (k' + 1 + 1 - (natDigits ((m : Int)).natAbs).length) '0' ++
              natDigits ((m : Int)).natAbs
          else natDigits ((m : Int)).natAbs).length - (k' + 1))⟩ : String) ++ "." ++
      (⟨(if (natDigits ((m : Int)).natAbs).length ≤ k' + 1 then
          List.replicate (k' + 1 + 1 - (natDigits ((m : Int)).natAbs).length) '0' ++
            natDigits ((m : Int)).natAbs
        else natDigits ((m : Int)).natAbs).drop
          ((if (natDigits ((m : Int)).natAbs).length ≤ k' + 1 then
            List.replicate (k' + 1 + 1 - (natDigits ((m : Int)).natAbs).length) '0' ++
              natDigits ((m : Int)).natAbs
          else natDigits ((m : Int)).natAbs).length - (k' + 1))⟩ : String)).data = _
    rw [if_neg (by omega)]
    rw [strData_append, strData_append, strData_append]
    simp [Int.natAbs_ofNat]
  · split
    · next h =>
      left
      rw [show (List.replicate (k' + 1 + 1 - (natDigits m).length) '0' ++
          natDigits m).length - (k' + 1) = 1 from by
        rw [List.length_append, List.length_replicate]; omega]
      obtain ⟨z, hz⟩ : ∃ z, k' + 1 + 1 - (natDigits m).length = z + 1 := ⟨k' + 1 - (natDigits m).length, by omega⟩
      rw [hz, List.replicate_succ, List.cons_append, List.take_succ_cons, List.take_zero]
    · next h =>
      right
      have hm : 1 ≤ m := by
        by_contra hm
        have : m = 0 := by omega
        subst this
        exact h (by rw [show (natDigits 0).length = 1 from rfl]; omega)
      obtain ⟨d, ds, hds, hd, hd0⟩ := natDigits_head m hm
      obtain ⟨p', hp'⟩ : ∃ p', (natDigits m).length - (k' + 1) = p' + 1 :=
        ⟨(natDigits m).length - (k' + 1) - 1, by omega⟩
      refine ⟨hm, d, List.take p' ds, ?_, hd, hd0⟩
      rw [hp', hds, List.take_succ_cons]

theorem parseUnsignedDec_decRepr (m : Nat) (e : Int) (h1 : 1 ≤ m)
    (hmod : m % 10 ≠ 0) :
    parseUnsignedDec (decimalRepr ⟨(m : Int), e⟩).data = some (.fin ⟨(m : Int), e⟩) := by
  have hmodI : (m : Int) % 10 ≠ 0 := by
    intro h
    exact hmod (by omega)
  cases e with
  | ofNat k =>
    rw [decimalRepr_pos_ofNat, parseUnsignedDec_plain m k h1, mkDec_mul_pow _ _ _ hmodI]
    rw [zero_add]
    rfl
  | negSucc k' =>
    obtain ⟨F, hFd, hFv, hk1, hp1, hdata, _⟩ := decimalRepr_pos_negSucc m k'
    rw [hdata]
    rw [parseUnsignedDec_split _ _
      (by
        intro hcontr
        have := congrArg List.length hcontr
        rw [List.length_take] at this
        simp at this
        omega)
      (fun c hc => hFd c (List.take_subset _ _ hc))
      (fun c hc => hFd c (List.drop_subset _ _ hc))]
    rw [List.take_append_drop, hFv]
    have hlen : (F.drop (F.length - (k' + 1))).length = k' + 1 := by
      rw [List.length_drop]
      omega
    rw [hlen, mkDec_canon _ _ hmodI]
    rw [show (-((k' + 1 : Nat) : Int)) = Int.negSucc k' from by
      rw [Int.negSucc_eq]
      push_cast
      ring]

theorem decimalRepr_neg (dm de : Int) (hneg : dm < 0) :
    (decimalRepr ⟨dm, de⟩).data =
      '-' :: (decimalRepr ⟨(dm.natAbs : Int), de⟩).data := by
  cases de with
  | ofNat k =>
    simp only [decimalRepr, Int.natAbs_ofNat]
    rw [if_pos hneg, if_neg (show ¬(((dm.natAbs : Nat) : Int) < 0) by omega)]
    rfl
  | negSucc k' =>
    simp only [decimalRepr, Int.natAbs_ofNat]
    rw [if_pos hneg, if_neg (show ¬(((dm.natAbs : Nat) : Int) < 0) by omega)]
    rfl

theorem jsToNum_head_default (s : String) (d : Char) (rest : List Char)
    (htrim : jsTrimL s.data = d :: rest) (hd0 : d ≠ '0') (hdp : d ≠ '+')
    (hdm : d ≠ '-') : jsToNum s = parseUnsignedDec (d :: rest) := by
  unfold jsToNum
  rw [htrim]
  dsimp only
  split
  · rename_i heq
    simp at heq
  · rename_i x r heq
    rw [List.cons.injEq] at heq
    exact absurd heq.1 hd0
  · rename_i r heq
    rw [List.cons.injEq] at heq
    exact absurd heq.1 hdp
  · rename_i r heq
    rw [List.cons.injEq] at heq
    exact absurd heq.1 hdm
  · rfl

theorem jsToNum_zero_dot (s : String) (rest : List Char)
    (htrim : jsTrimL s.data = '0' :: '.' :: rest) :
    jsToNum s = parseUnsignedDec ('0' :: '.' :: rest) := by
  unfold jsToNum
  rw [htrim]
  rfl

theorem jsToNum_head_neg (s : String) (rest : List Char)
    (htrim : jsTrimL s.data = '-' :: rest) :
    jsToNum s =
      (match parseUnsignedDec rest with
       | some (.fin d) => some (.fin (mkDec (-d.mant) d.exp))
       | some .inf => some .negInf
       | some .negInf => some .inf
       | none => none) := by
  unfold jsToNum
  rw [htrim]
  rfl

theorem jsToNum_decimalRepr (d : Dec) (hc : canonicalDec d = true) :
    jsToNum (decimalRepr d) = some (.fin d) := by
  have hcase : (d.mant = 0 ∧ d.exp = 0) ∨ d.mant % 10 ≠ 0 := by
    unfold canonicalDec at hc
    rcases Bool.or_eq_true _ _ |>.mp hc with h | h
    · rw [Bool.and_eq_true] at h
      exact Or.inl ⟨by simpa using h.1, by simpa using h.2⟩
    · exact Or.inr (by simpa using h)
  obtain ⟨dm, de⟩ := d
  rcases hcase with ⟨hm0, he0⟩ | hmod
  · simp only at hm0 he0
    subst hm0
    subst he0
    decide
  · simp only at hmod
    have hsolid : jsTrimL (decimalRepr ⟨dm, de⟩).data = (decimalRepr ⟨dm, de⟩).data :=
      jsTrimL_solid _ (decimalRepr_ne_nil _)
        (fun c hcm => by simp [(decimalRepr_solid _ c hcm).1])
    rcases lt_trichotomy dm 0 with hneg | hz | hpos
    · -- negative mantissa: '-' followed by the unsigned rendering
      have hmodN : dm.natAbs % 10 ≠ 0 := by omega
      rw [jsToNum_head_neg _ _ (by rw [hsolid]; exact decimalRepr_neg dm de hneg)]
      rw [parseUnsignedDec_decRepr dm.natAbs de (by omega) hmodN]
      show some (JsNum.fin (mkDec (-((dm.natAbs : Nat) : Int)) de)) = _
      rw [show (-((dm.natAbs : Nat) : Int)) = dm from by omega, mkDec_canon _ _ hmod]
    · exact absurd hz (by intro h; rw [h] at hmod; simp at hmod)
    · -- positive mantissa
      obtain ⟨m, rfl⟩ : ∃ m : Nat, dm = (m : Int) := ⟨dm.toNat, by omega⟩
      have hm1 : 1 ≤ m := by omega
      have hmodN : m % 10 ≠ 0 := by omega
      cases de with
      | ofNat k =>
        obtain ⟨dd, ds, hds, hd, hd0⟩ := natDigits_head m hm1
        obtain ⟨hdp, hdm, _⟩ := isDigit_ne_signs dd hd
        rw [jsToNum_head_default _ dd (ds ++ List.replicate k '0')
          (by rw [hsolid, decimalRepr_pos_ofNat, hds, List.cons_append]) hd0 hdp hdm]
        rw [← List.cons_append, ← hds, parseUnsignedDec_plain m k hm1,
          mkDec_mul_pow _ _ _ (by omega), zero_add]
        rfl
      | negSucc k' =>
        obtain ⟨F, hFd, hFv, hk1, hp1, hdata, hhead⟩ := decimalRepr_pos_negSucc m k'
        rcases hhead with h0 | ⟨_, dd, t', ht', hd, hd0⟩
        · rw [jsToNum_zero_dot _ (F.drop (F.length - (k' + 1)))
            (by rw [hsolid, hdata, h0]; rfl)]
          rw [show ('0' :: '.' :: F.drop (F.length - (k' + 1))) =
            (decimalRepr ⟨(m : Int), Int.negSucc k'⟩).data from by
            rw [hdata, h0]; rfl]
          exact parseUnsignedDec_decRepr m (Int.negSucc k') hm1 hmodN
        · obtain ⟨hdp, hdm, _⟩ := isDigit_ne_signs dd hd
          rw [jsToNum_head_default _ dd (t' ++ '.' :: F.drop (F.length - (k' + 1)))
            (by rw [hsolid, hdata, ht', List.cons_append]) hd0 hdp hdm]
          rw [← List.cons_append, ← ht', ← hdata]
          exact parseUnsignedDec_decRepr m (Int.negSucc k') hm1 hmodN

theorem parseValue_numRepr (n : JsNum) (hg : goodNum n = true) :
    parseValue (numRepr n) = .vNum n := by
  cases n with
  | inf => decide
  | negInf => decide
  | fin d =>
    have hc : canonicalDec d = true := by
      unfold goodNum at hg
      rw [Bool.and_eq_true] at hg
      exact hg.1
    have hnum : jsToNum (decimalRepr d) = some (.fin d) := jsToNum_decimalRepr d hc
    have hne : ∀ (t : String), jsToNum t = none → decimalRepr d ≠ t := by
      intro t ht h
      rw [h, ht] at hnum
      simp at hnum
    obtain ⟨c0, t, hd⟩ := List.exists_cons_of_ne_nil (decimalRepr_ne_nil d)
    have hsS : decimalRepr d = (⟨c0 :: t⟩ : String) := congrArg String.mk hd
    have hc0 : c0 ≠ '"' ∧ c0 ≠ '\'' := by
      have hmem : c0 ∈ (decimalRepr d).data := by
        rw [hd]; exact List.mem_cons_self _ _
      rcases decimalRepr_mem d c0 hmem with h | h | h
      · exact ⟨(isDigit_ne_signs c0 h).2.2, by
          intro hq; subst hq; exact absurd h (by decide)⟩
      · subst h; exact ⟨by decide, by decide⟩
      · subst h; exact ⟨by decide, by decide⟩
    show parseValue (decimalRepr d) = .vNum (.fin d)
    unfold parseValue
    rw [if_neg (hne "true" (by decide)), if_neg (hne "false" (by decide)),
      if_neg (hne "null" (by decide)), if_neg (hne "[]" (by decide)),
      if_neg (hne "\x7b\x7d" (by decide))]
    have hnn : (⟨c0 :: t⟩ : String) ≠ "" := by
      intro h
      have := congrArg String.data h
      simp at this
    have hcond : (jsIsNumeric (decimalRepr d) && !strStarts "\"" (decimalRepr d) &&
        !strStarts "'" (decimalRepr d) && decide (decimalRepr d ≠ "")) = true := by
      rw [show jsIsNumeric (decimalRepr d) = true from by
        unfold jsIsNumeric; rw [hnum]; rfl]
      rw [hsS, strStarts_cons_neq '"' [] c0 t hc0.1,
        strStarts_cons_neq '\'' [] c0 t hc0.2]
      simp [hnn]
    rw [if_pos hcond, hnum]
    rfl

theorem parseValue_toToon_scalar (v : Value) (hs : isScalar v = true)
    (hnum : ∀ n, v = .vNum n → goodNum n = true) :
    parseValue (toToon v 0) = v := by
  cases v with
  | vArr items => simp [isScalar] at hs
  | vObj fields => simp [isScalar] at hs
  | vNull => decide
  | vBool b => cases b <;> decide
  | vNum n => exact parseValue_numRepr n (hnum n rfl)
  | vStr s =>
    rw [toToon_vStr]
    split_ifs with hA hB
    · exact parseValue_quote s
    · obtain ⟨hne, _⟩ := bareStr_solid s hB
      obtain ⟨c0, t, hd⟩ := List.exists_cons_of_ne_nil hne
      have hsS : s = (⟨c0 :: t⟩ : String) := congrArg String.mk hd
      have hj : jsIsNumeric s = false := by
        cases hj : jsIsNumeric s with
        | false => rfl
        | true => exact absurd (by rw [hj]; simp) hA
      have h1 : s ≠ "true" := by
        intro h; exact hA (by rw [h]; decide)
      have h2 : s ≠ "false" := by
        intro h; exact hA (by rw [h]; decide)
      have h3 : s ≠ "null" := by
        intro h; exact hA (by rw [h]; decide)
      rw [hsS]
      exact parseValue_bare c0 t (hsS ▸ hB) (hsS ▸ h1) (hsS ▸ h2) (hsS ▸ h3) (hsS ▸ hj)
    · exact parseValue_quote s

/-! ## The comma scanner on serialized inline arrays -/

theorem hexDigitChar_inert (n : Nat) (h : n < 16) :
    hexDigitChar n ≠ '"' ∧ hexDigitChar n ≠ '\'' ∧ hexDigitChar n ≠ ',' ∧
    hexDigitChar n ≠ '\\' := by
  interval_cases n <;> exact ⟨by decide, by decide, by decide, by decide⟩

theorem splitCommaGo_step_bare (c : Char) (rest : List Char) (prev : Option Char)
    (q : Char) (cur : List Char) (acc : List (List Char))
    (hc1 : c ≠ '"') (hc2 : c ≠ '\'') (hc3 : c ≠ ',') :
    splitCommaGo (c :: rest) prev false q cur acc =
      splitCommaGo rest (some c) false q (cur ++ [c]) acc := by
  conv_lhs => unfold splitCommaGo
  dsimp only
  rw [if_neg (show ¬(((decide (c = '"') || decide (c = '\'')) &&
    decide (prev ≠ some '\\')) = true) from by simp [hc1, hc2])]
  rw [if_neg (show ¬((decide (c = ',') && !(false, q).1) = true) from by simp [hc3])]

theorem splitCommaGo_comma (rest : List Char) (prev : Option Char) (q : Char)
    (cur : List Char) (acc : List (List Char)) :
    splitCommaGo (',' :: rest) prev false q cur acc =
      splitCommaGo rest (some ',') false q [] (acc ++ [jsTrimL cur]) := by
  conv_lhs => unfold splitCommaGo
  dsimp only
  rw [if_neg (show ¬(((decide ((',' : Char) = '"') || decide ((',' : Char) = '\'')) &&
    decide (prev ≠ some '\\')) = true) from by simp)]
  rw [if_pos (show ((decide ((',' : Char) = ',') && !(false, q).1) = true) from by simp)]

theorem splitCommaGo_open_quote (rest : List Char) (prev : Option Char) (q : Char)
    (cur : List Char) (acc : List (List Char)) (hprev : prev ≠ some '\\') :
    splitCommaGo ('"' :: rest) prev false q cur acc =
      splitCommaGo rest (some '"') true '"' (cur ++ ['"']) acc := by
  conv_lhs => unfold splitCommaGo
  dsimp only
  rw [if_pos (show (((decide (('"' : Char) = '"') || decide (('"' : Char) = '\'')) &&
    decide (prev ≠ some '\\')) = true) from by simp [hprev])]
  rw [if_pos (show ((!false) = true) from by decide)]
  rw [if_neg (show ¬((decide (('"' : Char) = ',') && !(true, ('"' : Char)).1) = true)
    from by simp)]

theorem splitCommaGo_close_quote (rest : List Char) (prev : Option Char)
    (cur : List Char) (acc : List (List Char)) (hprev : prev ≠ some '\\') :
    splitCommaGo ('"' :: rest) prev true '"' cur acc =
      splitCommaGo rest (some '"') false '"' (cur ++ ['"']) acc := by
  conv_lhs => unfold splitCommaGo
  dsimp only
  rw [if_pos (show (((decide (('"' : Char) = '"') || decide (('"' : Char) = '\'')) &&
    decide (prev ≠ some '\\')) = true) from by simp [hprev])]
  rw [if_neg (show ¬((!true) = true) from by decide)]
  rw [if_pos (show ('"' : Char) = '"' from rfl)]
  rw [if_neg (show ¬((decide (('"' : Char) = ',') && !(false, ('"' : Char)).1) = true)
    from by simp)]

theorem splitCommaGo_step_inQ (c : Char) (rest : List Char) (prev : Option Char)
    (cur : List Char) (acc : List (List Char)) (hc : c = '"' → prev = some '\\') :
    splitCommaGo (c :: rest) prev true '"' cur acc =
      splitCommaGo rest (some c) true '"' (cur ++ [c]) acc := by
  conv_lhs => unfold splitCommaGo
  dsimp only
  by_cases hg : ((decide (c = '"') || decide (c = '\'')) && decide (prev ≠ some '\\')) = true
  · have hcq : c = '\'' := by
      rcases Bool.and_eq_true _ _ |>.mp hg with ⟨h1, h2⟩
      rcases Bool.or_eq_true _ _ |>.mp h1 with h3 | h3
      · rw [decide_eq_true_eq] at h2 h3
        exact absurd (hc h3) h2
      · simpa using h3
    subst hcq
    rw [if_pos hg]
    rw [if_neg (show ¬((!true) = true) from by decide)]
    rw [if_neg (show ¬(('\'' : Char) = '"') from by decide)]
    rw [if_neg (show ¬((decide (('\'' : Char) = ',') && !(true, ('"' : Char)).1) = true)
      from by simp)]
  · rw [if_neg hg]
    rw [if_neg (show ¬((decide (c = ',') && !(true, ('"' : Char)).1) = true) from by simp)]

theorem splitCommaGo_escGroup (c : Char) :
    ∃ x, (escChar c).getLast? = some x ∧ (x = '\\' → c = '\\') ∧
    ∀ (rest : List Char) (prev : Option Char) (cur : List Char)
      (acc : List (List Char)),
      splitCommaGo (escChar c ++ rest) prev true '"' cur acc =
        splitCommaGo rest (some x) true '"' (cur ++ escChar c) acc := by
  by_cases h1 : c = '"'
  · subst h1
    refine ⟨'"', rfl, by decide, fun rest prev cur acc => ?_⟩
    rw [show escChar '"' = ['\\', '"'] from rfl, List.cons_append, List.cons_append,
      splitCommaGo_step_inQ '\\' _ prev _ _ (fun hx => absurd hx (by decide)),
      splitCommaGo_step_inQ '"' _ (some '\\') _ _ (fun _ => rfl)]
    simp
  by_cases h2 : c = '\\'
  · subst h2
    refine ⟨'\\', rfl, fun _ => rfl, fun rest prev cur acc => ?_⟩
    rw [show escChar '\\' = ['\\', '\\'] from rfl, List.cons_append, List.cons_append,
      splitCommaGo_step_inQ '\\' _ prev _ _ (fun hx => absurd hx (by decide)),
      splitCommaGo_step_inQ '\\' _ (some '\\') _ _ (by decide)]
    simp
  by_cases h3 : c = Char.ofNat 0x08
  · subst h3
    refine ⟨'b', by decide, by decide, fun rest prev cur acc => ?_⟩
    rw [show escChar (Char.ofNat 0x08) = ['\\', 'b'] from rfl, List.cons_append,
      List.cons_append,
      splitCommaGo_step_inQ '\\' _ prev _ _ (fun hx => absurd hx (by decide)),
      splitCommaGo_step_inQ 'b' _ (some '\\') _ _ (by decide)]
    simp
  by_cases h4 : c = Char.ofNat 0x0c
  · subst h4
    refine ⟨'f', by decide, by decide, fun rest prev cur acc => ?_⟩
    rw [show escChar (Char.ofNat 0x0c) = ['\\', 'f'] from rfl, List.cons_append,
      List.cons_append,
      splitCommaGo_step_inQ '\\' _ prev _ _ (fun hx => absurd hx (by decide)),
      splitCommaGo_step_inQ 'f' _ (some '\\') _ _ (by decide)]
    simp
  by_cases h5 : c = '\n'
  · subst h5
    refine ⟨'n', by decide, by decide, fun rest prev cur acc => ?_⟩
    rw [show escChar '\n' = ['\\', 'n'] from rfl, List.cons_append, List.cons_append,
      splitCommaGo_step_inQ '\\' _ prev _ _ (fun hx => absurd hx (by decide)),
      splitCommaGo_step_inQ 'n' _ (some '\\') _ _ (by decide)]
    simp
  by_cases h6 : c = '\r'
  · subst h6
    refine ⟨'r', by decide, by decide, fun rest prev cur acc => ?_⟩
    rw [show escChar '\r' = ['\\', 'r'] from rfl, List.cons_append, List.cons_append,
      splitCommaGo_step_inQ '\\' _ prev _ _ (fun hx => absurd hx (by decide)),
      splitCommaGo_step_inQ 'r' _ (some '\\') _ _ (by decide)]
    simp
  by_cases h7 : c = '\t'
  · subst h7
    refine ⟨'t', by decide, by decide, fun rest prev cur acc => ?_⟩
    rw [show escChar '\t' = ['\\', 't'] from rfl, List.cons_append, List.cons_append,
      splitCommaGo_step_inQ '\\' _ prev _ _ (fun hx => absurd hx (by decide)),
      splitCommaGo_step_inQ 't' _ (some '\\') _ _ (by decide)]
    simp
  by_cases h8 : c.toNat < 0x20
  · have hesc : escChar c = ['\\', 'u', '0', '0', hexDigitChar (c.toNat / 16),
        hexDigitChar (c.toNat % 16)] := by
      unfold escChar
      rw [if_neg h1, if_neg h2, if_neg h3, if_neg h4, if_neg h5, if_neg h6, if_neg h7,
        if_pos h8]
    obtain ⟨q1, q2, q3, q4⟩ := hexDigitChar_inert (c.toNat / 16) (by omega)
    obtain ⟨r1, r2, r3, r4⟩ := hexDigitChar_inert (c.toNat % 16) (by omega)
    refine ⟨hexDigitChar (c.toNat % 16), by rw [hesc]; rfl,
      fun hx => absurd hx r4, fun rest prev cur acc => ?_⟩
    rw [hesc]
    rw [show ('\\' :: 'u' :: '0' :: '0' :: hexDigitChar (c.toNat / 16) ::
      hexDigitChar (c.toNat % 16) :: []) ++ rest =
      '\\' :: 'u' :: '0' :: '0' :: hexDigitChar (c.toNat / 16) ::
      hexDigitChar (c.toNat % 16) :: rest from rfl]
    rw [splitCommaGo_step_inQ '\\' _ prev _ _ (fun hx => absurd hx (by decide)),
      splitCommaGo_step_inQ 'u' _ (some '\\') _ _ (by decide),
      splitCommaGo_step_inQ '0' _ (some 'u') _ _ (by decide),
      splitCommaGo_step_inQ '0' _ (some '0') _ _ (by decide),
      splitCommaGo_step_inQ (hexDigitChar (c.toNat / 16)) _ (some '0') _ _
        (fun hx => absurd hx q1),
      splitCommaGo_step_inQ (hexDigitChar (c.toNat % 16)) _
        (some (hexDigitChar (c.toNat / 16))) _ _ (fun hx => absurd hx r1)]
    simp
  · have hesc : escChar c = [c] := escChar_plain c h1 h2 (by omega)
    refine ⟨c, by rw [hesc]; rfl, fun hx => hx ▸ rfl, fun rest prev cur acc => ?_⟩
    rw [hesc, List.cons_append,
      splitCommaGo_step_inQ c _ prev _ _ (fun hx => absurd hx h1)]
    simp

theorem splitCommaGo_escList (cs : List Char) :
    ∀ (rest : List Char) (prev : Option Char) (cur : List Char)
      (acc : List (List Char)),
    ∃ prev', ((cs = [] ∧ prev' = prev) ∨
        (∃ cl xl, cs.getLast? = some cl ∧ prev' = some xl ∧ (xl = '\\' → cl = '\\'))) ∧
      splitCommaGo (cs.flatMap escChar ++ rest) prev true '"' cur acc =
        splitCommaGo rest prev' true '"' (cur ++ cs.flatMap escChar) acc := by
  induction cs with
  | nil =>
    intro rest prev cur acc
    exact ⟨prev, Or.inl ⟨rfl, rfl⟩, by simp⟩
  | cons c cs ih =>
    intro rest prev cur acc
    obtain ⟨x, hx, hxbs, hstep⟩ := splitCommaGo_escGroup c
    rw [List.flatMap_cons, List.append_assoc, hstep _ prev cur acc]
    obtain ⟨prev', hcase, heq⟩ := ih (rest) (some x) (cur ++ escChar c) acc
    rw [heq]
    cases cs with
    | nil =>
      refine ⟨some x, Or.inr ⟨c, x, rfl, ?_, hxbs⟩, ?_⟩
      · rcases hcase with ⟨_, hp⟩ | ⟨cl, xl, hcl, _, _⟩
        · exact hp.symm ▸ rfl
        · simp at hcl
      · rcases hcase with ⟨_, hp⟩ | ⟨cl, xl, hcl, _, _⟩
        · rw [← hp]
          simp [List.flatMap_cons]
        · simp at hcl
    | cons c2 cs2 =>
      rcases hcase with ⟨habs, _⟩ | ⟨cl, xl, hcl, hp, hbs⟩
      · simp at habs
      · refine ⟨prev', Or.inr ⟨cl, xl, ?_, hp, hbs⟩, ?_⟩
        · rw [List.getLast?_cons_cons]
          exact hcl
        · simp [List.flatMap_cons]

theorem splitCommaGo_bareList (p : List Char)
    (hp : ∀ c ∈ p, c ≠ '"' ∧ c ≠ '\'' ∧ c ≠ ',') :
    ∀ (rest : List Char) (prev : Option Char) (q : Char) (cur : List Char)
      (acc : List (List Char)),
    ∃ prev', splitCommaGo (p ++ rest) prev false q cur acc =
      splitCommaGo rest prev' false q (cur ++ p) acc := by
  induction p with
  | nil => intro rest prev q cur acc; exact ⟨prev, by simp⟩
  | cons c cs ih =>
    intro rest prev q cur acc
    obtain ⟨h1, h2, h3⟩ := hp c (List.mem_cons_self c cs)
    rw [List.cons_append, splitCommaGo_step_bare c _ prev q cur acc h1 h2 h3]
    obtain ⟨prev', heq⟩ := ih (fun x hx => hp x (List.mem_cons_of_mem c hx))
      rest (some c) q (cur ++ [c]) acc
    exact ⟨prev', by rw [heq]; simp⟩

theorem splitCommaGo_quoted (s : String) (hsafe : s.data.getLast? ≠ some '\\')
    (rest : List Char) (prev : Option Char) (q : Char) (cur : List Char)
    (acc : List (List Char)) (hprev : prev ≠ some '\\') :
    splitCommaGo ((jsonQuote s).data ++ rest) prev false q cur acc =
      splitCommaGo rest (some '"') false '"' (cur ++ (jsonQuote s).data) acc := by
  rw [jsonQuote_data, List.append_assoc, List.cons_append, List.singleton_append]
  rw [splitCommaGo_open_quote _ prev q cur acc hprev]
  obtain ⟨prev', hcase, heq⟩ :=
    splitCommaGo_escList s.data ('"' :: rest) (some '"') (cur ++ ['"']) acc
  rw [heq]
  have hprev' : prev' ≠ some '\\' := by
    rcases hcase with ⟨_, hp⟩ | ⟨cl, xl, hcl, hp, hbs⟩
    · rw [hp]; simp
    · rw [hp]
      intro hcontr
      have hxl : xl = '\\' := by simpa using hcontr
      rw [hbs hxl] at hcl
      exact hsafe hcl
  rw [splitCommaGo_close_quote rest prev' _ acc hprev']
  simp

theorem splitCommaGo_pieces (ps : List String)
    (h : ∀ p ∈ ps, jsTrimL p.data = p.data ∧
      ((∀ c ∈ p.data, c ≠ '"' ∧ c ≠ '\'' ∧ c ≠ ',') ∨
       ∃ s, p = jsonQuote s ∧ s.data.getLast? ≠ some '\\'))
    (hne : ps ≠ []) :
    ∀ (prev : Option Char) (q : Char) (acc : List (List Char)),
      prev ≠ some '\\' →
      splitCommaGo (strJoin "," ps).data prev false q [] acc =
        acc ++ ps.map String.data := by
  induction ps with
  | nil => exact absurd rfl hne
  | cons p ps ih =>
    intro prev q acc hprev
    obtain ⟨htrim, hkind⟩ := h p (List.mem_cons_self p ps)
    cases ps with
    | nil =>
      show splitCommaGo p.data prev false q [] acc = acc ++ [p.data]
      rcases hkind with hbare | ⟨s, rfl, hsafe⟩
      · obtain ⟨prev', heq⟩ := splitCommaGo_bareList p.data hbare [] prev q [] acc
        have heq2 : splitCommaGo p.data prev false q [] acc =
            acc ++ [jsTrimL p.data] := by
          simpa [splitCommaGo] using heq
        rw [heq2, htrim]
      · have heq2 : splitCommaGo (jsonQuote s).data prev false q [] acc =
            acc ++ [jsTrimL (jsonQuote s).data] := by
          have h0 := splitCommaGo_quoted s hsafe [] prev q [] acc hprev
          simpa [splitCommaGo] using h0
        rw [heq2, htrim]
    | cons p2 ps2 =>
      have hjoin : (strJoin "," (p :: p2 :: ps2)).data =
          p.data ++ ',' :: (strJoin "," (p2 :: ps2)).data := by
        rw [strJoin_cons _ _ _ (by simp)]
        rw [strData_append, strData_append]
        simp
      rw [hjoin]
      rcases hkind with hbare | ⟨s, rfl, hsafe⟩
      · obtain ⟨prev', heq⟩ := splitCommaGo_bareList p.data hbare
          (',' :: (strJoin "," (p2 :: ps2)).data) prev q [] acc
        rw [heq, List.nil_append, splitCommaGo_comma _ _ _ _ _, htrim]
        rw [ih (fun x hx => h x (List.mem_cons_of_mem p hx)) (by simp)
          (some ',') q (acc ++ [p.data]) (by simp)]
        simp
      · rw [show (jsonQuote s).data ++ ',' :: (strJoin "," (p2 :: ps2)).data =
          (jsonQuote s).data ++ (',' :: (strJoin "," (p2 :: ps2)).data) from rfl]
        rw [splitCommaGo_quoted s hsafe _ prev q [] acc hprev]
        rw [List.nil_append, splitCommaGo_comma _ _ _ _ _, htrim]
        rw [ih (fun x hx => h x (List.mem_cons_of_mem _ hx)) (by simp)
          (some ',') '"' (acc ++ [(jsonQuote s).data]) (by simp)]
        simp

theorem splitByComma_join (ps : List String) (hne : ps ≠ [])
    (h : ∀ p ∈ ps, jsTrimL p.data = p.data ∧
      ((∀ c ∈ p.data, c ≠ '"' ∧ c ≠ '\'' ∧ c ≠ ',') ∨
       ∃ s, p = jsonQuote s ∧ s.data.getLast? ≠ some '\\')) :
    splitByComma (strJoin "," ps) = ps := by
  unfold splitByComma
  rw [splitCommaGo_pieces ps h hne none ' ' [] (by simp)]
  rw [List.nil_append, List.map_map]
  have : ∀ qs : List String, qs.map ((fun l => (⟨l⟩ : String)) ∘ String.data) = qs := by
    intro qs
    induction qs with
    | nil => rfl
    | cons x xs ihq => simp [ihq]
  exact this ps

/-! ## `processValue` on serialized field values -/

theorem jsTrimL_ends (l : List Char) (c0 : Char) (t : List Char) (cl : Char)
    (hd : l = c0 :: t) (h0 : jsWs c0 = false) (hl : l.getLast? = some cl)
    (hcl : jsWs cl = false) : jsTrimL l = l := by
  unfold jsTrimL
  rw [trimR_of_last l cl hl hcl, hd]
  exact trimLeft_of_head c0 t (by simp [h0])

/-- Each inline-safe scalar's serialization is an acceptable comma-scanner
piece: trim-invariant, and either free of quotes and commas or exactly one
JSON-quoted string not ending in a backslash. -/
theorem piece_ok (v : Value) (hs : isScalar v = true)
    (hins : inlineSafeItem v = true) :
    jsTrimL (toToon v 0).data = (toToon v 0).data ∧
    ((∀ c ∈ (toToon v 0).data, c ≠ '"' ∧ c ≠ '\'' ∧ c ≠ ',') ∨
     ∃ s, toToon v 0 = jsonQuote s ∧ s.data.getLast? ≠ some '\\') := by
  obtain ⟨c0, t, hd, h0, ⟨cl, hl, hcl⟩, _⟩ := scalar_repr_shape v hs
  refine ⟨jsTrimL_ends _ c0 t cl hd h0 hl hcl, ?_⟩
  cases v with
  | vArr items => simp [isScalar] at hs
  | vObj fields => simp [isScalar] at hs
  | vNull =>
    left
    intro c hc
    have hc2 : c ∈ ['n', 'u', 'l', 'l'] := hc
    fin_cases hc2 <;> exact ⟨by decide, by decide, by decide⟩
  | vBool b =>
    left
    cases b
    · intro c hc
      have hc2 : c ∈ ['f', 'a', 'l', 's', 'e'] := hc
      fin_cases hc2 <;> exact ⟨by decide, by decide, by decide⟩
    · intro c hc
      have hc2 : c ∈ ['t', 'r', 'u', 'e'] := hc
      fin_cases hc2 <;> exact ⟨by decide, by decide, by decide⟩
  | vNum n =>
    cases n with
    | fin dq =>
      left
      intro c hc
      obtain ⟨_, _, hq, hsq, hcm⟩ := decimalRepr_solid dq c hc
      exact ⟨hq, hsq, hcm⟩
    | inf =>
      left
      intro c hc
      have hc2 : c ∈ ['I', 'n', 'f', 'i', 'n', 'i', 't', 'y'] := hc
      fin_cases hc2 <;> exact ⟨by decide, by decide, by decide⟩
    | negInf =>
      left
      intro c hc
      have hc2 : c ∈ ['-', 'I', 'n', 'f', 'i', 'n', 'i', 't', 'y'] := hc
      fin_cases hc2 <;> exact ⟨by decide, by decide, by decide⟩
  | vStr s =>
    have hsafe : s.data.getLast? ≠ some '\\' := by
      unfold inlineSafeItem at hins
      simpa using hins
    rw [toToon_vStr]
    rw [toToon_vStr] at hd hl
    split_ifs with hA hB
    · exact Or.inr ⟨s, rfl, hsafe⟩
    · left
      intro c hc
      obtain ⟨_, hsolid⟩ := bareStr_solid s hB
      obtain ⟨_, _, _, _, hq, hsq, hcm, _⟩ := hsolid c hc
      exact ⟨hq, hsq, hcm⟩
    · exact Or.inr ⟨s, rfl, hsafe⟩

theorem strJoin_comma_has (p1 p2 : String) (ps : List String) :
    strHas ',' (strJoin "," (p1 :: p2 :: ps)) = true := by
  unfold strHas
  rw [strJoin_cons _ _ _ (by simp), strData_append, strData_append]
  simp

theorem toToonAtZero_eq (l : List Value) :
    toToonAtZero l = l.map (fun v => toToon v 0) := by
  induction l with
  | nil => rfl
  | cons v vs ih => rw [toToonAtZero, ih]; rfl

theorem map_parseValue_toToonAtZero (l : List Value) (hsc : l.all isScalar = true)
    (hins : l.all inlineSafeItem = true) :
    (toToonAtZero l).map parseValue = l := by
  induction l with
  | nil => rfl
  | cons v vs ih =>
    rw [List.all_cons, Bool.and_eq_true] at hsc hins
    rw [toToonAtZero]
    show parseValue (toToon v 0) :: (toToonAtZero vs).map parseValue = v :: vs
    rw [ih hsc.2 hins.2, parseValue_toToon_scalar v hsc.1]
    intro n hv
    subst hv
    simpa [inlineSafeItem] using hins.1

theorem strHas_ne (t : String) (h : strHas ',' t = true) :
    t ≠ "" ∧ t ≠ "[]" ∧ t ≠ "\x7b\x7d" := by
  refine ⟨?_, ?_, ?_⟩ <;> (intro he; rw [he] at h; exact absurd h (by decide))

theorem mem_toToonAtZero (p : String) (l : List Value) (h : p ∈ toToonAtZero l) :
    ∃ v ∈ l, p = toToon v 0 := by
  rw [toToonAtZero_eq] at h
  obtain ⟨v, hv, hp⟩ := List.mem_map.mp h
  exact ⟨v, hv, hp.symm⟩

theorem processValue_inline (items : List Value) (key : String) (ind : Int)
    (next : Option (Int × String)) (st : List Frame)
    (hlen : 2 ≤ items.length) (hsc : items.all isScalar = true)
    (hins : items.all inlineSafeItem = true) :
    processValue key (toToon (.vArr items) 0) ind next st =
      assignTop key (.vArr items) st := by
  have hne : items.isEmpty = false := by
    cases items with
    | nil => simp at hlen
    | cons a l => rfl
  have htt : toToon (.vArr items) 0 = strJoin "," (toToonAtZero items) := by
    show (if items.isEmpty then "[]"
      else if items.all isScalar then strJoin "," (toToonAtZero items)
      else strJoin "\n" (toToonItems items 0)) = _
    rw [hne, hsc]
    rfl
  obtain ⟨v1, rest1, rfl⟩ : ∃ v1 rest1, items = v1 :: rest1 := by
    cases items with
    | nil => simp at hlen
    | cons a l => exact ⟨a, l, rfl⟩
  obtain ⟨v2, rest2, rfl⟩ : ∃ v2 rest2, rest1 = v2 :: rest2 := by
    cases rest1 with
    | nil => simp at hlen
    | cons a l => exact ⟨a, l, rfl⟩
  have hpieces : ∀ p ∈ toToonAtZero (v1 :: v2 :: rest2),
      jsTrimL p.data = p.data ∧
      ((∀ c ∈ p.data, c ≠ '"' ∧ c ≠ '\'' ∧ c ≠ ',') ∨
       ∃ s, p = jsonQuote s ∧ s.data.getLast? ≠ some '\\') := by
    intro p hp
    obtain ⟨v, hv, rfl⟩ := mem_toToonAtZero p _ hp
    exact piece_ok v (by
        rw [List.all_eq_true] at hsc
        exact hsc v hv)
      (by
        rw [List.all_eq_true] at hins
        exact hins v hv)
  have hjoin : toToonAtZero (v1 :: v2 :: rest2) =
      toToon v1 0 :: toToon v2 0 :: toToonAtZero rest2 := rfl
  have hhas : strHas ',' (toToon (.vArr (v1 :: v2 :: rest2)) 0) = true := by
    rw [htt, hjoin]
    exact strJoin_comma_has _ _ _
  obtain ⟨hne1, hne2, hne3⟩ := strHas_ne _ hhas
  have hsplit : splitByComma (toToon (.vArr (v1 :: v2 :: rest2)) 0) =
      toToonAtZero (v1 :: v2 :: rest2) := by
    rw [htt]
    exact splitByComma_join _ (by rw [hjoin]; simp) hpieces
  unfold processValue
  rw [if_neg hne1, if_neg hne2, if_neg hne3, hhas]
  rw [if_pos (by rfl)]
  have hsingle : (((strStarts "\"" (toToon (.vArr (v1 :: v2 :: rest2)) 0) &&
      strEnds "\"" (toToon (.vArr (v1 :: v2 :: rest2)) 0)) ||
      (strStarts "'" (toToon (.vArr (v1 :: v2 :: rest2)) 0) &&
      strEnds "'" (toToon (.vArr (v1 :: v2 :: rest2)) 0))) &&
      (jsonParse (toToon (.vArr (v1 :: v2 :: rest2)) 0)).isSome) = false := by
    obtain ⟨htr1, hk1⟩ := hpieces (toToon v1 0) (by rw [hjoin]; simp)
    rcases hk1 with hbare | ⟨s, hq, hsafe⟩
    · -- first piece quote-free: the joined text does not start with a quote
      have hdata : (toToon (.vArr (v1 :: v2 :: rest2)) 0).data =
          (toToon v1 0).data ++ ',' :: (strJoin "," (toToonAtZero (v2 :: rest2))).data := by
        rw [htt, hjoin, strJoin_cons _ _ _ (by simp), strData_append, strData_append]
        simp [show toToonAtZero (v2 :: rest2) = toToon v2 0 :: toToonAtZero rest2 from rfl]
      obtain ⟨c0, t0, hd0, _, _, _⟩ := scalar_repr_shape v1 (by
        rw [List.all_eq_true] at hsc
        exact hsc v1 (by simp))
      obtain ⟨hq1, hq2, _⟩ := hbare c0 (by rw [hd0]; simp)
      have hst1 : strStarts "\"" (toToon (.vArr (v1 :: v2 :: rest2)) 0) = false := by
        unfold strStarts
        rw [hdata, hd0]
        exact strStarts_cons_neq '"' [] c0 _ hq1
      have hst2 : strStarts "'" (toToon (.vArr (v1 :: v2 :: rest2)) 0) = false := by
        unfold strStarts
        rw [hdata, hd0]
        exact strStarts_cons_neq '\'' [] c0 _ hq2
      rw [hst1, hst2]
      simp
    · -- first piece is a quoted string: JSON.parse leaves a comma behind
      have hdata : (toToon (.vArr (v1 :: v2 :: rest2)) 0).data =
          (jsonQuote s).data ++ ',' :: (strJoin "," (toToonAtZero (v2 :: rest2))).data := by
        rw [htt, hjoin, strJoin_cons _ _ _ (by simp), strData_append, strData_append, hq]
        simp [show toToonAtZero (v2 :: rest2) = toToon v2 0 :: toToonAtZero rest2 from rfl]
      have hvs : toToon (.vArr (v1 :: v2 :: rest2)) 0 =
          (⟨(jsonQuote s).data ++ ',' ::
            (strJoin "," (toToonAtZero (v2 :: rest2))).data⟩ : String) :=
        congrArg String.mk hdata
      rw [hvs, jsonParse_quote_extra s ',' _ (by decide)]
      simp
  rw [hsingle]
  rw [if_neg (by simp)]
  rw [hsplit, map_parseValue_toToonAtZero _ hsc hins]

theorem strHas_eq_false (t : String) (h : ∀ c ∈ t.data, c ≠ ',') :
    strHas ',' t = false := by
  unfold strHas
  cases hc : t.data.contains ',' with
  | false => rfl
  | true =>
    have : ',' ∈ t.data := by simpa using hc
    exact absurd rfl (h ',' this)

theorem processValue_single (key vs : String) (ind : Int)
    (next : Option (Int × String)) (st : List Frame)
    (h1 : vs ≠ "") (h2 : vs ≠ "[]") (h3 : vs ≠ "\x7b\x7d")
    (h4 : strHas ',' vs = true →
      (((strStarts "\"" vs && strEnds "\"" vs) ||
        (strStarts "'" vs && strEnds "'" vs)) && (jsonParse vs).isSome) = true) :
    processValue key vs ind next st = assignTop key (parseValue vs) st := by
  unfold processValue
  rw [if_neg h1, if_neg h2, if_neg h3]
  cases hc : strHas ',' vs with
  | true =>
    rw [if_pos rfl, if_pos (h4 hc)]
  | false =>
    rw [if_neg (by simp)]

theorem scalar_repr_head (v : Value) (hv : isScalar v = true) :
    ∃ c0 t, (toToon v 0).data = c0 :: t ∧ c0 ≠ '[' ∧ c0 ≠ '\x7b' := by
  cases v with
  | vArr items => simp [isScalar] at hv
  | vObj fields => simp [isScalar] at hv
  | vNull => exact ⟨'n', _, rfl, by decide, by decide⟩
  | vBool b =>
    cases b
    · exact ⟨'f', _, rfl, by decide, by decide⟩
    · exact ⟨'t', _, rfl, by decide, by decide⟩
  | vNum n =>
    cases n with
    | fin d =>
      obtain ⟨c0, t, hd⟩ := List.exists_cons_of_ne_nil (decimalRepr_ne_nil d)
      refine ⟨c0, t, hd, ?_, ?_⟩ <;>
        (rcases decimalRepr_mem d c0 (by rw [hd]; exact List.mem_cons_self _ _)
          with h | h | h
         · intro hx; rw [hx] at h; exact absurd h (by decide)
         · subst h; decide
         · subst h; decide)
    | inf => exact ⟨'I', _, rfl, by decide, by decide⟩
    | negInf => exact ⟨'-', _, rfl, by decide, by decide⟩
  | vStr s =>
    rw [toToon_vStr]
    split_ifs with hA hB
    · exact ⟨'"', _, by rw [jsonQuote_data, List.cons_append], by decide, by decide⟩
    · obtain ⟨hne, hsolid⟩ := bareStr_solid s hB
      obtain ⟨c0, t, hd⟩ := List.exists_cons_of_ne_nil hne
      have hw : isWordChar c0 = true ∨ c0 = '.' := by
        unfold isBareStr at hB
        rw [Bool.and_eq_true] at hB
        have := List.all_eq_true.mp hB.2 c0 (by rw [hd]; exact List.mem_cons_self _ _)
        simpa using this
      refine ⟨c0, t, hd, ?_, ?_⟩
      · rcases hw with h | h
        · exact (isWordChar_props c0 h).2.2.2.2.2.2.1
        · subst h; decide
      · rcases hw with h | h
        · intro hx
          rw [hx] at h
          exact absurd h (by decide)
        · subst h; decide
    · exact ⟨'"', _, by rw [jsonQuote_data, List.cons_append], by decide, by decide⟩

theorem processValue_scalar (v : Value) (key : String) (ind : Int)
    (next : Option (Int × String)) (st : List Frame) (hs : isScalar v = true)
    (hnum : ∀ n, v = .vNum n → goodNum n = true) :
    processValue key (toToon v 0) ind next st = assignTop key v st := by
  obtain ⟨c0, t, hd, hc1, hc2⟩ := scalar_repr_head v hs
  have h1 : toToon v 0 ≠ "" := by
    intro h
    rw [h] at hd
    simp at hd
  have h2 : toToon v 0 ≠ "[]" := by
    intro h
    rw [h] at hd
    rw [show ("[]" : String).data = ['[', ']'] from rfl, List.cons.injEq] at hd
    exact hc1 hd.1.symm
  have h3 : toToon v 0 ≠ "\x7b\x7d" := by
    intro h
    rw [h] at hd
    rw [show ("\x7b\x7d" : String).data = ['\x7b', '\x7d'] from rfl,
      List.cons.injEq] at hd
    exact hc2 hd.1.symm
  rw [processValue_single key _ ind next st h1 h2 h3 ?hq, parseValue_toToon_scalar v hs hnum]
  case hq =>
    intro hcomma
    -- a comma can only appear in a quoted string rendering
    cases v with
    | vArr items => simp [isScalar] at hs
    | vObj fields => simp [isScalar] at hs
    | vNull => exact absurd hcomma (by decide)
    | vBool b => cases b <;> exact absurd hcomma (by decide)
    | vNum n =>
      cases n with
      | fin d =>
        have hcomma2 : strHas ',' (decimalRepr d) = true := hcomma
        rw [strHas_eq_false _ (fun c hcm => (decimalRepr_solid d c hcm).2.2.2.2)] at hcomma2
        simp at hcomma2
      | inf => exact absurd hcomma (by decide)
      | negInf => exact absurd hcomma (by decide)
    | vStr s =>
      rw [toToon_vStr] at hcomma ⊢
      split_ifs with hA hB
      · rw [strStarts_jsonQuote s, strEnds_jsonQuote s, jsonParse_quote]
        rfl
      · rw [toToon_vStr] at hd
        rw [if_neg hA, if_pos hB] at hd
        obtain ⟨_, hsolid⟩ := bareStr_solid s hB
        rw [if_neg hA, if_pos hB] at hcomma
        rw [strHas_eq_false _ (fun c hcm => (hsolid c hcm).2.2.2.2.2.2.1)] at hcomma
        simp at hcomma
      · rw [strStarts_jsonQuote s, strEnds_jsonQuote s, jsonParse_quote]
        rfl

theorem processValue_emptyArr (key : String) (ind : Int)
    (next : Option (Int × String)) (st : List Frame) :
    processValue key "[]" ind next st = assignTop key (.vArr []) st := by
  unfold processValue
  rw [if_neg (by decide), if_pos rfl]

/-! ## Key cleaning on serialized keys -/

theorem stripLenSuffix_last_ne (k : String) (cl : Char) (hl : k.data.getLast? = some cl)
    (hcl : cl ≠ ']') : stripLenSuffix k = k := by
  unfold stripLenSuffix
  split
  · rename_i rest heq
    have h2 : k.data.reverse.head? = some cl := by
      rw [List.head?_reverse]
      exact hl
    rw [heq] at h2
    simp at h2
    exact absurd h2.symm hcl
  · rfl

theorem stripQuoteEnds_bare (k : String) (h : ∀ c ∈ k.data, c ≠ '"' ∧ c ≠ '\'') :
    stripQuoteEnds k = k := by
  unfold stripQuoteEnds
  dsimp only
  have hd1 : (match k.data with
      | c :: rest => if (decide (c = '"') || decide (c = '\'')) = true then rest else k.data
      | [] => ([] : List Char)) = k.data := by
    cases hk : k.data with
    | nil => rfl
    | cons c rest =>
      obtain ⟨h1, h2⟩ := h c (hk ▸ List.mem_cons_self c rest)
      simp [h1, h2]
      try rw [← hk]
  rw [hd1]
  have hd2 : (match k.data.reverse with
      | c :: rest => if (decide (c = '"') || decide (c = '\'')) = true then rest.reverse
        else k.data
      | [] => ([] : List Char)) = k.data := by
    cases hk : k.data.reverse with
    | nil => exact (List.reverse_eq_nil_iff.mp hk).symm
    | cons c rest =>
      have hmem : c ∈ k.data := by
        have hm : c ∈ k.data.reverse := by rw [hk]; exact List.mem_cons_self _ _
        simpa using hm
      obtain ⟨h1, h2⟩ := h c hmem
      simp [h1, h2]
  rw [hd2]

theorem stripQuoteEnds_quoted (k : String) :
    stripQuoteEnds ⟨'"' :: (k.data ++ ['"'])⟩ = k := by
  unfold stripQuoteEnds
  dsimp only
  rw [if_pos (show (decide ('"' = '"') || decide ('"' = '\'')) = true from by decide)]
  rw [show (k.data ++ ['"']).reverse = '"' :: k.data.reverse from by simp]
  have hd2 : (match ('"' :: k.data.reverse : List Char) with
      | c :: rest => if (decide (c = '"') || decide (c = '\'')) = true then rest.reverse
        else k.data ++ ['"']
      | [] => ([] : List Char)) = k.data := by
    simp
  rw [hd2]

theorem dashKeyRe1_bare (k : String) (hk : isBareKey k = true) :
    dashKeyRe1 k = true := by
  obtain ⟨hne, hall⟩ := bareKey_solid k hk
  unfold dashKeyRe1
  dsimp only
  have hd1 : (match k.data with
      | c :: rest => if (decide (c = '"') || decide (c = '\'')) = true then rest else k.data
      | [] => ([] : List Char)) = k.data := by
    cases hk2 : k.data with
    | nil => rfl
    | cons c rest =>
      have hq0 := isWordChar_props c (hall c (by rw [hk2]; exact List.mem_cons_self _ _))
      simp [hq0.2.2.2.1, hq0.2.2.2.2.1]
      try rw [← hk2]
  rw [hd1]
  have hd2 : (match k.data.reverse with
      | c :: rest => if (decide (c = '"') || decide (c = '\'')) = true then rest.reverse
        else k.data
      | [] => ([] : List Char)) = k.data := by
    cases hk2 : k.data.reverse with
    | nil => exact (List.reverse_eq_nil_iff.mp hk2).symm
    | cons c rest =>
      have hmem : c ∈ k.data := by
        have hm : c ∈ k.data.reverse := by rw [hk2]; exact List.mem_cons_self _ _
        simpa using hm
      have hq := isWordChar_props c (hall c hmem)
      simp [hq.2.2.2.1, hq.2.2.2.2.1]
  rw [hd2]
  simp only [Bool.and_eq_true, ne_eq, decide_eq_true_eq]
  exact ⟨hne, List.all_eq_true.mpr hall⟩

theorem dashKeyRe2_quoted (k : String) (hk : quotedSafeKey k = true) :
    dashKeyRe2 (jsonQuote k) = true := by
  obtain ⟨hne, hall⟩ := quotedSafeKey_props k hk
  unfold dashKeyRe2
  rw [jsonQuote_plain k hk]
  show (match (k.data ++ ['"']).reverse with
     | '"' :: mid => mid ≠ [] && mid.all (· ≠ '"')
     | _ => false) = true
  rw [show (k.data ++ ['"']).reverse = '"' :: k.data.reverse from by simp]
  show (k.data.reverse ≠ [] && k.data.reverse.all (· ≠ '"')) = true
  simp only [Bool.and_eq_true, ne_eq, decide_eq_true_eq]
  constructor
  · simpa using hne
  · rw [List.all_eq_true]
    intro c hc
    simp only [decide_eq_true_eq]
    exact (hall c (by simpa using hc)).1

theorem fmtKey_props (k : String) (hk : goodKey k = true) :
    ∃ c0 t, (fmtKey k).data = c0 :: t ∧ jsWs c0 = false ∧ c0 ≠ '-' ∧
      ':' ∉ (fmtKey k).data ∧ '\n' ∉ (fmtKey k).data ∧
      (∃ cl, (fmtKey k).data.getLast? = some cl ∧ jsWs cl = false) := by
  unfold goodKey at hk
  unfold fmtKey
  by_cases hb : isBareKey k = true
  · rw [if_pos hb]
    obtain ⟨hne, hall⟩ := bareKey_solid k hb
    obtain ⟨c0, t, hd⟩ := List.exists_cons_of_ne_nil hne
    have hq0 := isWordChar_props c0 (hall c0 (by rw [hd]; exact List.mem_cons_self _ _))
    refine ⟨c0, t, hd, by simpa using hq0.1, hq0.2.1, ?_, ?_, ?_⟩
    · intro hm
      exact (isWordChar_props ':' (hall ':' hm)).2.2.1 rfl
    · intro hm
      exact (isWordChar_props '\n' (hall '\n' hm)).2.2.2.2.2.2.2.1 rfl
    · obtain ⟨cl, hl⟩ : ∃ cl, k.data.getLast? = some cl := by
        rw [hd]
        exact ⟨_, List.getLast?_eq_getLast _ (by simp)⟩
      have hlm : cl ∈ k.data := by
        obtain ⟨hne2, hcl⟩ := @List.mem_getLast?_eq_getLast _ k.data cl hl
        rw [hcl]
        exact List.getLast_mem _
      exact ⟨cl, hl, by
        simpa using (isWordChar_props cl (hall cl hlm)).1⟩
  · rw [if_neg hb]
    have hq : quotedSafeKey k = true := by
      rcases Bool.or_eq_true _ _ |>.mp hk with h | h
      · exact absurd h hb
      · exact h
    obtain ⟨hne, hall⟩ := quotedSafeKey_props k hq
    rw [jsonQuote_plain k hq]
    refine ⟨'"', k.data ++ ['"'], rfl, by decide, by decide, ?_, ?_,
      ⟨'"', (List.getLast?_concat ('"' :: k.data) :
        (('"' :: k.data) ++ ['"']).getLast? = some '"'), by decide⟩⟩
    · intro hm
      rcases List.mem_cons.mp hm with h | h
      · exact absurd h (by decide)
      rcases List.mem_append.mp h with h | h
      · exact (hall ':' h).2.2.1 rfl
      · simp at h
    · intro hm
      rcases List.mem_cons.mp hm with h | h
      · exact absurd h (by decide)
      rcases List.mem_append.mp h with h | h
      · have h4 := (hall '\n' h).2.2.2
        revert h4
        decide
      · simp at h

/-! ## Machine and line-level lemmas for the round trip -/

theorem popFrames_nil (ind : Int) (c : String) : popFrames ind c [] = [] := rfl

theorem popFrames_one (ind : Int) (c : String) (f : Frame) :
    popFrames ind c [f] = [f] := rfl

theorem popFrames_cons2 (ind : Int) (c : String) (f g : Frame) (rest : List Frame) :
    popFrames ind c (f :: g :: rest) =
      if f.indent < ind then f :: g :: rest
      else if (decide (f.indent = ind) && isArrC f.cont && strStarts "- " c) = true then
        f :: g :: rest
      else popFrames ind c (attachTo f g :: rest) := by
  show popFramesGo (rest.length + 1 + 1) ind c (f :: g :: rest) = _
  conv_lhs => unfold popFramesGo
  rfl

theorem popFrames_break (ind : Int) (c : String) (f : Frame) (rest : List Frame)
    (h : f.indent < ind) : popFrames ind c (f :: rest) = f :: rest := by
  cases rest with
  | nil => rfl
  | cons g rest' => rw [popFrames_cons2, if_pos h]

theorem popFrames_step (ind : Int) (c : String) (f g : Frame) (rest : List Frame)
    (h1 : ¬ f.indent < ind)
    (h2 : ¬ (f.indent = ind ∧ isArrC f.cont = true ∧ strStarts "- " c = true)) :
    popFrames ind c (f :: g :: rest) = popFrames ind c (attachTo f g :: rest) := by
  rw [popFrames_cons2, if_neg h1, if_neg (by
    intro hcontra
    simp only [Bool.and_eq_true, decide_eq_true_eq] at hcontra
    exact h2 ⟨hcontra.1.1, hcontra.1.2, hcontra.2⟩)]

theorem popSim_refl (n : Int) (dashOK : Bool) (st : List Frame) : popSim n dashOK st st :=
  fun _ _ _ => rfl

theorem popSim_get (n : Int) (dashOK : Bool) (st : List Frame) (f : Frame) (S : List Frame)
    (hsim : popSim n dashOK st (f :: S)) (hf : f.indent < n) (c : String)
    (hc : dashOK = true ∨ strStarts "- " c = false) : popFrames n c st = f :: S := by
  rw [hsim n c (Or.inr ⟨rfl, hc⟩), popFrames_break _ _ _ _ hf]

theorem popSim_pop (n : Int) (dashOK : Bool) (st : List Frame) (f g : Frame) (S : List Frame)
    (hf : f.indent = n)
    (hret : dashOK = true → isArrC f.cont = false)
    (hsim : popSim (n + 2) false st (f :: g :: S)) :
    popSim n dashOK st (attachTo f g :: S) := by
  intro ind c hq
  have hind : ind ≤ n := by rcases hq with h | ⟨h, _⟩ <;> omega
  have hdom : ind < n + 2 ∨ (ind = n + 2 ∧ (false = true ∨ strStarts "- " c = false)) := by
    left; omega
  rw [hsim ind c hdom]
  rw [popFrames_cons2, if_neg (by omega : ¬ f.indent < ind), if_neg ?hr]
  case hr =>
    intro hcontra
    simp only [Bool.and_eq_true, decide_eq_true_eq] at hcontra
    obtain ⟨⟨he, ha⟩, hd⟩ := hcontra
    rcases hq with h | ⟨h, hcase⟩
    · omega
    · rcases hcase with hdOK | hnd
      · rw [hret hdOK] at ha; exact absurd ha (by simp)
      · rw [hnd] at hd; exact absurd hd (by simp)

theorem rootCoerce_arr (f : Frame) (S : List Frame) (h : isArrC f.cont = true) :
    rootCoerce (f :: S) = f :: S := by
  show (if (!isArrC f.cont && decide (f.indent = -1) &&
      decide (f.cont = Container.cObj [])) = true then
      { cont := Container.cArr [], indent := f.indent, attach := f.attach } :: S
    else f :: S) = f :: S
  rw [if_neg (by simp [h])]

theorem objInsert_fresh (A : List (String × Value)) (k : String) (v : Value)
    (h : ∀ q ∈ A, q.1 ≠ k) : objInsert A k v = A ++ [(k, v)] := by
  unfold objInsert
  rw [if_neg (by
    intro hcontra
    simp only [List.any_eq_true, decide_eq_true_eq] at hcontra
    obtain ⟨q, hq, hq1⟩ := hcontra
    exact h q hq hq1)]

theorem fmtKey_cases (k : String) (hk : goodKey k = true) :
    (isBareKey k = true ∧ fmtKey k = k) ∨
    (quotedSafeKey k = true ∧ isBareKey k = false ∧ fmtKey k = jsonQuote k) := by
  unfold goodKey at hk
  unfold fmtKey
  by_cases hb : isBareKey k = true
  · exact Or.inl ⟨hb, by rw [if_pos hb]⟩
  · refine Or.inr ⟨?_, by simpa using hb, by rw [if_neg hb]⟩
    rcases Bool.or_eq_true _ _ |>.mp hk with h | h
    · exact absurd h hb
    · exact h

theorem fmtKey_stripLen (k : String) (hk : goodKey k = true) :
    stripLenSuffix (fmtKey k) = fmtKey k := by
  rcases fmtKey_cases k hk with ⟨hb, hf⟩ | ⟨hq, _, hf⟩
  · rw [hf]
    obtain ⟨_, hall⟩ := bareKey_solid k hb
    show stripLenSuffix ⟨k.data⟩ = k
    rw [stripLenSuffix_bare k.data hall]
  · rw [hf]
    exact stripLenSuffix_last_ne _ '"' (jsonQuote_last k) (by decide)

theorem cleanKey_fmtKey (k : String) (hk : goodKey k = true) :
    stripQuoteEnds (stripLenSuffix (fmtKey k)) = k := by
  rw [fmtKey_stripLen k hk]
  rcases fmtKey_cases k hk with ⟨hb, hf⟩ | ⟨hq, _, hf⟩
  · rw [hf]
    obtain ⟨_, hall⟩ := bareKey_solid k hb
    exact stripQuoteEnds_bare k (fun c hc =>
      ⟨(isWordChar_props c (hall c hc)).2.2.2.1, (isWordChar_props c (hall c hc)).2.2.2.2.1⟩)
  · rw [hf]
    have hd3 : (jsonQuote k).data = '"' :: (k.data ++ ['"']) := by
      rw [jsonQuote_plain k hq]
      simp
    have hdq : jsonQuote k = ⟨'"' :: (k.data ++ ['"'])⟩ := congrArg String.mk hd3
    rw [hdq]
    exact stripQuoteEnds_quoted k

theorem dashKeyRe_fmtKey (k : String) (hk : goodKey k = true) :
    (dashKeyRe1 (fmtKey k) || dashKeyRe2 (fmtKey k)) = true := by
  rcases fmtKey_cases k hk with ⟨hb, hf⟩ | ⟨hq, _, hf⟩
  · rw [hf, dashKeyRe1_bare k hb, Bool.true_or]
  · rw [hf, dashKeyRe2_quoted k hq, Bool.or_true]

theorem fmtKey_quoteStarts (k : String) (hk : goodKey k = true) :
    (strStarts "\"" (fmtKey k) && strEnds "\"" (fmtKey k)) = true →
      jsonParseStr (fmtKey k) = some k := by
  intro hse
  rcases fmtKey_cases k hk with ⟨hb, hf⟩ | ⟨hq, _, hf⟩
  · exfalso
    obtain ⟨hne, hall⟩ := bareKey_solid k hb
    obtain ⟨c0, t, hd⟩ := List.exists_cons_of_ne_nil hne
    rw [hf] at hse
    rw [Bool.and_eq_true] at hse
    have hs1 := hse.1
    rw [show k = (⟨c0 :: t⟩ : String) from congrArg String.mk hd] at hs1
    rw [strStarts_cons_neq '"' [] c0 t
      (isWordChar_props c0 (hall c0 (hd ▸ List.mem_cons_self c0 t))).2.2.2.1] at hs1
    simp at hs1
  · rw [hf]
    exact jsonParseStr_quote k

theorem jsTrim_space (X : List Char) (c0 : Char) (t : List Char) (hd : X = c0 :: t)
    (h0 : jsWs c0 = false) (cl : Char) (hl : X.getLast? = some cl) (hcl : jsWs cl = false) :
    jsTrim ⟨' ' :: X⟩ = ⟨X⟩ := by
  show (⟨jsTrimL (' ' :: X)⟩ : String) = ⟨X⟩
  have hl2 : (' ' :: X).getLast? = some cl := by
    rw [hd] at hl ⊢
    rw [List.getLast?_cons_cons]
    exact hl
  unfold jsTrimL
  rw [trimR_of_last _ cl hl2 hcl]
  show (⟨trimLeft (' ' :: X)⟩ : String) = ⟨X⟩
  rw [show trimLeft (' ' :: X) = trimLeft X from by rw [trimLeft]; simp [jsWs], hd,
    trimLeft_of_head c0 t (by simp [h0])]

theorem lineStep_goodField (k : String) (hk : goodKey k = true) (opt tail : List Char)
    (hopt : opt = [] ∨ ∃ dg, dg ≠ [] ∧ (∀ c ∈ dg, isDigit c = true) ∧
      opt = '[' :: (dg ++ [']'])) (ind : Int) (next : Option (Int × String))
    (st : List Frame) :
    lineStep ind ⟨(fmtKey k).data ++ opt ++ ':' :: tail⟩ next st =
      some (processValue k (jsTrim ⟨tail⟩) ind next
        (popFrames ind ⟨(fmtKey k).data ++ opt ++ ':' :: tail⟩ st)) := by
  obtain ⟨c0, t, hd, h0ws, h0dash, hnc, hnnl, cl, hcl, hclws⟩ := fmtKey_props k hk
  have hoptc : ∀ c ∈ opt, c ≠ ':' ∧ c ≠ '\n' := by
    rcases hopt with rfl | ⟨dg, hdg, hdig, rfl⟩
    · intro c hc; simp at hc
    · intro c hc
      rcases List.mem_cons.mp hc with rfl | hc2
      · exact ⟨by decide, by decide⟩
      rcases List.mem_append.mp hc2 with h3 | h3
      · have := isWordChar_props c (isDigit_isWordChar c (hdig c h3))
        exact ⟨this.2.2.1, this.2.2.2.2.2.2.2.1⟩
      · simp at h3; subst h3; exact ⟨by decide, by decide⟩
  have hassoc : (⟨(fmtKey k).data ++ opt ++ ':' :: tail⟩ : String) =
      ⟨((fmtKey k).data ++ opt) ++ ':' :: tail⟩ :=
    congrArg String.mk (by rw [List.append_assoc])
  rw [hassoc]
  have hshape : (fmtKey k).data ++ opt = c0 :: (t ++ opt) := by
    rw [hd]; simp
  obtain ⟨cl2, hcl2, hcl2ws⟩ : ∃ cl2, ((fmtKey k).data ++ opt).getLast? = some cl2 ∧
      jsWs cl2 = false := by
    rcases hopt with rfl | ⟨dg, hdg, hdig, rfl⟩
    · exact ⟨cl, by simpa using hcl, hclws⟩
    · refine ⟨']', ?_, by decide⟩
      rw [show (fmtKey k).data ++ '[' :: (dg ++ [']']) =
        ((fmtKey k).data ++ '[' :: dg) ++ [']'] from by simp]
      exact List.getLast?_concat _
  have hdash : strStarts "- " ⟨((fmtKey k).data ++ opt) ++ ':' :: tail⟩ = false := by
    rw [show (⟨((fmtKey k).data ++ opt) ++ ':' :: tail⟩ : String) =
      ⟨c0 :: ((t ++ opt) ++ ':' :: tail)⟩ from congrArg String.mk (by rw [hshape]; simp)]
    exact strStarts_cons_neq '-' [' '] c0 _ h0dash
  have hci : strIndexOfL ':' (((fmtKey k).data ++ opt) ++ ':' :: tail) =
      some ((fmtKey k).data ++ opt).length := by
    rw [strIndexOfL_append_not_mem ':' _ _ (by
      intro hm
      rcases List.mem_append.mp hm with h3 | h3
      · exact hnc h3
      · exact (hoptc ':' h3).1 rfl), strIndexOfL_cons_self]
    simp
  have hkeyA : jsTrim (strTake ((fmtKey k).data ++ opt).length
      ⟨((fmtKey k).data ++ opt) ++ ':' :: tail⟩) = ⟨(fmtKey k).data ++ opt⟩ := by
    show jsTrim ⟨(((fmtKey k).data ++ opt) ++ ':' :: tail).take _⟩ = _
    rw [List.take_left]
    show (⟨jsTrimL ((fmtKey k).data ++ opt)⟩ : String) = _
    rw [jsTrimL_ends _ c0 (t ++ opt) cl2 hshape h0ws hcl2 hcl2ws]
  have hvs : strDrop (((fmtKey k).data ++ opt).length + 1)
      ⟨((fmtKey k).data ++ opt) ++ ':' :: tail⟩ = ⟨tail⟩ := by
    show (⟨(((fmtKey k).data ++ opt) ++ ':' :: tail).drop _⟩ : String) = _
    rw [drop_append_cons]
  have hclean : stripLenSuffix ⟨(fmtKey k).data ++ opt⟩ = fmtKey k := by
    rcases hopt with rfl | ⟨dg, hdg, hdig, rfl⟩
    · rw [show (⟨(fmtKey k).data ++ []⟩ : String) = fmtKey k from
        congrArg String.mk (List.append_nil _)]
      exact fmtKey_stripLen k hk
    · rw [stripLenSuffix_annotated _ dg hdg hdig]
  rw [lineStep_field ind _ next st hdash _ (show strIndexOfL ':'
    (⟨((fmtKey k).data ++ opt) ++ ':' :: tail⟩ : String).data = _ from hci),
    hkeyA, hvs, hclean]
  rcases fmtKey_cases k hk with ⟨hb, hf⟩ | ⟨hq, hnb, hf⟩
  · have hqf : (strStarts "\"" (fmtKey k) && strEnds "\"" (fmtKey k)) = false := by
      rw [hf]
      obtain ⟨hne, hall⟩ := bareKey_solid k hb
      obtain ⟨d0, dt, hdd⟩ := List.exists_cons_of_ne_nil hne
      rw [show k = (⟨d0 :: dt⟩ : String) from congrArg String.mk hdd,
        strStarts_cons_neq '"' [] d0 dt
          (isWordChar_props d0 (hall d0 (hdd ▸ List.mem_cons_self d0 dt))).2.2.2.1]
      simp
    rw [hqf]
    show some (processValue (fmtKey k) _ ind next _) = _
    rw [hf]
  · have hqt : (strStarts "\"" (fmtKey k) && strEnds "\"" (fmtKey k)) = true := by
      rw [hf, strStarts_jsonQuote, strEnds_jsonQuote]
      rfl
    rw [hqt]
    show (match jsonParseStr (fmtKey k) with
      | some fk => some (processValue fk (jsTrim ⟨tail⟩) ind next
          (popFrames ind ⟨((fmtKey k).data ++ opt) ++ ':' :: tail⟩ st))
      | none => none) = _
    rw [show jsonParseStr (fmtKey k) = some k from by rw [hf]; exact jsonParseStr_quote k]

theorem processValue_openObj (key : String) (ind : Int) (next : Option (Int × String))
    (hnext : ∀ nInd nc, next = some (nInd, nc) → strStarts "- " nc = false)
    (A : List (String × Value)) (i : Int) (att : Attach) (S : List Frame) :
    processValue key "" ind next (⟨.cObj A, i, att⟩ :: S) =
      ⟨.cObj [], ind, .toField key⟩ :: ⟨.cObj A, i, att⟩ :: S := by
  cases next with
  | none =>
    unfold processValue
    rw [if_pos rfl]
    dsimp only
    rfl
  | some p =>
    obtain ⟨nInd, nc⟩ := p
    have hnc := hnext nInd nc rfl
    unfold processValue
    rw [if_pos rfl]
    dsimp only
    rw [if_neg (show ¬((decide (nInd ≥ ind) && strStarts "- " nc) = true) from by
      rw [hnc, Bool.and_false]
      simp)]

theorem processValue_openArr (key : String) (ind : Int) (nInd : Int) (nc : String)
    (hge : ind ≤ nInd) (hdash : strStarts "- " nc = true)
    (A : List (String × Value)) (i : Int) (att : Attach) (S : List Frame) :
    processValue key "" ind (some (nInd, nc)) (⟨.cObj A, i, att⟩ :: S) =
      ⟨.cArr [], ind, .toField key⟩ :: ⟨.cObj A, i, att⟩ :: S := by
  unfold processValue
  rw [if_pos rfl]
  dsimp only
  rw [if_pos (show (decide (nInd ≥ ind) && strStarts "- " nc) = true from by
    rw [hdash, Bool.and_true]
    exact decide_eq_true hge)]

theorem dashBody_objItem (k1 : String) (hk1 : goodKey k1 = true) (tail : List Char)
    (ind : Int) (next : Option (Int × String)) (f : Frame) (rest : List Frame)
    (xs : List Value) (hf : f.cont = .cArr xs) :
    dashBody ⟨(fmtKey k1).data ++ ':' :: tail⟩ ind next (f :: rest) =
      processValue k1 (jsTrim ⟨tail⟩) (ind + 2) next
        (⟨.cObj [], ind, .toArr⟩ :: f :: rest) := by
  obtain ⟨c0, t, hd, h0ws, h0dash, hnc, hnnl, cl, hcl, hclws⟩ := fmtKey_props k1 hk1
  unfold dashBody
  rw [if_neg (by
    intro hcontra
    have hdata : (fmtKey k1).data ++ ':' :: tail = [] := congrArg String.data hcontra
    rw [hd] at hdata
    simp at hdata)]
  dsimp only
  rw [show strIndexOf ':' ⟨(fmtKey k1).data ++ ':' :: tail⟩ =
    some (fmtKey k1).data.length from by
      show strIndexOfL ':' ((fmtKey k1).data ++ ':' :: tail) = _
      rw [strIndexOfL_append_not_mem ':' _ _ hnc, strIndexOfL_cons_self]
      simp]
  have hkeyPart : strTake (fmtKey k1).data.length ⟨(fmtKey k1).data ++ ':' :: tail⟩ =
      fmtKey k1 := by
    show (⟨((fmtKey k1).data ++ ':' :: tail).take _⟩ : String) = _
    rw [List.take_left]
  show (if (dashKeyRe1 (strTake (fmtKey k1).data.length
        ⟨(fmtKey k1).data ++ ':' :: tail⟩) ||
        dashKeyRe2 (strTake (fmtKey k1).data.length
        ⟨(fmtKey k1).data ++ ':' :: tail⟩)) = true then
      processValue (stripQuoteEnds (stripLenSuffix (jsTrim (strTake (fmtKey k1).data.length
        ⟨(fmtKey k1).data ++ ':' :: tail⟩))))
        (jsTrim (strDrop ((fmtKey k1).data.length + 1) ⟨(fmtKey k1).data ++ ':' :: tail⟩))
        (ind + 2) next
        (⟨.cObj [], ind, match f.cont with
          | .cArr items => .toArr
          | .cObj fields => .orphan⟩ :: f :: rest)
    else pushArrTop (parseValue ⟨(fmtKey k1).data ++ ':' :: tail⟩) (f :: rest)) =
    processValue k1 (jsTrim ⟨tail⟩) (ind + 2) next
      (⟨.cObj [], ind, .toArr⟩ :: f :: rest)
  rw [hkeyPart, if_pos (dashKeyRe_fmtKey k1 hk1)]
  have hkey : jsTrim (fmtKey k1) = fmtKey k1 := by
    show (⟨jsTrimL (fmtKey k1).data⟩ : String) = _
    rw [jsTrimL_ends _ c0 t cl hd h0ws hcl hclws]
  have hvs : strDrop ((fmtKey k1).data.length + 1) ⟨(fmtKey k1).data ++ ':' :: tail⟩ =
      ⟨tail⟩ := by
    show (⟨((fmtKey k1).data ++ ':' :: tail).drop _⟩ : String) = _
    rw [drop_append_cons]
  rw [hkey, cleanKey_fmtKey k1 hk1, hvs, hf]

theorem strStarts_dash_fmtKey (k : String) (hk : goodKey k = true) (X : List Char) :
    strStarts "- " ⟨(fmtKey k).data ++ X⟩ = false := by
  obtain ⟨c0, t, hd, h0ws, h0dash, hnc, hnnl, cl, hcl, hclws⟩ := fmtKey_props k hk
  rw [show (⟨(fmtKey k).data ++ X⟩ : String) = ⟨c0 :: (t ++ X)⟩ from
    congrArg String.mk (by rw [hd]; simp)]
  exact strStarts_cons_neq '-' [' '] c0 _ h0dash

theorem strStarts_dash_prepend (X : List Char) : strStarts "- " ⟨'-' :: ' ' :: X⟩ = true := by
  show (['-', ' '].isPrefixOf ('-' :: ' ' :: X)) = true
  simp [List.isPrefixOf]

theorem strStarts_dash_head (s : String) (c0 : Char) (h : s.data.head? = some c0)
    (hc0 : c0 ≠ '-') : strStarts "- " s = false := by
  cases hs : s.data with
  | nil => rw [hs] at h; simp at h
  | cons d t =>
    rw [hs] at h
    simp only [List.head?_cons, Option.some.injEq] at h
    rw [show s = (⟨d :: t⟩ : String) from congrArg String.mk hs]
    exact strStarts_cons_neq '-' [' '] d t (by rw [h]; exact hc0)

theorem goodFields_cons (k : String) (v : Value) (fs : List (String × Value))
    (h : goodFields ((k, v) :: fs) = true) :
    goodKey k = true ∧ goodFieldVal v = true ∧ goodFields fs = true := by
  unfold goodFields at h
  rw [Bool.and_eq_true, Bool.and_eq_true] at h
  exact ⟨h.1.1, h.1.2, h.2⟩

theorem keysFresh_cons (k : String) (v : Value) (fs : List (String × Value))
    (h : keysFresh ((k, v) :: fs) = true) :
    (∀ p ∈ fs, p.1 ≠ k) ∧ keysFresh fs = true := by
  unfold keysFresh at h
  rw [Bool.and_eq_true] at h
  refine ⟨fun p hp hpk => ?_, h.2⟩
  have h1 := h.1
  rw [Bool.not_eq_true'] at h1
  rw [List.any_eq_false] at h1
  have := h1 p hp
  simp [hpk] at this

theorem goodItems_cons (items : List Value) (h : goodItems items = true)
    (hne : items ≠ []) :
    ∃ ofs rest, items = .vObj ofs :: rest ∧ ofs ≠ [] ∧ goodFields ofs = true ∧
      keysFresh ofs = true ∧
      (∃ k1 v1 ofs', ofs = (k1, v1) :: ofs' ∧ isArrV v1 = false) ∧
      goodItems rest = true := by
  match items with
  | [] => exact absurd rfl hne
  | .vObj fields :: rest =>
    refine ⟨fields, rest, rfl, ?_⟩
    unfold goodItems at h
    rw [Bool.and_eq_true, Bool.and_eq_true] at h
    obtain ⟨⟨h1, h2⟩, h3⟩ := h
    rw [Bool.and_eq_true, Bool.and_eq_true] at h2
    obtain ⟨⟨h4, h5⟩, h6⟩ := h2
    refine ⟨by simpa using h4, h5, h6, ?_, h3⟩
    match fields, h1 with
    | (k1, v1) :: ofs', h1 =>
      refine ⟨k1, v1, ofs', rfl, ?_⟩
      simpa using h1
  | .vNull :: rest => exact absurd h (by simp [goodItems])
  | .vBool b :: rest => exact absurd h (by simp [goodItems])
  | .vNum nn :: rest => exact absurd h (by simp [goodItems])
  | .vStr s :: rest => exact absurd h (by simp [goodItems])
  | .vArr a :: rest => exact absurd h (by simp [goodItems])

theorem linesO_head (fs : List (String × Value)) (n : Int) (hne : fs ≠ [])
    (hg : goodFields fs = true) :
    ∃ c more, linesO fs n = (n, c) :: more ∧ strStarts "- " c = false := by
  obtain ⟨⟨k, v⟩, fs', rfl⟩ : ∃ p fs', fs = p :: fs' := by
    cases fs with
    | nil => exact absurd rfl hne
    | cons p ps => exact ⟨p, ps, rfl⟩
  obtain ⟨hk, hv, hfs'⟩ := goodFields_cons k v fs' hg
  obtain ⟨c0, t, hd, h0ws, h0dash, hnc, hnnl, cl, hcl, hclws⟩ := fmtKey_props k hk
  cases v with
  | vArr items =>
    simp only [linesO]
    by_cases he : items.isEmpty = true
    · rw [if_pos he]
      exact ⟨_, _, rfl, strStarts_dash_head _ c0 (by simp [strData_append, hd]) h0dash⟩
    · rw [if_neg he]
      by_cases hsc : items.all isScalar = true
      · rw [if_pos hsc]
        exact ⟨_, _, rfl, strStarts_dash_head _ c0 (by simp [strData_append, hd]) h0dash⟩
      · rw [if_neg hsc]
        rw [List.cons_append]
        exact ⟨_, _, rfl, strStarts_dash_head _ c0 (by simp [strData_append, hd]) h0dash⟩
  | vObj ofs =>
    simp only [linesO]
    by_cases he : ofs.isEmpty = true
    · rw [if_pos he]
      exact ⟨_, _, rfl, strStarts_dash_head _ c0 (by simp [strData_append, hd]) h0dash⟩
    · rw [if_neg he]
      rw [List.cons_append]
      exact ⟨_, _, rfl, strStarts_dash_head _ c0 (by simp [strData_append, hd]) h0dash⟩
  | vNull =>
    simp only [linesO]
    exact ⟨_, _, rfl, strStarts_dash_head _ c0 (by simp [strData_append, hd]) h0dash⟩
  | vBool b =>
    simp only [linesO]
    exact ⟨_, _, rfl, strStarts_dash_head _ c0 (by simp [strData_append, hd]) h0dash⟩
  | vNum nn =>
    simp only [linesO]
    exact ⟨_, _, rfl, strStarts_dash_head _ c0 (by simp [strData_append, hd]) h0dash⟩
  | vStr s =>
    simp only [linesO]
    exact ⟨_, _, rfl, strStarts_dash_head _ c0 (by simp [strData_append, hd]) h0dash⟩

theorem linesA_cons_obj (ofs : List (String × Value)) (rest : List Value) (n m : Int)
    (c1 : String) (more : List (Int × String)) (h : linesO ofs (n + 2) = (m, c1) :: more) :
    linesA (.vObj ofs :: rest) n = (n, "- " ++ c1) :: (more ++ linesA rest n) := by
  simp only [linesA]
  rw [h]
  show ((n, "- " ++ c1) :: more) ++ linesA rest n = _
  rw [List.cons_append]

theorem linesA_head (items : List Value) (n : Int) (hne : items ≠ [])
    (hg : goodItems items = true) :
    ∃ c more2, linesA items n = (n, c) :: more2 ∧ strStarts "- " c = true := by
  obtain ⟨ofs, rest, rfl, hofs, hgf, hkf, _, hrest⟩ := goodItems_cons items hg hne
  obtain ⟨c1, more, hlo, _⟩ := linesO_head ofs (n + 2) hofs hgf
  refine ⟨"- " ++ c1, more ++ linesA rest n, linesA_cons_obj ofs rest n (n + 2) c1 more hlo, ?_⟩
  exact strStarts_dash_prepend c1.data

/-! ## The serializer-output bridge: analyzed lines of `toToon` -/

theorem analyzedLines_empty : analyzedLines "" = [] := by decide

theorem isPrefixOf_self_append (l X : List Char) : l.isPrefixOf (l ++ X) = true := by
  induction l with
  | nil => simp [List.isPrefixOf]
  | cons c cs ih => simp [List.isPrefixOf, ih]

theorem strStarts_self_append (p : String) (X : List Char) :
    strStarts p ⟨p.data ++ X⟩ = true := isPrefixOf_self_append p.data X

theorem toToonFields_ne_nil (k : String) (v : Value) (l : List (String × Value))
    (lvl : Nat) : toToonFields ((k, v) :: l) lvl ≠ [] := by
  rw [toToonFields]
  exact List.cons_ne_nil _ _

theorem toToonItems_ne_nil (v : Value) (l : List Value) (lvl : Nat) :
    toToonItems (v :: l) lvl ≠ [] := by
  cases v <;>
    (rw [toToonItems] <;>
      first
      | exact List.cons_ne_nil _ _
      | (intro fs h; cases h))

theorem goodFieldVal_obj (ofs : List (String × Value))
    (h : goodFieldVal (.vObj ofs) = true) :
    ofs ≠ [] ∧ goodFields ofs = true ∧ keysFresh ofs = true := by
  unfold goodFieldVal at h
  rw [Bool.and_eq_true, Bool.and_eq_true] at h
  exact ⟨by simpa using h.1.1, h.1.2, h.2⟩

theorem goodFieldVal_arr_complex (items : List Value)
    (h : goodFieldVal (.vArr items) = true) (hne : items.isEmpty = false)
    (hsc : items.all isScalar = false) : goodItems items = true := by
  unfold goodFieldVal at h
  rw [if_neg (by simp [hne]), if_neg (by simp [hsc])] at h
  exact h

theorem goodFieldVal_arr_inline (items : List Value)
    (h : goodFieldVal (.vArr items) = true) (hne : items.isEmpty = false)
    (hsc : items.all isScalar = true) :
    2 ≤ items.length ∧ items.all inlineSafeItem = true := by
  unfold goodFieldVal at h
  rw [if_neg (by simp [hne]), if_pos hsc, Bool.and_eq_true] at h
  exact ⟨by simpa using h.1, h.2⟩

theorem strJoin_comma_shape (items : List Value) (hne : items ≠ [])
    (hsc : items.all isScalar = true) :
    ∃ c0 t, (strJoin "," (toToonAtZero items)).data = c0 :: t ∧ jsWs c0 = false ∧
      (∃ cl, (strJoin "," (toToonAtZero items)).data.getLast? = some cl ∧
        jsWs cl = false) ∧
      '\n' ∉ (strJoin "," (toToonAtZero items)).data := by
  induction items with
  | nil => exact absurd rfl hne
  | cons v vs ih =>
    rw [List.all_cons, Bool.and_eq_true] at hsc
    obtain ⟨d0, dt, hdd, hd0, ⟨dl, hdl, hdlws⟩, hdnl⟩ := scalar_repr_shape v hsc.1
    cases vs with
    | nil =>
      exact ⟨d0, dt, hdd, hd0, ⟨dl, hdl, hdlws⟩, hdnl⟩
    | cons v2 vs2 =>
      obtain ⟨e0, et, hed, he0, ⟨el, hel, helws⟩, henl⟩ := ih (by simp) hsc.2
      have hjd : (strJoin "," (toToonAtZero (v :: v2 :: vs2))).data =
          (toToon v 0).data ++ ',' :: (strJoin "," (toToonAtZero (v2 :: vs2))).data := by
        show (strJoin "," (toToon v 0 :: toToonAtZero (v2 :: vs2))).data = _
        rw [strJoin_cons _ _ _ (by simp [toToonAtZero])]
        rw [strData_append, strData_append]
        simp
      refine ⟨d0, dt ++ ',' :: (strJoin "," (toToonAtZero (v2 :: vs2))).data, ?_, hd0,
        ⟨el, ?_, helws⟩, ?_⟩
      · rw [hjd, hdd]
        simp
      · rw [hjd, List.getLast?_append_of_ne_nil _ (by simp),
          show ',' :: (strJoin "," (toToonAtZero (v2 :: vs2))).data =
            [','] ++ (strJoin "," (toToonAtZero (v2 :: vs2))).data from rfl,
          List.getLast?_append_of_ne_nil _ (by rw [hed]; simp)]
        exact hel
      · rw [hjd]
        intro hm
        rcases List.mem_append.mp hm with h1 | h1
        · exact hdnl h1
        · rcases List.mem_cons.mp h1 with h2 | h2
          · exact absurd h2 (by decide)
          · exact henl h2

theorem decomp_lines (m : Nat) (core tail : List Char) (more : List (Int × String))
    (hhead : ∃ c0 t, core = c0 :: t ∧ jsWs c0 = false)
    (hlast : ∃ cl, core.getLast? = some cl ∧ jsWs cl = false)
    (hnl : '\n' ∉ core)
    (htail : ((∀ c ∈ tail, jsWs c = true) ∧ '\n' ∉ tail ∧ more = []) ∨
     (∃ w rest2, tail = w ++ '\n' :: rest2 ∧ (∀ c ∈ w, jsWs c = true) ∧ '\n' ∉ w ∧
        analyzedLines ⟨rest2⟩ = more)) :
    analyzedLines ⟨List.replicate m ' ' ++ core ++ tail⟩ = ((m : Int), ⟨core⟩) :: more := by
  obtain ⟨c0, t, rfl, h0⟩ := hhead
  obtain ⟨cl, hcl, hclws⟩ := hlast
  have htr : trimR (c0 :: t) = c0 :: t := trimR_of_last _ cl hcl hclws
  rcases htail with ⟨hws, hwnl, rfl⟩ | ⟨w, rest2, rfl, hws, hwnl, hmore⟩
  · rw [analyzedLines_line m c0 t tail h0 hnl hws hwnl, htr]
  · have hsplit : List.replicate m ' ' ++ (c0 :: t) ++ (w ++ '\n' :: rest2) =
        (List.replicate m ' ' ++ (c0 :: t) ++ w) ++ '\n' :: rest2 := by
      simp
    rw [show (⟨List.replicate m ' ' ++ (c0 :: t) ++ (w ++ '\n' :: rest2)⟩ : String) =
      ⟨(List.replicate m ' ' ++ (c0 :: t) ++ w) ++ '\n' :: rest2⟩ from
      congrArg String.mk hsplit]
    rw [analyzedLines_nl, analyzedLines_line m c0 t w h0 hnl hws hwnl, htr, hmore]
    rfl

theorem bridgeOut_lines (s : String) (m : Nat) (ls : List (Int × String))
    (h : bridgeOut s m ls) : analyzedLines s = ls := by
  obtain ⟨core, tail, more, hdata, hh, hl, hnl, hls, htail⟩ := h
  rw [show s = ⟨List.replicate m ' ' ++ core ++ tail⟩ from congrArg String.mk hdata,
    decomp_lines m core tail more hh hl hnl htail]
  exact hls.symm

theorem castTwo (lvl : Nat) : ((2 * (lvl + 1) : Nat) : Int) = ((2 * lvl : Nat) : Int) + 2 := by
  push_cast
  ring

theorem isDigit_not_nl (c : Char) (h : isDigit c = true) : c ≠ '\n' :=
  (isWordChar_props c (isDigit_isWordChar c h)).2.2.2.2.2.2.2.1

theorem bridgeO_scalar (k : String) (v : Value) (fs' : List (String × Value)) (lvl : Nat)
    (hk : goodKey k = true) (hs : isScalar v = true)
    (hrec : (fs' = [] ∧ toToonFields fs' lvl = []) ∨
      (toToonFields fs' lvl ≠ [] ∧
        analyzedLines (strJoin "\n" (toToonFields fs' lvl)) =
          linesO fs' ((2 * lvl : Nat) : Int))) :
    bridgeOut (strJoin "\n"
        ((spaces lvl ++ fmtKey k ++ ": " ++ toToon v 0 ++ " ") :: toToonFields fs' lvl))
      (2 * lvl)
      ((((2 * lvl : Nat) : Int), fmtKey k ++ ": " ++ toToon v 0) ::
        linesO fs' ((2 * lvl : Nat) : Int)) := by
  obtain ⟨d0, dt, hdd, hd0ws, ⟨dl, hdl, hdlws⟩, hdnl⟩ := scalar_repr_shape v hs
  obtain ⟨c0, t, hd, h0ws, h0dash, hnc, hnnl, cl, hcl, hclws⟩ := fmtKey_props k hk
  have hhead : ∃ e0 e, ((fmtKey k).data ++ [':', ' ']) ++ (toToon v 0).data = e0 :: e ∧
      jsWs e0 = false :=
    ⟨c0, t ++ [':', ' '] ++ (toToon v 0).data, by rw [hd]; simp, h0ws⟩
  have hlast : ∃ el, (((fmtKey k).data ++ [':', ' ']) ++ (toToon v 0).data).getLast? =
      some el ∧ jsWs el = false := by
    refine ⟨dl, ?_, hdlws⟩
    rw [List.getLast?_append_of_ne_nil _ (by rw [hdd]; simp)]
    exact hdl
  have hnlc : '\n' ∉ ((fmtKey k).data ++ [':', ' ']) ++ (toToon v 0).data := by
    intro hm
    rcases List.mem_append.mp hm with h1 | h1
    · rcases List.mem_append.mp h1 with h2 | h2
      · exact hnnl h2
      · rcases List.mem_cons.mp h2 with h3 | h3
        · exact absurd h3 (by decide)
        · simp at h3
    · exact hdnl h1
  have hentry : ((((2 * lvl : Nat) : Int), fmtKey k ++ ": " ++ toToon v 0) ::
        linesO fs' ((2 * lvl : Nat) : Int)) =
      ((((2 * lvl : Nat) : Int),
        (⟨((fmtKey k).data ++ [':', ' ']) ++ (toToon v 0).data⟩ : String)) ::
        linesO fs' ((2 * lvl : Nat) : Int)) := by
    refine congrArg (fun c => ((((2 * lvl : Nat) : Int), c) ::
      linesO fs' ((2 * lvl : Nat) : Int))) ?_
    refine congrArg String.mk ?_
    show (fmtKey k ++ ": " ++ toToon v 0).data = _
    simp [strData_append]
  rcases hrec with ⟨hfs, hTF⟩ | ⟨hTFne, hAL⟩
  · refine ⟨((fmtKey k).data ++ [':', ' ']) ++ (toToon v 0).data, [' '],
      linesO fs' ((2 * lvl : Nat) : Int), ?_, hhead, hlast, hnlc, hentry, Or.inl ⟨?_, ?_, ?_⟩⟩
    · rw [hTF]
      show (spaces lvl ++ fmtKey k ++ ": " ++ toToon v 0 ++ " ").data = _
      simp [spaces, strData_append]
    · intro c hc
      simp at hc
      subst hc
      decide
    · intro hm
      simp at hm
    · rw [hfs]
      rw [linesO]
  · refine ⟨((fmtKey k).data ++ [':', ' ']) ++ (toToon v 0).data,
      ' ' :: '\n' :: (strJoin "\n" (toToonFields fs' lvl)).data,
      linesO fs' ((2 * lvl : Nat) : Int), ?_, hhead, hlast, hnlc, hentry,
      Or.inr ⟨[' '], (strJoin "\n" (toToonFields fs' lvl)).data, rfl, ?_, ?_, hAL⟩⟩
    · rw [strJoin_cons _ _ _ hTFne]
      show (spaces lvl ++ fmtKey k ++ ": " ++ toToon v 0 ++ " " ++ "\n" ++
        strJoin "\n" (toToonFields fs' lvl)).data = _
      simp [spaces, strData_append]
    · intro c hc
      simp at hc
      subst hc
      decide
    · intro hm
      simp at hm

theorem bridgeO_singleLine (fs' : List (String × Value)) (lvl : Nat) (E C : String)
    (w : List Char)
    (hEC : E.data = List.replicate (2 * lvl) ' ' ++ C.data ++ w)
    (hw : ∀ c ∈ w, jsWs c = true) (hwnl : '\n' ∉ w)
    (hhead : ∃ c0 t, C.data = c0 :: t ∧ jsWs c0 = false)
    (hlast : ∃ cl, C.data.getLast? = some cl ∧ jsWs cl = false)
    (hnl : '\n' ∉ C.data)
    (hrec : (fs' = [] ∧ toToonFields fs' lvl = []) ∨
      (toToonFields fs' lvl ≠ [] ∧
        analyzedLines (strJoin "\n" (toToonFields fs' lvl)) =
          linesO fs' ((2 * lvl : Nat) : Int))) :
    bridgeOut (strJoin "\n" (E :: toToonFields fs' lvl)) (2 * lvl)
      ((((2 * lvl : Nat) : Int), C) :: linesO fs' ((2 * lvl : Nat) : Int)) := by
  rcases hrec with ⟨hfs, hTF⟩ | ⟨hTFne, hAL⟩
  · refine ⟨C.data, w, linesO fs' ((2 * lvl : Nat) : Int), ?_, hhead, hlast, hnl, rfl,
      Or.inl ⟨hw, hwnl, ?_⟩⟩
    · rw [hTF]
      exact hEC
    · rw [hfs]
      rw [linesO]
  · refine ⟨C.data, w ++ '\n' :: (strJoin "\n" (toToonFields fs' lvl)).data,
      linesO fs' ((2 * lvl : Nat) : Int), ?_, hhead, hlast, hnl, rfl,
      Or.inr ⟨w, (strJoin "\n" (toToonFields fs' lvl)).data, rfl, hw, hwnl, hAL⟩⟩
    rw [strJoin_cons _ _ _ hTFne]
    show (E ++ "\n" ++ strJoin "\n" (toToonFields fs' lvl)).data = _
    rw [strData_append, strData_append, hEC]
    simp

theorem bridgeO_blockLine (fs' : List (String × Value)) (lvl : Nat) (E C : String)
    (wmid Block wend : List Char) (BL : List (Int × String))
    (hEC : E.data = List.replicate (2 * lvl) ' ' ++ C.data ++
      (wmid ++ '\n' :: (Block ++ wend)))
    (hwmid : ∀ c ∈ wmid, jsWs c = true) (hwmidnl : '\n' ∉ wmid)
    (hwend : ∀ c ∈ wend, jsWs c = true) (hwendnl : '\n' ∉ wend)
    (hhead : ∃ c0 t, C.data = c0 :: t ∧ jsWs c0 = false)
    (hlast : ∃ cl, C.data.getLast? = some cl ∧ jsWs cl = false)
    (hnl : '\n' ∉ C.data)
    (hBlock : analyzedLines ⟨Block⟩ = BL)
    (hrec : (fs' = [] ∧ toToonFields fs' lvl = []) ∨
      (toToonFields fs' lvl ≠ [] ∧
        analyzedLines (strJoin "\n" (toToonFields fs' lvl)) =
          linesO fs' ((2 * lvl : Nat) : Int))) :
    bridgeOut (strJoin "\n" (E :: toToonFields fs' lvl)) (2 * lvl)
      ((((2 * lvl : Nat) : Int), C) ::
        (BL ++ linesO fs' ((2 * lvl : Nat) : Int))) := by
  have hBW : analyzedLines ⟨Block ++ wend⟩ = BL := by
    rw [analyzedLines_trailws Block wend hwend hwendnl]
    exact hBlock
  rcases hrec with ⟨hfs, hTF⟩ | ⟨hTFne, hAL⟩
  · refine ⟨C.data, wmid ++ '\n' :: (Block ++ wend),
      BL ++ linesO fs' ((2 * lvl : Nat) : Int), ?_, hhead, hlast, hnl, rfl,
      Or.inr ⟨wmid, Block ++ wend, rfl, hwmid, hwmidnl, ?_⟩⟩
    · rw [hTF]
      exact hEC
    · rw [hfs, linesO, List.append_nil]
      exact hBW
  · refine ⟨C.data,
      wmid ++ '\n' :: ((Block ++ wend) ++ '\n' :: (strJoin "\n" (toToonFields fs' lvl)).data),
      BL ++ linesO fs' ((2 * lvl : Nat) : Int), ?_, hhead, hlast, hnl, rfl,
      Or.inr ⟨wmid, (Block ++ wend) ++ '\n' :: (strJoin "\n" (toToonFields fs' lvl)).data,
        rfl, hwmid, hwmidnl, ?_⟩⟩
    · rw [strJoin_cons _ _ _ hTFne]
      show (E ++ "\n" ++ strJoin "\n" (toToonFields fs' lvl)).data = _
      rw [strData_append, strData_append, hEC]
      simp
    · rw [analyzedLines_nl, hBW, hAL]

theorem bridgeA_cons (ofs : List (String × Value)) (rest : List Value) (lvl : Nat)
    (hB : bridgeOut (toToon (.vObj ofs) (lvl + 1)) (2 * (lvl + 1))
      (linesO ofs ((2 * (lvl + 1) : Nat) : Int)))
    (hrest : analyzedLines (strJoin "\n" (toToonItems rest lvl)) =
      linesA rest ((2 * lvl : Nat) : Int)) :
    analyzedLines (strJoin "\n" (toToonItems (.vObj ofs :: rest) lvl)) =
      linesA (.vObj ofs :: rest) ((2 * lvl : Nat) : Int) := by
  obtain ⟨core, tail, more, hdata, ⟨c0, t, hcore, h0ws⟩, ⟨cl, hcl, hclws⟩, hnl, hlines,
    htail⟩ := hB
  have hOCd : (toToon (.vObj ofs) (lvl + 1)).data =
      (spaces (lvl + 1)).data ++ (core ++ tail) := by
    rw [hdata]
    simp [spaces]
  have hOC : toToon (.vObj ofs) (lvl + 1) = ⟨(spaces (lvl + 1)).data ++ (core ++ tail)⟩ :=
    congrArg String.mk hOCd
  have hentry : dashReplace (spaces (lvl + 1)) (spaces lvl ++ "- ")
      (toToon (.vObj ofs) (lvl + 1)) =
      (spaces lvl ++ "- ") ++ strDrop (strLen (spaces (lvl + 1)))
        (toToon (.vObj ofs) (lvl + 1)) := by
    unfold dashReplace
    rw [if_pos (by rw [hOC]; exact strStarts_self_append _ _)]
  have hdrop : strDrop (strLen (spaces (lvl + 1))) (toToon (.vObj ofs) (lvl + 1)) =
      ⟨core ++ tail⟩ := by
    rw [hOC]
    show (⟨((spaces (lvl + 1)).data ++ (core ++ tail)).drop (strLen (spaces (lvl + 1)))⟩ :
      String) = _
    rw [show strLen (spaces (lvl + 1)) = (spaces (lvl + 1)).data.length from rfl,
      List.drop_left]
  have hAe : analyzedLines (dashReplace (spaces (lvl + 1)) (spaces lvl ++ "- ")
      (toToon (.vObj ofs) (lvl + 1))) =
      ((((2 * lvl : Nat) : Int), "- " ++ (⟨core⟩ : String)) :: more) := by
    rw [hentry, hdrop]
    rw [show (spaces lvl ++ "- ") ++ (⟨core ++ tail⟩ : String) =
      (⟨List.replicate (2 * lvl) ' ' ++ ('-' :: ' ' :: core) ++ tail⟩ : String) from
      congrArg String.mk (by simp [spaces, strData_append])]
    rw [decomp_lines (2 * lvl) ('-' :: ' ' :: core) tail more
      ⟨'-', ' ' :: core, rfl, by decide⟩
      ⟨cl, by
        rw [hcore, List.getLast?_cons_cons, List.getLast?_cons_cons, ← hcore]
        exact hcl, hclws⟩
      (by
        intro hm
        rcases List.mem_cons.mp hm with h1 | h1
        · exact absurd h1 (by decide)
        rcases List.mem_cons.mp h1 with h2 | h2
        · exact absurd h2 (by decide)
        · exact hnl h2)
      htail]
    rfl
  have hlines2 : linesO ofs (((2 * lvl : Nat) : Int) + 2) =
      ((((2 * lvl : Nat) : Int) + 2, (⟨core⟩ : String)) :: more) := by
    rw [← castTwo lvl]
    exact hlines
  have hlinesA : linesA (.vObj ofs :: rest) ((2 * lvl : Nat) : Int) =
      ((((2 * lvl : Nat) : Int), "- " ++ (⟨core⟩ : String)) ::
        (more ++ linesA rest ((2 * lvl : Nat) : Int))) :=
    linesA_cons_obj ofs rest _ _ _ more hlines2
  have hTI : toToonItems (.vObj ofs :: rest) lvl =
      dashReplace (spaces (lvl + 1)) (spaces lvl ++ "- ")
        (toToon (.vObj ofs) (lvl + 1)) :: toToonItems rest lvl := by
    rw [toToonItems]
  cases rest with
  | nil =>
    rw [hTI, show toToonItems ([] : List Value) lvl = [] from by rw [toToonItems]]
    show analyzedLines (dashReplace (spaces (lvl + 1)) (spaces lvl ++ "- ")
      (toToon (.vObj ofs) (lvl + 1))) = _
    rw [hAe, hlinesA, show linesA ([] : List Value) ((2 * lvl : Nat) : Int) = [] from
      by rw [linesA], List.append_nil]
  | cons r rs =>
    rw [hTI, analyzedLines_join_cons _ _ (toToonItems_ne_nil r rs lvl), hAe, hrest,
      hlinesA, List.cons_append]

theorem bridgeN (N : Nat) :
    (∀ (fs : List (String × Value)) (lvl : Nat), sizeOf fs ≤ N →
      goodFields fs = true → fs ≠ [] →
      bridgeOut (toToon (.vObj fs) lvl) (2 * lvl)
        (linesO fs ((2 * lvl : Nat) : Int))) ∧
    (∀ (items : List Value) (lvl : Nat), sizeOf items ≤ N →
      goodItems items = true →
      analyzedLines (strJoin "\n" (toToonItems items lvl)) =
        linesA items ((2 * lvl : Nat) : Int)) := by
  induction N with
  | zero =>
    constructor
    · intro fs lvl hsz
      exfalso
      cases fs <;> simp at hsz
    · intro items lvl hsz
      exfalso
      cases items <;> simp at hsz
  | succ N ih =>
    constructor
    · intro fs lvl hsz hg hne
      cases fs with
      | nil => exact absurd rfl hne
      | cons p fs' =>
      obtain ⟨k, v⟩ := p
      obtain ⟨hk, hv, hfs'⟩ := goodFields_cons k v fs' hg
      have hobj : toToon (.vObj ((k, v) :: fs')) lvl =
          strJoin "\n" (toToonFields ((k, v) :: fs') lvl) := by
        rw [toToon, if_neg (by simp)]
      have hrec : (fs' = [] ∧ toToonFields fs' lvl = []) ∨
          (toToonFields fs' lvl ≠ [] ∧
            analyzedLines (strJoin "\n" (toToonFields fs' lvl)) =
              linesO fs' ((2 * lvl : Nat) : Int)) := by
        cases fs' with
        | nil => exact Or.inl ⟨rfl, by rw [toToonFields]⟩
        | cons p2 ps =>
          obtain ⟨k2, v2⟩ := p2
          refine Or.inr ⟨toToonFields_ne_nil k2 v2 ps lvl, ?_⟩
          have hobj2 : toToon (.vObj ((k2, v2) :: ps)) lvl =
              strJoin "\n" (toToonFields ((k2, v2) :: ps) lvl) := by
            rw [toToon, if_neg (by simp)]
          rw [← hobj2]
          refine bridgeOut_lines _ _ _ (ih.1 ((k2, v2) :: ps) lvl ?_ hfs' (by simp))
          simp only [List.cons.sizeOf_spec, Prod.mk.sizeOf_spec] at hsz ⊢
          omega
      rw [hobj]
      cases v with
      | vNull =>
        simp only [toToonFields]
        rw [show (if isBareKey k = true then k else jsonQuote k) = fmtKey k from rfl]
        simp only [linesO]
        rw [List.singleton_append]
        exact bridgeO_scalar k .vNull fs' lvl hk (by decide) hrec
      | vBool b =>
        simp only [toToonFields]
        rw [show (if isBareKey k = true then k else jsonQuote k) = fmtKey k from rfl]
        simp only [linesO]
        rw [List.singleton_append]
        exact bridgeO_scalar k (.vBool b) fs' lvl hk rfl hrec
      | vNum nn =>
        simp only [toToonFields]
        rw [show (if isBareKey k = true then k else jsonQuote k) = fmtKey k from rfl]
        simp only [linesO]
        rw [List.singleton_append]
        exact bridgeO_scalar k (.vNum nn) fs' lvl hk rfl hrec
      | vStr s =>
        simp only [toToonFields]
        rw [show (if isBareKey k = true then k else jsonQuote k) = fmtKey k from rfl]
        simp only [linesO]
        rw [List.singleton_append]
        exact bridgeO_scalar k (.vStr s) fs' lvl hk rfl hrec
      | vObj ofs =>
        obtain ⟨hone, hgofs, hkofs⟩ := goodFieldVal_obj ofs hv
        have hofsE : ofs.isEmpty = false := by
          cases ofs with
          | nil => exact absurd rfl hone
          | cons q qs => rfl
        simp only [toToonFields]
        rw [show (if isBareKey k = true then k else jsonQuote k) = fmtKey k from rfl,
          if_neg (by simp [hofsE])]
        simp only [linesO]
        rw [if_neg (by simp [hofsE]), List.cons_append]
        obtain ⟨c0, t, hd, h0ws, h0dash, hnc, hnnl, cl, hcl, hclws⟩ := fmtKey_props k hk
        have hB := ih.1 ofs (lvl + 1) (by
          simp only [List.cons.sizeOf_spec, Prod.mk.sizeOf_spec, Value.vObj.sizeOf_spec] at hsz
          omega) hgofs hone
        have hBlock : analyzedLines ⟨(toToon (.vObj ofs) (lvl + 1)).data⟩ =
            linesO ofs (((2 * lvl : Nat) : Int) + 2) := by
          rw [← castTwo lvl]
          exact bridgeOut_lines _ _ _ hB
        refine bridgeO_blockLine fs' lvl _ (fmtKey k ++ ":") [' ']
          (toToon (.vObj ofs) (lvl + 1)).data [' ']
          (linesO ofs (((2 * lvl : Nat) : Int) + 2)) ?_ ?_ ?_ ?_ ?_ ?_ ?_ ?_ hBlock hrec
        · show ((spaces lvl ++ fmtKey k) ++ ": \n" ++ toToon (.vObj ofs) (lvl + 1) ++ " ").data
            = _
          simp [spaces, strData_append]
        · intro c hc; simp at hc; subst hc; decide
        · intro hm; simp at hm
        · intro c hc; simp at hc; subst hc; decide
        · intro hm; simp at hm
        · refine ⟨c0, t ++ [':'], ?_, h0ws⟩
          show (fmtKey k).data ++ (":" : String).data = _
          rw [hd]
          simp
        · refine ⟨':', ?_, by decide⟩
          show ((fmtKey k).data ++ (":" : String).data).getLast? = _
          rw [show ((":" : String)).data = [':'] from rfl, List.getLast?_concat]
        · show '\n' ∉ (fmtKey k).data ++ (":" : String).data
          intro hm
          rcases List.mem_append.mp hm with h1 | h1
          · exact hnnl h1
          · rw [show ((":" : String)).data = [':'] from rfl] at h1
            simp at h1
      | vArr items =>
        by_cases hIE : items.isEmpty = true
        · have hitems : items = [] := by
            cases items with
            | nil => rfl
            | cons q qs => simp at hIE
          subst hitems
          simp only [toToonFields]
          rw [show (if isBareKey k = true then k else jsonQuote k) = fmtKey k from rfl,
            if_pos (by decide), if_pos (by decide)]
          simp only [linesO]
          rw [if_pos (by decide), List.singleton_append]
          obtain ⟨c0, t, hd, h0ws, h0dash, hnc, hnnl, cl, hcl, hclws⟩ := fmtKey_props k hk
          refine bridgeO_singleLine fs' lvl _ (fmtKey k ++ "[0]: []") [] ?_ ?_ ?_ ?_ ?_ ?_ hrec
          · show ((spaces lvl ++ fmtKey k) ++
              ("[" ++ intRepr ((List.length ([] : List Value) : Nat) : Int) ++ "]") ++
              ": []").data = _
            rw [show intRepr ((List.length ([] : List Value) : Nat) : Int) = "0" from rfl]
            simp [spaces, strData_append]
          · intro c hc; simp at hc
          · intro hm; simp at hm
          · refine ⟨c0, t ++ ("[0]: []" : String).data, ?_, h0ws⟩
            show (fmtKey k).data ++ ("[0]: []" : String).data = _
            rw [hd]
            simp
          · refine ⟨']', ?_, by decide⟩
            show ((fmtKey k).data ++ ("[0]: []" : String).data).getLast? = _
            rw [show ("[0]: []" : String).data =
              ['[', '0', ']', ':', ' ', '[', ']'] from rfl,
              show (fmtKey k).data ++ ['[', '0', ']', ':', ' ', '[', ']'] =
                ((fmtKey k).data ++ ['[', '0', ']', ':', ' ', '[']) ++ [']'] from by simp,
              List.getLast?_concat]
          · show '\n' ∉ (fmtKey k).data ++ ("[0]: []" : String).data
            intro hm
            rcases List.mem_append.mp hm with h1 | h1
            · exact hnnl h1
            · rw [show ("[0]: []" : String).data =
                ['[', '0', ']', ':', ' ', '[', ']'] from rfl] at h1
              exact absurd h1 (by decide)
        · have hIE2 : items.isEmpty = false := by simpa using hIE
          have hitems_ne : items ≠ [] := by
            cases items with
            | nil => simp at hIE2
            | cons q qs => simp
          obtain ⟨c0, t, hd, h0ws, h0dash, hnc, hnnl, cl, hcl, hclws⟩ := fmtKey_props k hk
          by_cases hsc : items.all isScalar = true
          · -- inline (comma-joined) array field
            obtain ⟨hlen, hins⟩ := goodFieldVal_arr_inline items hv hIE2 hsc
            obtain ⟨j0, jt, hjd, hj0, ⟨jl, hjl, hjlws⟩, hjnl⟩ :=
              strJoin_comma_shape items hitems_ne hsc
            have hdig : ∀ c ∈ (intRepr ((items.length : Nat) : Int)).data,
                isDigit c = true := by
              rw [intRepr_ofNat]
              exact natDigits_digits _
            simp only [toToonFields]
            rw [show (if isBareKey k = true then k else jsonQuote k) = fmtKey k from rfl,
              if_pos hsc, if_neg (by simp [hIE2]),
              show toToon (.vArr items) 0 = strJoin "," (toToonAtZero items) from by
                rw [toToon, if_neg (by simp [hIE2]), if_pos hsc]]
            simp only [linesO]
            rw [if_neg (by simp [hIE2]), if_pos hsc, List.singleton_append]
            have hCd2 : (fmtKey k ++ "[" ++ intRepr ((items.length : Nat) : Int) ++
                "]: " ++ strJoin "," (toToonAtZero items)).data =
                ((fmtKey k).data ++ '[' :: ((intRepr ((items.length : Nat) : Int)).data ++
                  [']', ':', ' '])) ++ (strJoin "," (toToonAtZero items)).data := by
              simp [strData_append,
                show ("[" : String).data = ['['] from rfl,
                show ("]: " : String).data = [']', ':', ' '] from rfl]
            refine bridgeO_singleLine fs' lvl _
              (fmtKey k ++ "[" ++ intRepr ((items.length : Nat) : Int) ++ "]: " ++
                strJoin "," (toToonAtZero items)) [' '] ?_ ?_ ?_ ?_ ?_ ?_ hrec
            · show ((spaces lvl ++ fmtKey k) ++
                ("[" ++ intRepr ((items.length : Nat) : Int) ++ "]") ++ ": " ++
                strJoin "," (toToonAtZero items) ++ " ").data = _
              rw [hCd2]
              simp [spaces, strData_append,
                show ("[" : String).data = ['['] from rfl,
                show ("]" : String).data = [']'] from rfl,
                show (": " : String).data = [':', ' '] from rfl,
                show ("]: " : String).data = [']', ':', ' '] from rfl]
            · intro c hc; simp at hc; subst hc; decide
            · intro hm; simp at hm
            · refine ⟨c0, t ++ ('[' :: ((intRepr ((items.length : Nat) : Int)).data ++
                [']', ':', ' '])) ++ (strJoin "," (toToonAtZero items)).data, ?_, h0ws⟩
              rw [hCd2, hd]
              simp
            · refine ⟨jl, ?_, hjlws⟩
              rw [hCd2, List.getLast?_append_of_ne_nil _ (by rw [hjd]; simp)]
              exact hjl
            · rw [hCd2]
              intro hm
              rcases List.mem_append.mp hm with h1 | h1
              · rcases List.mem_append.mp h1 with h2 | h2
                · exact hnnl h2
                · rcases List.mem_cons.mp h2 with h3 | h3
                  · exact absurd h3 (by decide)
                  rcases List.mem_append.mp h3 with h4 | h4
                  · exact absurd rfl (isDigit_not_nl '\n' (hdig '\n' h4))
                  · exact absurd h4 (by decide)
              · exact hjnl h1
          · -- complex (dash-item) array field
            have hgI := goodFieldVal_arr_complex items hv hIE2 (by simpa using hsc)
            have hdig : ∀ c ∈ (intRepr ((items.length : Nat) : Int)).data,
                isDigit c = true := by
              rw [intRepr_ofNat]
              exact natDigits_digits _
            simp only [toToonFields]
            rw [show (if isBareKey k = true then k else jsonQuote k) = fmtKey k from rfl,
              if_neg hsc, if_neg (by simp [hIE2]),
              show toToon (.vArr items) (lvl + 1) =
                  strJoin "\n" (toToonItems items (lvl + 1)) from by
                rw [toToon, if_neg (by simp [hIE2]), if_neg (by simpa using hsc)]]
            simp only [linesO]
            rw [if_neg (by simp [hIE2]), if_neg (by simpa using hsc), List.cons_append]
            have hA := ih.2 items (lvl + 1) (by
              simp only [List.cons.sizeOf_spec, Prod.mk.sizeOf_spec,
                Value.vArr.sizeOf_spec] at hsz
              omega) hgI
            have hBlock : analyzedLines
                ⟨(strJoin "\n" (toToonItems items (lvl + 1))).data⟩ =
                linesA items (((2 * lvl : Nat) : Int) + 2) := by
              rw [← castTwo lvl]
              exact hA
            have hCd2 : (fmtKey k ++ "[" ++ intRepr ((items.length : Nat) : Int) ++
                "]:").data =
                ((fmtKey k).data ++ '[' :: (intRepr ((items.length : Nat) : Int)).data) ++
                  [']', ':'] := by
              simp [strData_append,
                show ("[" : String).data = ['['] from rfl,
                show ("]:" : String).data = [']', ':'] from rfl]
            refine bridgeO_blockLine fs' lvl _
              (fmtKey k ++ "[" ++ intRepr ((items.length : Nat) : Int) ++ "]:")
              [] (strJoin "\n" (toToonItems items (lvl + 1))).data []
              (linesA items (((2 * lvl : Nat) : Int) + 2))
              ?_ ?_ ?_ ?_ ?_ ?_ ?_ ?_ hBlock hrec
            · show ((spaces lvl ++ fmtKey k) ++
                ("[" ++ intRepr ((items.length : Nat) : Int) ++ "]") ++ ":\n" ++
                strJoin "\n" (toToonItems items (lvl + 1))).data = _
              rw [hCd2]
              simp [spaces, strData_append,
                show ("[" : String).data = ['['] from rfl,
                show ("]" : String).data = [']'] from rfl,
                show (":\n" : String).data = [':', '\n'] from rfl,
                show ("]:" : String).data = [']', ':'] from rfl]
            · intro c hc; simp at hc
            · intro hm; simp at hm
            · intro c hc; simp at hc
            · intro hm; simp at hm
            · refine ⟨c0, t ++ '[' :: (intRepr ((items.length : Nat) : Int)).data ++
                [']', ':'], ?_, h0ws⟩
              rw [hCd2, hd]
              simp
            · refine ⟨':', ?_, by decide⟩
              rw [hCd2,
                show ((fmtKey k).data ++ '[' ::
                    (intRepr ((items.length : Nat) : Int)).data) ++ [']', ':'] =
                  (((fmtKey k).data ++ '[' ::
                    (intRepr ((items.length : Nat) : Int)).data) ++ [']']) ++ [':'] from
                  by simp, List.getLast?_concat]
            · rw [hCd2]
              intro hm
              rcases List.mem_append.mp hm with h1 | h1
              · rcases List.mem_append.mp h1 with h2 | h2
                · exact hnnl h2
                · rcases List.mem_cons.mp h2 with h3 | h3
                  · exact absurd h3 (by decide)
                  · exact absurd rfl (isDigit_not_nl '\n' (hdig '\n' h3))
              · exact absurd h1 (by decide)
    · intro items lvl hsz hg
      cases items with
      | nil =>
        rw [show toToonItems ([] : List Value) lvl = [] from by rw [toToonItems],
          show strJoin "\n" [] = "" from rfl, analyzedLines_empty, linesA]
      | cons v rest =>
        obtain ⟨ofs, rest2, heq, hone, hgofs, hkofs, _, hgrest⟩ :=
          goodItems_cons (v :: rest) hg (by simp)
        obtain ⟨hv, hr⟩ : v = Value.vObj ofs ∧ rest = rest2 := by
          rw [List.cons.injEq] at heq
          exact ⟨heq.1, heq.2⟩
        subst hv
        subst hr
        refine bridgeA_cons ofs rest lvl (ih.1 ofs (lvl + 1) ?_ hgofs hone)
          (ih.2 rest lvl ?_ hgrest)
        · simp only [List.cons.sizeOf_spec, Value.vObj.sizeOf_spec] at hsz
          omega
        · simp only [List.cons.sizeOf_spec, Value.vObj.sizeOf_spec] at hsz
          omega

theorem bridgeO (fs : List (String × Value)) (lvl : Nat)
    (hg : goodFields fs = true) (hne : fs ≠ []) :
    bridgeOut (toToon (.vObj fs) lvl) (2 * lvl)
      (linesO fs ((2 * lvl : Nat) : Int)) :=
  (bridgeN (sizeOf fs)).1 fs lvl (le_refl _) hg hne

theorem bridgeA (items : List Value) (lvl : Nat) (hg : goodItems items = true) :
    analyzedLines (strJoin "\n" (toToonItems items lvl)) =
      linesA items ((2 * lvl : Nat) : Int) :=
  (bridgeN (sizeOf items)).2 items lvl (le_refl _) hg

/-! ## Running the parser over the serialized lines -/

theorem runLines_cons_step (ind : Int) (c : String) (ls : List (Int × String))
    (st st' : List Frame) (h : lineStep ind c ls.head? st = some st') :
    runLines ((ind, c) :: ls) st = runLines ls st' := by
  rw [runLines, h]

theorem popSim_weaken (n : Int) (st ideal : List Frame)
    (h : popSim n true st ideal) : popSim n false st ideal := by
  intro ind c hq
  refine h ind c ?_
  rcases hq with h1 | ⟨h1, h2⟩
  · exact Or.inl h1
  · exact Or.inr ⟨h1, Or.inl rfl⟩

theorem content_nondash (k : String) (hk : goodKey k = true) (opt tail : List Char) :
    strStarts "- " ⟨(fmtKey k).data ++ opt ++ ':' :: tail⟩ = false := by
  obtain ⟨c0, t, hd, h0ws, h0dash, hnc, hnnl, cl, hcl, hclws⟩ := fmtKey_props k hk
  exact strStarts_dash_head _ c0 (by simp [hd]) h0dash

theorem lineStep_dash (ind : Int) (c1 : String) (next : Option (Int × String))
    (st : List Frame) :
    lineStep ind ("- " ++ c1) next st =
      some (dashBody (jsTrim c1) ind next
        (rootCoerce (popFrames ind ("- " ++ c1) st))) := by
  unfold lineStep
  rw [show strStarts "- " ("- " ++ c1) = true from strStarts_dash_prepend c1.data]
  dsimp only
  rw [if_pos rfl]
  rfl

theorem stepO_scalar (k : String) (v : Value) (n : Int) (A : List (String × Value))
    (i : Int) (att : Attach) (S : List Frame) (st0 : List Frame)
    (next : Option (Int × String))
    (hk : goodKey k = true) (hs : isScalar v = true)
    (hnum : ∀ nn, v = .vNum nn → goodNum nn = true)
    (hAk : ∀ q ∈ A, q.1 ≠ k)
    (hpop : popFrames n (fmtKey k ++ ": " ++ toToon v 0) st0 =
      ⟨.cObj A, i, att⟩ :: S) :
    lineStep n (fmtKey k ++ ": " ++ toToon v 0) next st0 =
      some (⟨.cObj (A ++ [(k, v)]), i, att⟩ :: S) := by
  have hceqd : (fmtKey k ++ ": " ++ toToon v 0).data =
      (fmtKey k).data ++ [] ++ ':' :: (' ' :: (toToon v 0).data) := by
    simp [strData_append, show (": " : String).data = [':', ' '] from rfl]
  have hceq : (fmtKey k ++ ": " ++ toToon v 0) =
      (⟨(fmtKey k).data ++ [] ++ ':' :: (' ' :: (toToon v 0).data)⟩ : String) :=
    congrArg String.mk hceqd
  rw [hceq] at hpop ⊢
  rw [lineStep_goodField k hk [] (' ' :: (toToon v 0).data) (Or.inl rfl) n next st0, hpop]
  obtain ⟨d0, dt, hdd, hd0ws, ⟨dl, hdl, hdlws⟩, hdnl⟩ := scalar_repr_shape v hs
  rw [show jsTrim ⟨' ' :: (toToon v 0).data⟩ = toToon v 0 from
    jsTrim_space _ d0 dt hdd hd0ws dl hdl hdlws]
  rw [processValue_scalar v k n next _ hs hnum]
  show some (⟨.cObj (objInsert A k v), i, att⟩ :: S) = _
  rw [objInsert_fresh A k v hAk]

theorem stepO_empty (k : String) (n : Int) (A : List (String × Value))
    (i : Int) (att : Attach) (S : List Frame) (st0 : List Frame)
    (next : Option (Int × String))
    (hk : goodKey k = true)
    (hAk : ∀ q ∈ A, q.1 ≠ k)
    (hpop : popFrames n (fmtKey k ++ "[0]: []") st0 = ⟨.cObj A, i, att⟩ :: S) :
    lineStep n (fmtKey k ++ "[0]: []") next st0 =
      some (⟨.cObj (A ++ [(k, .vArr [])]), i, att⟩ :: S) := by
  have hceqd : (fmtKey k ++ "[0]: []").data =
      (fmtKey k).data ++ ('[' :: (['0'] ++ [']'])) ++ ':' :: [' ', '[', ']'] := by
    simp [strData_append, show ("[0]: []" : String).data =
      ['[', '0', ']', ':', ' ', '[', ']'] from rfl]
  have hceq : (fmtKey k ++ "[0]: []") =
      (⟨(fmtKey k).data ++ ('[' :: (['0'] ++ [']'])) ++ ':' :: [' ', '[', ']']⟩ : String) :=
    congrArg String.mk hceqd
  rw [hceq] at hpop ⊢
  rw [lineStep_goodField k hk ('[' :: (['0'] ++ [']'])) [' ', '[', ']']
    (Or.inr ⟨['0'], by simp, by intro c hc; simp at hc; subst hc; decide, rfl⟩)
    n next st0, hpop]
  rw [show jsTrim ⟨[' ', '[', ']']⟩ = "[]" from by decide]
  rw [processValue_emptyArr k n next _]
  show some (⟨.cObj (objInsert A k (.vArr [])), i, att⟩ :: S) = _
  rw [objInsert_fresh A k _ hAk]

theorem stepO_inline (k : String) (items : List Value) (n : Int)
    (A : List (String × Value)) (i : Int) (att : Attach) (S : List Frame)
    (st0 : List Frame) (next : Option (Int × String))
    (hk : goodKey k = true) (hne : items ≠ []) (hsc : items.all isScalar = true)
    (hlen : 2 ≤ items.length) (hins : items.all inlineSafeItem = true)
    (hAk : ∀ q ∈ A, q.1 ≠ k)
    (hpop : popFrames n (fmtKey k ++ "[" ++ intRepr ((items.length : Nat) : Int) ++
      "]: " ++ strJoin "," (toToonAtZero items)) st0 = ⟨.cObj A, i, att⟩ :: S) :
    lineStep n (fmtKey k ++ "[" ++ intRepr ((items.length : Nat) : Int) ++
        "]: " ++ strJoin "," (toToonAtZero items)) next st0 =
      some (⟨.cObj (A ++ [(k, .vArr items)]), i, att⟩ :: S) := by
  obtain ⟨j0, jt, hjd, hj0, ⟨jl, hjl, hjlws⟩, hjnl⟩ := strJoin_comma_shape items hne hsc
  have hdigs : (intRepr ((items.length : Nat) : Int)).data = natDigits items.length := by
    rw [intRepr_ofNat]
  have hceqd : (fmtKey k ++ "[" ++ intRepr ((items.length : Nat) : Int) ++
      "]: " ++ strJoin "," (toToonAtZero items)).data =
      (fmtKey k).data ++ ('[' :: (natDigits items.length ++ [']'])) ++
        ':' :: (' ' :: (strJoin "," (toToonAtZero items)).data) := by
    simp [strData_append, hdigs,
      show ("[" : String).data = ['['] from rfl,
      show ("]: " : String).data = [']', ':', ' '] from rfl]
  have hceq : (fmtKey k ++ "[" ++ intRepr ((items.length : Nat) : Int) ++
      "]: " ++ strJoin "," (toToonAtZero items)) =
      (⟨(fmtKey k).data ++ ('[' :: (natDigits items.length ++ [']'])) ++
        ':' :: (' ' :: (strJoin "," (toToonAtZero items)).data)⟩ : String) :=
    congrArg String.mk hceqd
  rw [hceq] at hpop ⊢
  rw [lineStep_goodField k hk ('[' :: (natDigits items.length ++ [']']))
    (' ' :: (strJoin "," (toToonAtZero items)).data)
    (Or.inr ⟨natDigits items.length, natDigits_ne_nil _, natDigits_digits _, rfl⟩)
    n next st0, hpop]
  rw [show jsTrim ⟨' ' :: (strJoin "," (toToonAtZero items)).data⟩ =
      strJoin "," (toToonAtZero items) from
    jsTrim_space _ j0 jt hjd hj0 jl hjl hjlws]
  have hIE2 : items.isEmpty = false := by
    cases items with
    | nil => exact absurd rfl hne
    | cons q qs => rfl
  rw [show strJoin "," (toToonAtZero items) = toToon (.vArr items) 0 from by
    rw [toToon, if_neg (by simp [hIE2]), if_pos hsc]]
  rw [processValue_inline items k n next _ hlen hsc hins]
  show some (⟨.cObj (objInsert A k (.vArr items)), i, att⟩ :: S) = _
  rw [objInsert_fresh A k _ hAk]

theorem stepO_openObj (k : String) (n : Int) (A : List (String × Value))
    (i : Int) (att : Attach) (S : List Frame) (st0 : List Frame)
    (next : Option (Int × String))
    (hk : goodKey k = true)
    (hnext : ∀ nInd nc, next = some (nInd, nc) → strStarts "- " nc = false)
    (hpop : popFrames n (fmtKey k ++ ":") st0 = ⟨.cObj A, i, att⟩ :: S) :
    lineStep n (fmtKey k ++ ":") next st0 =
      some (⟨.cObj [], n, .toField k⟩ :: ⟨.cObj A, i, att⟩ :: S) := by
  have hceqd : (fmtKey k ++ ":").data = (fmtKey k).data ++ [] ++ ':' :: [] := by
    simp [strData_append, show (":" : String).data = [':'] from rfl]
  have hceq : (fmtKey k ++ ":") =
      (⟨(fmtKey k).data ++ [] ++ ':' :: []⟩ : String) := congrArg String.mk hceqd
  rw [hceq] at hpop ⊢
  rw [lineStep_goodField k hk [] [] (Or.inl rfl) n next st0, hpop]
  rw [show jsTrim (⟨[]⟩ : String) = "" from rfl]
  rw [processValue_openObj k n next hnext A i att S]

theorem stepO_openArr (k : String) (items : List Value) (n : Int)
    (A : List (String × Value)) (i : Int) (att : Attach) (S : List Frame)
    (st0 : List Frame) (nInd : Int) (nc : String)
    (hk : goodKey k = true) (hge : n ≤ nInd) (hdash : strStarts "- " nc = true)
    (hpop : popFrames n (fmtKey k ++ "[" ++ intRepr ((items.length : Nat) : Int) ++ "]:")
      st0 = ⟨.cObj A, i, att⟩ :: S) :
    lineStep n (fmtKey k ++ "[" ++ intRepr ((items.length : Nat) : Int) ++ "]:")
        (some (nInd, nc)) st0 =
      some (⟨.cArr [], n, .toField k⟩ :: ⟨.cObj A, i, att⟩ :: S) := by
  have hdigs : (intRepr ((items.length : Nat) : Int)).data = natDigits items.length := by
    rw [intRepr_ofNat]
  have hceqd : (fmtKey k ++ "[" ++ intRepr ((items.length : Nat) : Int) ++ "]:").data =
      (fmtKey k).data ++ ('[' :: (natDigits items.length ++ [']'])) ++ ':' :: [] := by
    simp [strData_append, hdigs,
      show ("[" : String).data = ['['] from rfl,
      show ("]:" : String).data = [']', ':'] from rfl]
  have hceq : (fmtKey k ++ "[" ++ intRepr ((items.length : Nat) : Int) ++ "]:") =
      (⟨(fmtKey k).data ++ ('[' :: (natDigits items.length ++ [']'])) ++
        ':' :: []⟩ : String) := congrArg String.mk hceqd
  rw [hceq] at hpop ⊢
  rw [lineStep_goodField k hk ('[' :: (natDigits items.length ++ [']'])) []
    (Or.inr ⟨natDigits items.length, natDigits_ne_nil _, natDigits_digits _, rfl⟩)
    n (some (nInd, nc)) st0, hpop]
  rw [show jsTrim (⟨[]⟩ : String) = "" from rfl]
  rw [processValue_openArr k n nInd nc hge hdash A i att S]

theorem jsTrim_keyval (k1 : String) (v1 : Value) (hk1 : goodKey k1 = true)
    (hs : isScalar v1 = true) :
    jsTrim (fmtKey k1 ++ ": " ++ toToon v1 0) = fmtKey k1 ++ ": " ++ toToon v1 0 := by
  obtain ⟨c0, t, hd, h0ws, h0dash, hnc, hnnl, cl, hcl, hclws⟩ := fmtKey_props k1 hk1
  obtain ⟨d0, dt, hdd, hd0ws, ⟨dl, hdl, hdlws⟩, hdnl⟩ := scalar_repr_shape v1 hs
  have hceqd : (fmtKey k1 ++ ": " ++ toToon v1 0).data =
      (fmtKey k1).data ++ ':' :: ' ' :: (toToon v1 0).data := by
    simp [strData_append, show (": " : String).data = [':', ' '] from rfl]
  show (⟨jsTrimL (fmtKey k1 ++ ": " ++ toToon v1 0).data⟩ : String) = _
  rw [jsTrimL_ends _ c0 (t ++ ':' :: ' ' :: (toToon v1 0).data) dl
    (by rw [hceqd, hd]; simp) h0ws
    (by
      rw [hceqd, List.getLast?_append_of_ne_nil _ (by simp), hdd,
        List.getLast?_cons_cons, List.getLast?_cons_cons, ← hdd]
      exact hdl)
    hdlws]

theorem jsTrim_keyhdr (k1 : String) (hk1 : goodKey k1 = true) :
    jsTrim (fmtKey k1 ++ ":") = fmtKey k1 ++ ":" := by
  obtain ⟨c0, t, hd, h0ws, h0dash, hnc, hnnl, cl, hcl, hclws⟩ := fmtKey_props k1 hk1
  have hceqd : (fmtKey k1 ++ ":").data = (fmtKey k1).data ++ [':'] := by
    simp [strData_append, show (":" : String).data = [':'] from rfl]
  show (⟨jsTrimL (fmtKey k1 ++ ":").data⟩ : String) = _
  rw [jsTrimL_ends _ c0 (t ++ [':']) ':'
    (by rw [hceqd, hd]; simp) h0ws
    (by rw [hceqd, List.getLast?_concat])
    (by decide)]

theorem stepI_scalar (k1 : String) (v1 : Value) (n : Int) (B : List Value)
    (i : Int) (att : Attach) (S : List Frame) (st0 : List Frame)
    (next : Option (Int × String))
    (hk1 : goodKey k1 = true) (hs : isScalar v1 = true)
    (hnum : ∀ nn, v1 = .vNum nn → goodNum nn = true)
    (hstack : rootCoerce (popFrames n ("- " ++ (fmtKey k1 ++ ": " ++ toToon v1 0)) st0) =
      ⟨.cArr B, i, att⟩ :: S) :
    lineStep n ("- " ++ (fmtKey k1 ++ ": " ++ toToon v1 0)) next st0 =
      some (⟨.cObj [(k1, v1)], n, .toArr⟩ :: ⟨.cArr B, i, att⟩ :: S) := by
  obtain ⟨d0, dt, hdd, hd0ws, ⟨dl, hdl, hdlws⟩, hdnl⟩ := scalar_repr_shape v1 hs
  rw [lineStep_dash, hstack, jsTrim_keyval k1 v1 hk1 hs]
  have hceq : (fmtKey k1 ++ ": " ++ toToon v1 0) =
      (⟨(fmtKey k1).data ++ ':' :: (' ' :: (toToon v1 0).data)⟩ : String) :=
    congrArg String.mk (by
      simp [strData_append, show (": " : String).data = [':', ' '] from rfl]
      rfl)
  rw [hceq, dashBody_objItem k1 hk1 (' ' :: (toToon v1 0).data) n next _ S B rfl]
  rw [show jsTrim ⟨' ' :: (toToon v1 0).data⟩ = toToon v1 0 from
    jsTrim_space _ d0 dt hdd hd0ws dl hdl hdlws]
  rw [processValue_scalar v1 k1 (n + 2) next _ hs hnum]
  rfl

theorem stepI_openObj (k1 : String) (n : Int) (B : List Value)
    (i : Int) (att : Attach) (S : List Frame) (st0 : List Frame)
    (next : Option (Int × String))
    (hk1 : goodKey k1 = true)
    (hnext : ∀ nInd nc, next = some (nInd, nc) → strStarts "- " nc = false)
    (hstack : rootCoerce (popFrames n ("- " ++ (fmtKey k1 ++ ":")) st0) =
      ⟨.cArr B, i, att⟩ :: S) :
    lineStep n ("- " ++ (fmtKey k1 ++ ":")) next st0 =
      some (⟨.cObj [], n + 2, .toField k1⟩ :: ⟨.cObj [], n, .toArr⟩ ::
        ⟨.cArr B, i, att⟩ :: S) := by
  rw [lineStep_dash, hstack, jsTrim_keyhdr k1 hk1]
  have hceq : (fmtKey k1 ++ ":") =
      (⟨(fmtKey k1).data ++ ':' :: []⟩ : String) :=
    congrArg String.mk (by
      simp [strData_append, show (":" : String).data = [':'] from rfl]
      rfl)
  rw [hceq, dashBody_objItem k1 hk1 [] n next _ S B rfl]
  rw [show jsTrim (⟨[]⟩ : String) = "" from rfl]
  rw [processValue_openObj k1 (n + 2) next hnext [] n .toArr (⟨.cArr B, i, att⟩ :: S)]

theorem runN (N : Nat) :
    (∀ (fs : List (String × Value)) (n : Int) (A : List (String × Value)) (i : Int)
      (att : Attach) (S : List Frame) (st0 : List Frame) (rest : List (Int × String)),
      sizeOf fs ≤ N → goodFields fs = true → keysFresh fs = true →
      (∀ p ∈ fs, ∀ q ∈ A, q.1 ≠ p.1) → i < n →
      popSim n false st0 (⟨.cObj A, i, att⟩ :: S) →
      ∃ st1, runLines (linesO fs n ++ rest) st0 = runLines rest st1 ∧
        popSim n false st1 (⟨.cObj (A ++ fs), i, att⟩ :: S)) ∧
    (∀ (ofs : List (String × Value)) (n : Int) (B : List Value) (i : Int)
      (att : Attach) (S : List Frame) (st0 : List Frame) (rest : List (Int × String))
      (c1 : String) (more : List (Int × String)),
      sizeOf ofs ≤ N → goodFields ofs = true → keysFresh ofs = true →
      (∀ k1 v1 ofs2, ofs = (k1, v1) :: ofs2 → isArrV v1 = false) → i < n →
      (∀ c, rootCoerce (popFrames n c st0) = ⟨.cArr B, i, att⟩ :: S) →
      linesO ofs (n + 2) = (n + 2, c1) :: more →
      ∃ st1, runLines ((n, "- " ++ c1) :: (more ++ rest)) st0 = runLines rest st1 ∧
        popSim n true st1 (⟨.cArr (B ++ [.vObj ofs]), i, att⟩ :: S)) ∧
    (∀ (items : List Value) (n : Int) (B : List Value) (i : Int)
      (att : Attach) (S : List Frame) (st0 : List Frame) (rest : List (Int × String)),
      sizeOf items ≤ N → goodItems items = true → i < n →
      popSim n true st0 (⟨.cArr B, i, att⟩ :: S) →
      ∃ st1, runLines (linesA items n ++ rest) st0 = runLines rest st1 ∧
        popSim n true st1 (⟨.cArr (B ++ items), i, att⟩ :: S)) := by
  induction N with
  | zero =>
    refine ⟨?_, ?_, ?_⟩
    · intro fs _ _ _ _ _ _ _ hsz
      exfalso
      cases fs <;> simp at hsz
    · intro ofs _ _ _ _ _ _ _ _ _ hsz
      exfalso
      cases ofs <;> simp at hsz
    · intro items _ _ _ _ _ _ _ hsz
      exfalso
      cases items <;> simp at hsz
  | succ N ih =>
    refine ⟨?_, ?_, ?_⟩
    · -- object fields
      intro fs n A i att S st0 rest hsz hgf hkf hfresh hi hsim
      cases fs with
      | nil =>
        refine ⟨st0, ?_, ?_⟩
        · rw [show linesO [] n = [] from by rw [linesO], List.nil_append]
        · rw [List.append_nil]
          exact hsim
      | cons p fs' =>
        obtain ⟨k, v⟩ := p
        obtain ⟨hk, hv, hgf'⟩ := goodFields_cons k v fs' hgf
        obtain ⟨hfr1, hkf'⟩ := keysFresh_cons k v fs' hkf
        obtain ⟨c0, t, hd, h0ws, h0dash, hnc, hnnl, cl, hcl, hclws⟩ := fmtKey_props k hk
        have hAk : ∀ q ∈ A, q.1 ≠ k := fun q hq => hfresh (k, v) (List.mem_cons_self _ _) q hq
        have hfresh' : ∀ p2 ∈ fs', ∀ q ∈ A ++ [(k, v)], q.1 ≠ p2.1 := by
          intro p2 hp2 q hq
          rcases List.mem_append.mp hq with h1 | h1
          · exact hfresh p2 (List.mem_cons_of_mem _ hp2) q h1
          · simp at h1
            subst h1
            exact fun he => hfr1 p2 hp2 he.symm
        have hszr : sizeOf fs' ≤ N := by
          simp only [List.cons.sizeOf_spec, Prod.mk.sizeOf_spec] at hsz
          omega
        have happcons : A ++ (k, v) :: fs' = (A ++ [(k, v)]) ++ fs' := by simp
        cases v with
        | vNull =>
          simp only [linesO]
          rw [List.singleton_append, List.cons_append]
          have hnd : strStarts "- " (fmtKey k ++ ": " ++ toToon .vNull 0) = false :=
            strStarts_dash_head _ c0 (by simp [strData_append, hd]) h0dash
          have hpop := popSim_get n false st0 _ S hsim hi _ (Or.inr hnd)
          have hstep := stepO_scalar k .vNull n A i att S st0
            ((linesO fs' n ++ rest).head?) hk rfl (fun nn h => by cases h) hAk hpop
          obtain ⟨st2, hrun2, hsim2⟩ := ih.1 fs' n (A ++ [(k, .vNull)]) i att S _ rest
            hszr hgf' hkf' hfresh' hi (popSim_refl _ _ _)
          refine ⟨st2, ?_, ?_⟩
          · rw [runLines_cons_step _ _ _ _ _ hstep, hrun2]
          · rw [happcons]
            exact hsim2
        | vBool b =>
          simp only [linesO]
          rw [List.singleton_append, List.cons_append]
          have hnd : strStarts "- " (fmtKey k ++ ": " ++ toToon (.vBool b) 0) = false :=
            strStarts_dash_head _ c0 (by simp [strData_append, hd]) h0dash
          have hpop := popSim_get n false st0 _ S hsim hi _ (Or.inr hnd)
          have hstep := stepO_scalar k (.vBool b) n A i att S st0
            ((linesO fs' n ++ rest).head?) hk rfl (fun nn h => by cases h) hAk hpop
          obtain ⟨st2, hrun2, hsim2⟩ := ih.1 fs' n (A ++ [(k, .vBool b)]) i att S _ rest
            hszr hgf' hkf' hfresh' hi (popSim_refl _ _ _)
          refine ⟨st2, ?_, ?_⟩
          · rw [runLines_cons_step _ _ _ _ _ hstep, hrun2]
          · rw [happcons]
            exact hsim2
        | vNum nn0 =>
          simp only [linesO]
          rw [List.singleton_append, List.cons_append]
          have hnd : strStarts "- " (fmtKey k ++ ": " ++ toToon (.vNum nn0) 0) = false :=
            strStarts_dash_head _ c0 (by simp [strData_append, hd]) h0dash
          have hpop := popSim_get n false st0 _ S hsim hi _ (Or.inr hnd)
          have hstep := stepO_scalar k (.vNum nn0) n A i att S st0
            ((linesO fs' n ++ rest).head?) hk rfl
            (fun nn h => by injection h with h2; subst h2; exact hv) hAk hpop
          obtain ⟨st2, hrun2, hsim2⟩ := ih.1 fs' n (A ++ [(k, .vNum nn0)]) i att S _ rest
            hszr hgf' hkf' hfresh' hi (popSim_refl _ _ _)
          refine ⟨st2, ?_, ?_⟩
          · rw [runLines_cons_step _ _ _ _ _ hstep, hrun2]
          · rw [happcons]
            exact hsim2
        | vStr s =>
          simp only [linesO]
          rw [List.singleton_append, List.cons_append]
          have hnd : strStarts "- " (fmtKey k ++ ": " ++ toToon (.vStr s) 0) = false :=
            strStarts_dash_head _ c0 (by simp [strData_append, hd]) h0dash
          have hpop := popSim_get n false st0 _ S hsim hi _ (Or.inr hnd)
          have hstep := stepO_scalar k (.vStr s) n A i att S st0
            ((linesO fs' n ++ rest).head?) hk rfl (fun nn h => by cases h) hAk hpop
          obtain ⟨st2, hrun2, hsim2⟩ := ih.1 fs' n (A ++ [(k, .vStr s)]) i att S _ rest
            hszr hgf' hkf' hfresh' hi (popSim_refl _ _ _)
          refine ⟨st2, ?_, ?_⟩
          · rw [runLines_cons_step _ _ _ _ _ hstep, hrun2]
          · rw [happcons]
            exact hsim2
        | vObj ofs =>
          obtain ⟨hone, hgofs, hkofs⟩ := goodFieldVal_obj ofs hv
          have hofsE : ofs.isEmpty = false := by
            cases ofs with
            | nil => exact absurd rfl hone
            | cons q qs => rfl
          simp only [linesO]
          rw [if_neg (by simp [hofsE]), List.cons_append, List.cons_append,
            List.append_assoc]
          obtain ⟨ch, moreh, hLOh, hchnd⟩ := linesO_head ofs (n + 2) hone hgofs
          have hnexteq : (linesO ofs (n + 2) ++ (linesO fs' n ++ rest)).head? =
              some (n + 2, ch) := by
            rw [hLOh]
            rfl
          have hnextnd : ∀ nInd nc, (linesO ofs (n + 2) ++
              (linesO fs' n ++ rest)).head? = some (nInd, nc) →
              strStarts "- " nc = false := by
            intro nInd nc h
            rw [hnexteq] at h
            injection h with h2
            rw [show nc = ch from by rw [Prod.mk.injEq] at h2; exact h2.2.symm]
            exact hchnd
          have hnd : strStarts "- " (fmtKey k ++ ":") = false :=
            strStarts_dash_head _ c0 (by
              simp [strData_append, hd, show (":" : String).data = [':'] from rfl])
              h0dash
          have hpop := popSim_get n false st0 _ S hsim hi _ (Or.inr hnd)
          have hstep := stepO_openObj k n A i att S st0 _ hk hnextnd hpop
          have hszofs : sizeOf ofs ≤ N := by
            simp only [List.cons.sizeOf_spec, Prod.mk.sizeOf_spec,
              Value.vObj.sizeOf_spec] at hsz
            omega
          obtain ⟨st2, hrun2, hsim2⟩ := ih.1 ofs (n + 2) [] n (.toField k)
            (⟨.cObj A, i, att⟩ :: S) _ (linesO fs' n ++ rest) hszofs hgofs hkofs
            (by intro p2 hp2 q hq; simp at hq) (by omega) (popSim_refl _ _ _)
          have hsim3 := popSim_pop n false st2 ⟨.cObj ([] ++ ofs), n, .toField k⟩
            ⟨.cObj A, i, att⟩ S rfl (fun h => absurd h (by simp)) hsim2
          rw [show attachTo ⟨.cObj ([] ++ ofs), n, .toField k⟩ ⟨.cObj A, i, att⟩ =
            ⟨.cObj (objInsert A k (.vObj ofs)), i, att⟩ from rfl,
            objInsert_fresh A k _ hAk] at hsim3
          obtain ⟨st3, hrun3, hsim4⟩ := ih.1 fs' n (A ++ [(k, .vObj ofs)]) i att S
            st2 rest hszr hgf' hkf' hfresh' hi hsim3
          refine ⟨st3, ?_, ?_⟩
          · rw [runLines_cons_step _ _ _ _ _ hstep, hrun2, hrun3]
          · rw [happcons]
            exact hsim4
        | vArr items =>
          by_cases hIE : items.isEmpty = true
          · have hitems : items = [] := by
              cases items with
              | nil => rfl
              | cons q qs => simp at hIE
            subst hitems
            simp only [linesO]
            rw [if_pos (by decide), List.singleton_append, List.cons_append]
            have hnd : strStarts "- " (fmtKey k ++ "[0]: []") = false :=
              strStarts_dash_head _ c0 (by
                simp [strData_append, hd, show ("[0]: []" : String).data =
                  ['[', '0', ']', ':', ' ', '[', ']'] from rfl]) h0dash
            have hpop := popSim_get n false st0 _ S hsim hi _ (Or.inr hnd)
            have hstep := stepO_empty k n A i att S st0
              ((linesO fs' n ++ rest).head?) hk hAk hpop
            obtain ⟨st2, hrun2, hsim2⟩ := ih.1 fs' n (A ++ [(k, .vArr [])]) i att S _
              rest hszr hgf' hkf' hfresh' hi (popSim_refl _ _ _)
            refine ⟨st2, ?_, ?_⟩
            · rw [runLines_cons_step _ _ _ _ _ hstep, hrun2]
            · rw [happcons]
              exact hsim2
          · have hIE2 : items.isEmpty = false := by simpa using hIE
            have hitems_ne : items ≠ [] := by
              cases items with
              | nil => simp at hIE2
              | cons q qs => simp
            by_cases hsc : items.all isScalar = true
            · obtain ⟨hlen, hins⟩ := goodFieldVal_arr_inline items hv hIE2 hsc
              obtain ⟨j0, jt, hjd, hj0, ⟨jl, hjl, hjlws⟩, hjnl⟩ :=
                strJoin_comma_shape items hitems_ne hsc
              simp only [linesO]
              rw [if_neg (by simp [hIE2]), if_pos hsc, List.singleton_append,
                List.cons_append]
              have hnd : strStarts "- " (fmtKey k ++ "[" ++
                  intRepr ((items.length : Nat) : Int) ++ "]: " ++
                  strJoin "," (toToonAtZero items)) = false :=
                strStarts_dash_head _ c0 (by
                  simp [strData_append, hd, intRepr_ofNat,
                    show ("[" : String).data = ['['] from rfl,
                    show ("]: " : String).data = [']', ':', ' '] from rfl]) h0dash
              have hpop := popSim_get n false st0 _ S hsim hi _ (Or.inr hnd)
              have hstep := stepO_inline k items n A i att S st0
                ((linesO fs' n ++ rest).head?) hk hitems_ne hsc hlen hins hAk hpop
              obtain ⟨st2, hrun2, hsim2⟩ := ih.1 fs' n (A ++ [(k, .vArr items)]) i att
                S _ rest hszr hgf' hkf' hfresh' hi (popSim_refl _ _ _)
              refine ⟨st2, ?_, ?_⟩
              · rw [runLines_cons_step _ _ _ _ _ hstep, hrun2]
              · rw [happcons]
                exact hsim2
            · have hgI := goodFieldVal_arr_complex items hv hIE2 (by simpa using hsc)
              simp only [linesO]
              rw [if_neg (by simp [hIE2]), if_neg hsc, List.cons_append,
                List.cons_append, List.append_assoc]
              obtain ⟨dc, morea, hLA, hdcdash⟩ := linesA_head items (n + 2)
                hitems_ne hgI
              have hnexteq : (linesA items (n + 2) ++ (linesO fs' n ++ rest)).head? =
                  some (n + 2, dc) := by
                rw [hLA]
                rfl
              have hnd : strStarts "- " (fmtKey k ++ "[" ++
                  intRepr ((items.length : Nat) : Int) ++ "]:") = false :=
                strStarts_dash_head _ c0 (by
                  simp [strData_append, hd, intRepr_ofNat,
                    show ("[" : String).data = ['['] from rfl,
                    show ("]:" : String).data = [']', ':'] from rfl]) h0dash
              have hpop := popSim_get n false st0 _ S hsim hi _ (Or.inr hnd)
              have hstep : lineStep n (fmtKey k ++ "[" ++
                  intRepr ((items.length : Nat) : Int) ++ "]:")
                  ((linesA items (n + 2) ++ (linesO fs' n ++ rest)).head?) st0 =
                  some (⟨.cArr [], n, .toField k⟩ :: ⟨.cObj A, i, att⟩ :: S) := by
                rw [hnexteq]
                exact stepO_openArr k items n A i att S st0 (n + 2) dc hk
                  (by omega) hdcdash hpop
              have hszitems : sizeOf items ≤ N := by
                simp only [List.cons.sizeOf_spec, Prod.mk.sizeOf_spec,
                  Value.vArr.sizeOf_spec] at hsz
                omega
              obtain ⟨st2, hrun2, hsim2⟩ := ih.2.2 items (n + 2) [] n (.toField k)
                (⟨.cObj A, i, att⟩ :: S) _ (linesO fs' n ++ rest) hszitems hgI
                (by omega) (popSim_refl _ _ _)
              have hsim3 := popSim_pop n false st2 ⟨.cArr ([] ++ items), n, .toField k⟩
                ⟨.cObj A, i, att⟩ S rfl (fun h => absurd h (by simp))
                (popSim_weaken _ _ _ hsim2)
              rw [show attachTo ⟨.cArr ([] ++ items), n, .toField k⟩
                  ⟨.cObj A, i, att⟩ = ⟨.cObj (objInsert A k (.vArr items)), i, att⟩
                  from rfl,
                objInsert_fresh A k _ hAk] at hsim3
              obtain ⟨st3, hrun3, hsim4⟩ := ih.1 fs' n (A ++ [(k, .vArr items)]) i att
                S st2 rest hszr hgf' hkf' hfresh' hi hsim3
              refine ⟨st3, ?_, ?_⟩
              · rw [runLines_cons_step _ _ _ _ _ hstep, hrun2, hrun3]
              · rw [happcons]
                exact hsim4
    · -- one dash item
      intro ofs n B i att S st0 rest c1 more hsz hgf hkf hfa hi hstack hlo
      cases ofs with
      | nil =>
        rw [linesO] at hlo
        cases hlo
      | cons p ofs2 =>
        obtain ⟨k1, v1⟩ := p
        obtain ⟨hk1, hv1, hgf2⟩ := goodFields_cons k1 v1 ofs2 hgf
        obtain ⟨hfr1, hkf2⟩ := keysFresh_cons k1 v1 ofs2 hkf
        have h1arr : isArrV v1 = false := hfa k1 v1 ofs2 rfl
        have hszofs2 : sizeOf ofs2 ≤ N := by
          simp only [List.cons.sizeOf_spec, Prod.mk.sizeOf_spec] at hsz
          omega
        have hfresh2 : ∀ p2 ∈ ofs2, ∀ q ∈ [(k1, v1)], q.1 ≠ p2.1 := by
          intro p2 hp2 q hq
          simp at hq
          subst hq
          exact fun he => hfr1 p2 hp2 he.symm
        cases v1 with
        | vArr items => simp [isArrV] at h1arr
        | vObj ofs1 =>
          obtain ⟨hone1, hgofs1, hkofs1⟩ := goodFieldVal_obj ofs1 hv1
          have hofsE1 : ofs1.isEmpty = false := by
            cases ofs1 with
            | nil => exact absurd rfl hone1
            | cons q qs => rfl
          simp only [linesO] at hlo
          rw [if_neg (by simp [hofsE1]), List.cons_append] at hlo
          obtain ⟨hpair, hmore⟩ := List.cons.injEq .. |>.mp hlo
          rw [Prod.mk.injEq] at hpair
          rw [show c1 = fmtKey k1 ++ ":" from hpair.2.symm,
            show more = linesO ofs1 (n + 2 + 2) ++ linesO ofs2 (n + 2) from hmore.symm]
          rw [List.append_assoc]
          obtain ⟨ch, moreh, hLOh, hchnd⟩ := linesO_head ofs1 (n + 2 + 2) hone1 hgofs1
          have hnexteq : (linesO ofs1 (n + 2 + 2) ++
              (linesO ofs2 (n + 2) ++ rest)).head? = some (n + 2 + 2, ch) := by
            rw [hLOh]
            rfl
          have hnextnd : ∀ nInd nc, (linesO ofs1 (n + 2 + 2) ++
              (linesO ofs2 (n + 2) ++ rest)).head? = some (nInd, nc) →
              strStarts "- " nc = false := by
            intro nInd nc h
            rw [hnexteq] at h
            injection h with h2
            rw [show nc = ch from by rw [Prod.mk.injEq] at h2; exact h2.2.symm]
            exact hchnd
          have hstep := stepI_openObj k1 n B i att S st0
            ((linesO ofs1 (n + 2 + 2) ++ (linesO ofs2 (n + 2) ++ rest)).head?) hk1
            hnextnd (hstack _)
          have hszofs1 : sizeOf ofs1 ≤ N := by
            simp only [List.cons.sizeOf_spec, Prod.mk.sizeOf_spec,
              Value.vObj.sizeOf_spec] at hsz
            omega
          obtain ⟨st2, hrun2, hsim2⟩ := ih.1 ofs1 (n + 2 + 2) [] (n + 2) (.toField k1)
            (⟨.cObj [], n, .toArr⟩ :: ⟨.cArr B, i, att⟩ :: S) _
            (linesO ofs2 (n + 2) ++ rest) hszofs1 hgofs1 hkofs1
            (by intro p2 hp2 q hq; simp at hq) (by omega) (popSim_refl _ _ _)
          have hsim3 := popSim_pop (n + 2) false st2
            ⟨.cObj ([] ++ ofs1), n + 2, .toField k1⟩ ⟨.cObj [], n, .toArr⟩
            (⟨.cArr B, i, att⟩ :: S) rfl (fun h => absurd h (by simp)) hsim2
          rw [show attachTo ⟨.cObj ([] ++ ofs1), n + 2, .toField k1⟩
              ⟨.cObj [], n, .toArr⟩ = ⟨.cObj [(k1, .vObj ofs1)], n, .toArr⟩ from rfl]
            at hsim3
          obtain ⟨st3, hrun3, hsim4⟩ := ih.1 ofs2 (n + 2) [(k1, .vObj ofs1)] n .toArr
            (⟨.cArr B, i, att⟩ :: S) st2 rest hszofs2 hgf2 hkf2 hfresh2 (by omega)
            hsim3
          rw [show [(k1, Value.vObj ofs1)] ++ ofs2 = (k1, Value.vObj ofs1) :: ofs2 from
            rfl] at hsim4
          have hsim5 := popSim_pop n true st3
            ⟨.cObj ((k1, Value.vObj ofs1) :: ofs2), n, .toArr⟩ ⟨.cArr B, i, att⟩ S
            rfl (fun _ => rfl) hsim4
          refine ⟨st3, ?_, ?_⟩
          · rw [runLines_cons_step _ _ _ _ _ hstep, hrun2, hrun3]
          · exact hsim5
        | vNull =>
          simp only [linesO] at hlo
          rw [List.singleton_append] at hlo
          obtain ⟨hpair, hmore⟩ := List.cons.injEq .. |>.mp hlo
          rw [Prod.mk.injEq] at hpair
          rw [show c1 = fmtKey k1 ++ ": " ++ toToon .vNull 0 from hpair.2.symm,
            show more = linesO ofs2 (n + 2) from hmore.symm]
          have hstep := stepI_scalar k1 .vNull n B i att S st0
            ((linesO ofs2 (n + 2) ++ rest).head?) hk1 rfl
            (fun nn h => by cases h) (hstack _)
          obtain ⟨st2, hrun2, hsim2⟩ := ih.1 ofs2 (n + 2) [(k1, .vNull)] n .toArr
            (⟨.cArr B, i, att⟩ :: S) _ rest hszofs2 hgf2 hkf2 hfresh2 (by omega)
            (popSim_refl _ _ _)
          rw [show [(k1, Value.vNull)] ++ ofs2 = (k1, Value.vNull) :: ofs2 from rfl]
            at hsim2
          have hsim5 := popSim_pop n true st2
            ⟨.cObj ((k1, Value.vNull) :: ofs2), n, .toArr⟩ ⟨.cArr B, i, att⟩ S
            rfl (fun _ => rfl) hsim2
          refine ⟨st2, ?_, ?_⟩
          · rw [runLines_cons_step _ _ _ _ _ hstep, hrun2]
          · exact hsim5
        | vBool b =>
          simp only [linesO] at hlo
          rw [List.singleton_append] at hlo
          obtain ⟨hpair, hmore⟩ := List.cons.injEq .. |>.mp hlo
          rw [Prod.mk.injEq] at hpair
          rw [show c1 = fmtKey k1 ++ ": " ++ toToon (.vBool b) 0 from hpair.2.symm,
            show more = linesO ofs2 (n + 2) from hmore.symm]
          have hstep := stepI_scalar k1 (.vBool b) n B i att S st0
            ((linesO ofs2 (n + 2) ++ rest).head?) hk1 rfl
            (fun nn h => by cases h) (hstack _)
          obtain ⟨st2, hrun2, hsim2⟩ := ih.1 ofs2 (n + 2) [(k1, .vBool b)] n .toArr
            (⟨.cArr B, i, att⟩ :: S) _ rest hszofs2 hgf2 hkf2 hfresh2 (by omega)
            (popSim_refl _ _ _)
          rw [show [(k1, Value.vBool b)] ++ ofs2 = (k1, Value.vBool b) :: ofs2 from rfl]
            at hsim2
          have hsim5 := popSim_pop n true st2
            ⟨.cObj ((k1, Value.vBool b) :: ofs2), n, .toArr⟩ ⟨.cArr B, i, att⟩ S
            rfl (fun _ => rfl) hsim2
          refine ⟨st2, ?_, ?_⟩
          · rw [runLines_cons_step _ _ _ _ _ hstep, hrun2]
          · exact hsim5
        | vNum nn0 =>
          simp only [linesO] at hlo
          rw [List.singleton_append] at hlo
          obtain ⟨hpair, hmore⟩ := List.cons.injEq .. |>.mp hlo
          rw [Prod.mk.injEq] at hpair
          rw [show c1 = fmtKey k1 ++ ": " ++ toToon (.vNum nn0) 0 from hpair.2.symm,
            show more = linesO ofs2 (n + 2) from hmore.symm]
          have hstep := stepI_scalar k1 (.vNum nn0) n B i att S st0
            ((linesO ofs2 (n + 2) ++ rest).head?) hk1 rfl
            (fun nn h => by injection h with h2; subst h2; exact hv1) (hstack _)
          obtain ⟨st2, hrun2, hsim2⟩ := ih.1 ofs2 (n + 2) [(k1, .vNum nn0)] n .toArr
            (⟨.cArr B, i, att⟩ :: S) _ rest hszofs2 hgf2 hkf2 hfresh2 (by omega)
            (popSim_refl _ _ _)
          rw [show [(k1, Value.vNum nn0)] ++ ofs2 = (k1, Value.vNum nn0) :: ofs2 from
            rfl] at hsim2
          have hsim5 := popSim_pop n true st2
            ⟨.cObj ((k1, Value.vNum nn0) :: ofs2), n, .toArr⟩ ⟨.cArr B, i, att⟩ S
            rfl (fun _ => rfl) hsim2
          refine ⟨st2, ?_, ?_⟩
          · rw [runLines_cons_step _ _ _ _ _ hstep, hrun2]
          · exact hsim5
        | vStr s =>
          simp only [linesO] at hlo
          rw [List.singleton_append] at hlo
          obtain ⟨hpair, hmore⟩ := List.cons.injEq .. |>.mp hlo
          rw [Prod.mk.injEq] at hpair
          rw [show c1 = fmtKey k1 ++ ": " ++ toToon (.vStr s) 0 from hpair.2.symm,
            show more = linesO ofs2 (n + 2) from hmore.symm]
          have hstep := stepI_scalar k1 (.vStr s) n B i att S st0
            ((linesO ofs2 (n + 2) ++ rest).head?) hk1 rfl
            (fun nn h => by cases h) (hstack _)
          obtain ⟨st2, hrun2, hsim2⟩ := ih.1 ofs2 (n + 2) [(k1, .vStr s)] n .toArr
            (⟨.cArr B, i, att⟩ :: S) _ rest hszofs2 hgf2 hkf2 hfresh2 (by omega)
            (popSim_refl _ _ _)
          rw [show [(k1, Value.vStr s)] ++ ofs2 = (k1, Value.vStr s) :: ofs2 from rfl]
            at hsim2
          have hsim5 := popSim_pop n true st2
            ⟨.cObj ((k1, Value.vStr s) :: ofs2), n, .toArr⟩ ⟨.cArr B, i, att⟩ S
            rfl (fun _ => rfl) hsim2
          refine ⟨st2, ?_, ?_⟩
          · rw [runLines_cons_step _ _ _ _ _ hstep, hrun2]
          · exact hsim5
    · -- array items
      intro items n B i att S st0 rest hsz hg hi hsim
      cases items with
      | nil =>
        refine ⟨st0, ?_, ?_⟩
        · rw [show linesA [] n = [] from by rw [linesA], List.nil_append]
        · rw [List.append_nil]
          exact hsim
      | cons v rest2 =>
        obtain ⟨ofs, rest3, heq, hone, hgofs, hkofs, hfirst, hgrest⟩ :=
          goodItems_cons (v :: rest2) hg (by simp)
        obtain ⟨hv, hr⟩ : v = Value.vObj ofs ∧ rest2 = rest3 := by
          rw [List.cons.injEq] at heq
          exact ⟨heq.1, heq.2⟩
        subst hv
        subst hr
        obtain ⟨c1, more, hLOh, hc1nd⟩ := linesO_head ofs (n + 2) hone hgofs
        rw [linesA_cons_obj ofs rest2 n (n + 2) c1 more hLOh, List.cons_append,
          List.append_assoc]
        have hstack : ∀ c, rootCoerce (popFrames n c st0) = ⟨.cArr B, i, att⟩ :: S := by
          intro c
          rw [popSim_get n true st0 _ S hsim hi c (Or.inl rfl)]
          exact rootCoerce_arr _ _ rfl
        have hfa : ∀ k1 v1 ofs2, ofs = (k1, v1) :: ofs2 → isArrV v1 = false := by
          intro k1 v1 ofs2 he
          obtain ⟨k1b, v1b, ofs2b, heb, hab⟩ := hfirst
          rw [heb] at he
          rw [List.cons.injEq, Prod.mk.injEq] at he
          rw [← he.1.2]
          exact hab
        have hszofs : sizeOf ofs ≤ N := by
          simp only [List.cons.sizeOf_spec, Value.vObj.sizeOf_spec] at hsz
          omega
        have hszrest : sizeOf rest2 ≤ N := by
          simp only [List.cons.sizeOf_spec, Value.vObj.sizeOf_spec] at hsz
          omega
        obtain ⟨st2, hrun2, hsim2⟩ := ih.2.1 ofs n B i att S st0
          (linesA rest2 n ++ rest) c1 more hszofs hgofs hkofs hfa hi hstack hLOh
        obtain ⟨st3, hrun3, hsim3⟩ := ih.2.2 rest2 n (B ++ [.vObj ofs]) i att S st2
          rest hszrest hgrest hi hsim2
        refine ⟨st3, ?_, ?_⟩
        · rw [hrun2, hrun3]
        · rw [show (B ++ [Value.vObj ofs]) ++ rest2 = B ++ (Value.vObj ofs :: rest2)
            from by simp] at hsim3
          exact hsim3

/-! ## The round trip at the root -/

theorem convertToJsonValue_eq (s : String) :
    convertToJsonValue s =
      if (analyzedLines s).isEmpty then some (.vObj []) else
      match runLines (analyzedLines s) [⟨.cObj [], -1, .root⟩] with
      | some st => some (collapseStack st)
      | none => none := by
  unfold convertToJsonValue analyzedLines
  cases hF : (splitNl s).filter (fun l => jsTrim l ≠ "") <;> rfl

theorem convertToJson_toToon_obj (fs : List (String × Value)) (hne : fs ≠ [])
    (hg : goodFields fs = true) (hkf : keysFresh fs = true) :
    convertToJsonValue (toToon (.vObj fs) 0) = some (.vObj fs) := by
  have hal : analyzedLines (toToon (.vObj fs) 0) = linesO fs 0 :=
    bridgeOut_lines _ _ _ (bridgeO fs 0 hg hne)
  obtain ⟨c0, more0, hLO, hc0⟩ := linesO_head fs 0 hne hg
  obtain ⟨st1, hrun, hsim⟩ := (runN (sizeOf fs)).1 fs 0 [] (-1) .root []
    [⟨.cObj [], -1, .root⟩] [] (le_refl _) hg hkf
    (by intro p hp q hq; simp at hq) (by decide) (popSim_refl _ _ _)
  rw [convertToJsonValue_eq, hal, if_neg (by rw [hLO]; simp)]
  rw [List.append_nil] at hrun
  rw [hrun]
  have hpop2 := hsim (-2) "" (Or.inl (by decide))
  have hcoll : collapseStack st1 = .vObj fs := by
    unfold collapseStack
    rw [hpop2, popFrames_one]
    rfl
  exact congrArg some hcoll

theorem convertToJson_toToon_arr (items : List Value) (hne : items ≠ [])
    (hg : goodItems items = true) :
    convertToJsonValue (toToon (.vArr items) 0) = some (.vArr items) := by
  obtain ⟨ofs, rest2, heq, hone, hgofs, hkofs, hfirst, hgrest⟩ :=
    goodItems_cons items hg hne
  subst heq
  have hIE : (Value.vObj ofs :: rest2).isEmpty = false := rfl
  have hsc : (Value.vObj ofs :: rest2).all isScalar = false := rfl
  have htt : toToon (.vArr (Value.vObj ofs :: rest2)) 0 =
      strJoin "\n" (toToonItems (Value.vObj ofs :: rest2) 0) := by
    rw [toToon, hIE, hsc]
    rfl
  have hal : analyzedLines (toToon (.vArr (Value.vObj ofs :: rest2)) 0) =
      linesA (Value.vObj ofs :: rest2) 0 := by
    rw [htt]
    exact bridgeA (Value.vObj ofs :: rest2) 0 hg
  obtain ⟨c1, more, hLO, hc1nd⟩ := linesO_head ofs (0 + 2) hone hgofs
  have hla : linesA (Value.vObj ofs :: rest2) 0 =
      (0, "- " ++ c1) :: (more ++ linesA rest2 0) :=
    linesA_cons_obj ofs rest2 0 (0 + 2) c1 more hLO
  have hstack : ∀ c, rootCoerce (popFrames 0 c [⟨.cObj [], -1, .root⟩]) =
      [⟨.cArr [], -1, .root⟩] := by
    intro c
    rw [popFrames_one]
    decide
  have hfa : ∀ k1 v1 ofs2, ofs = (k1, v1) :: ofs2 → isArrV v1 = false := by
    intro k1 v1 ofs2 he
    obtain ⟨k1b, v1b, ofs2b, heb, hab⟩ := hfirst
    rw [heb] at he
    rw [List.cons.injEq, Prod.mk.injEq] at he
    rw [← he.1.2]
    exact hab
  obtain ⟨st1, hrun1, hsim1⟩ := (runN (sizeOf ofs)).2.1 ofs 0 [] (-1) .root []
    [⟨.cObj [], -1, .root⟩] (linesA rest2 0) c1 more (le_refl _) hgofs hkofs hfa
    (by decide) hstack hLO
  obtain ⟨st2, hrun2, hsim2⟩ := (runN (sizeOf rest2)).2.2 rest2 0
    ([] ++ [Value.vObj ofs]) (-1) .root [] st1 [] (le_refl _) hgrest (by decide) hsim1
  rw [convertToJsonValue_eq, hal, hla, if_neg (by simp)]
  rw [List.append_nil] at hrun2
  rw [hrun1, hrun2]
  have hpop2 := hsim2 (-2) "" (Or.inl (by decide))
  have hcoll : collapseStack st2 = .vArr (Value.vObj ofs :: rest2) := by
    unfold collapseStack
    rw [hpop2, popFrames_one]
    rfl
  exact congrArg some hcoll

/-! ## Validator soundness on serialized lines -/

theorem validLine_iff (l : String) :
    validLine l = true ↔
      (jsTrim l ≠ "" →
        (∃ n, searchNonWs l = some n ∧ n % 2 = 0) ∧
        (strStarts "- " (jsTrim l) = true ∨ strHas ':' (jsTrim l) = true)) := by
  by_cases hb : jsTrim l = ""
  · simp [validLine, hb]
  · obtain ⟨n, hn⟩ := searchNonWs_isSome_of_trim_ne l hb
    constructor
    · intro hv _
      unfold validLine at hv
      rw [if_neg hb, hn] at hv
      have hv' : (if n % 2 ≠ 0 then false
          else (strStarts "- " (jsTrim l) || strHas ':' (jsTrim l))) = true := hv
      by_cases he : n % 2 = 0
      · refine ⟨⟨n, hn, he⟩, ?_⟩
        rw [if_neg (by omega)] at hv'
        simpa using hv'
      · rw [if_pos (by omega)] at hv'
        exact absurd hv' (by simp)
    · intro hc
      obtain ⟨⟨m, hm, hme⟩, hshape⟩ := hc hb
      unfold validLine
      rw [if_neg hb, hn]
      have : m = n := by rw [hn] at hm; exact (Option.some.injEq _ _).mp hm.symm
      subst this
      show (if m % 2 ≠ 0 then false
        else (strStarts "- " (jsTrim l) || strHas ':' (jsTrim l))) = true
      rw [if_neg (by omega)]
      simpa using hshape

theorem strHas_of_mem (c : Char) (s : String) (h : c ∈ s.data) : strHas c s = true := by
  unfold strHas
  exact List.elem_eq_true_of_mem h

theorem strHas_colon_sfx (a s : String) (h : ':' ∈ s.data) :
    strHas ':' (a ++ s) = true :=
  strHas_of_mem _ _ (by rw [strData_append]; exact List.mem_append_right _ h)

theorem strHas_colon_mid (a s b : String) (h : ':' ∈ s.data) :
    strHas ':' (a ++ s ++ b) = true :=
  strHas_of_mem _ _ (by
    rw [strData_append, strData_append]
    exact List.mem_append_left _ (List.mem_append_right _ h))

theorem validateToon_of_lines (s : String)
    (h : ∀ p ∈ analyzedLines s, 0 ≤ p.1 ∧ p.1 % 2 = 0 ∧
      (strStarts "- " p.2 || strHas ':' p.2) = true) :
    validateToon s = true := by
  unfold validateToon
  rw [List.all_eq_true]
  intro l hl
  by_cases hb : jsTrim l = ""
  · simp [validLine, hb]
  · obtain ⟨n, hn⟩ := searchNonWs_isSome_of_trim_ne l hb
    have hmem : ((n : Int), jsTrim l) ∈ analyzedLines s := by
      unfold analyzedLines
      apply List.mem_map.mpr
      refine ⟨l, List.mem_filter.mpr ⟨hl, by simpa using hb⟩, ?_⟩
      unfold analyzeLine
      rw [hn]
    obtain ⟨hpos, heven, hshape⟩ := h _ hmem
    rw [validLine_iff]
    intro _
    refine ⟨⟨n, hn, by omega⟩, by simpa using hshape⟩

theorem shapeN (N : Nat) :
    (∀ (fs : List (String × Value)) (n : Int), sizeOf fs ≤ N →
      goodFields fs = true → 0 ≤ n → n % 2 = 0 →
      ∀ p ∈ linesO fs n, 0 ≤ p.1 ∧ p.1 % 2 = 0 ∧
        (strStarts "- " p.2 || strHas ':' p.2) = true) ∧
    (∀ (items : List Value) (n : Int), sizeOf items ≤ N →
      goodItems items = true → 0 ≤ n → n % 2 = 0 →
      ∀ p ∈ linesA items n, 0 ≤ p.1 ∧ p.1 % 2 = 0 ∧
        (strStarts "- " p.2 || strHas ':' p.2) = true) := by
  induction N with
  | zero =>
    constructor
    · intro fs _ hsz
      exfalso
      cases fs <;> simp at hsz
    · intro items _ hsz
      exfalso
      cases items <;> simp at hsz
  | succ N ih =>
    constructor
    · intro fs n hsz hg hpos heven p hp
      cases fs with
      | nil =>
        rw [linesO] at hp
        cases hp
      | cons q fs' =>
        obtain ⟨k, v⟩ := q
        obtain ⟨hk, hv, hg'⟩ := goodFields_cons k v fs' hg
        have hszr : sizeOf fs' ≤ N := by
          simp only [List.cons.sizeOf_spec, Prod.mk.sizeOf_spec] at hsz
          omega
        cases v with
        | vNull =>
          simp only [linesO] at hp
          rw [List.singleton_append] at hp
          rcases List.mem_cons.mp hp with he | ht
          · subst he
            exact ⟨hpos, heven, by
              rw [Bool.or_eq_true]
              exact Or.inr (strHas_colon_mid _ ": " _ (by decide))⟩
          · exact ih.1 fs' n hszr hg' hpos heven p ht
        | vBool b =>
          simp only [linesO] at hp
          rw [List.singleton_append] at hp
          rcases List.mem_cons.mp hp with he | ht
          · subst he
            exact ⟨hpos, heven, by
              rw [Bool.or_eq_true]
              exact Or.inr (strHas_colon_mid _ ": " _ (by decide))⟩
          · exact ih.1 fs' n hszr hg' hpos heven p ht
        | vNum nn =>
          simp only [linesO] at hp
          rw [List.singleton_append] at hp
          rcases List.mem_cons.mp hp with he | ht
          · subst he
            exact ⟨hpos, heven, by
              rw [Bool.or_eq_true]
              exact Or.inr (strHas_colon_mid _ ": " _ (by decide))⟩
          · exact ih.1 fs' n hszr hg' hpos heven p ht
        | vStr str =>
          simp only [linesO] at hp
          rw [List.singleton_append] at hp
          rcases List.mem_cons.mp hp with he | ht
          · subst he
            exact ⟨hpos, heven, by
              rw [Bool.or_eq_true]
              exact Or.inr (strHas_colon_mid _ ": " _ (by decide))⟩
          · exact ih.1 fs' n hszr hg' hpos heven p ht
        | vObj ofs =>
          obtain ⟨hone, hgofs, hkofs⟩ := goodFieldVal_obj ofs hv
          have hofsE : ofs.isEmpty = false := by
            cases ofs with
            | nil => exact absurd rfl hone
            | cons a as => rfl
          have hszofs : sizeOf ofs ≤ N := by
            simp only [List.cons.sizeOf_spec, Prod.mk.sizeOf_spec,
              Value.vObj.sizeOf_spec] at hsz
            omega
          simp only [linesO] at hp
          rw [if_neg (by simp [hofsE]), List.cons_append] at hp
          rcases List.mem_cons.mp hp with he | ht
          · subst he
            exact ⟨hpos, heven, by
              rw [Bool.or_eq_true]
              exact Or.inr (strHas_colon_sfx _ ":" (by decide))⟩
          · rcases List.mem_append.mp ht with h1 | h2
            · exact ih.1 ofs (n + 2) hszofs hgofs (by omega) (by omega) p h1
            · exact ih.1 fs' n hszr hg' hpos heven p h2
        | vArr items =>
          have hszitems : sizeOf items ≤ N := by
            simp only [List.cons.sizeOf_spec, Prod.mk.sizeOf_spec,
              Value.vArr.sizeOf_spec] at hsz
            omega
          by_cases hIE : items.isEmpty = true
          · simp only [linesO] at hp
            rw [if_pos hIE, List.singleton_append] at hp
            rcases List.mem_cons.mp hp with he | ht
            · subst he
              exact ⟨hpos, heven, by
                rw [Bool.or_eq_true]
                exact Or.inr (strHas_colon_sfx _ "[0]: []" (by decide))⟩
            · exact ih.1 fs' n hszr hg' hpos heven p ht
          · by_cases hsc : items.all isScalar = true
            · simp only [linesO] at hp
              rw [if_neg hIE, if_pos hsc, List.singleton_append] at hp
              rcases List.mem_cons.mp hp with he | ht
              · subst he
                exact ⟨hpos, heven, by
                  rw [Bool.or_eq_true]
                  exact Or.inr (strHas_colon_mid _ "]: " _ (by decide))⟩
              · exact ih.1 fs' n hszr hg' hpos heven p ht
            · have hgI := goodFieldVal_arr_complex items hv (by simpa using hIE)
                (by simpa using hsc)
              simp only [linesO] at hp
              rw [if_neg hIE, if_neg hsc, List.cons_append] at hp
              rcases List.mem_cons.mp hp with he | ht
              · subst he
                exact ⟨hpos, heven, by
                  rw [Bool.or_eq_true]
                  exact Or.inr (strHas_colon_sfx _ "]:" (by decide))⟩
              · rcases List.mem_append.mp ht with h1 | h2
                · exact ih.2 items (n + 2) hszitems hgI (by omega) (by omega) p h1
                · exact ih.1 fs' n hszr hg' hpos heven p h2
    · intro items n hsz hg hpos heven p hp
      cases items with
      | nil =>
        rw [linesA] at hp
        cases hp
      | cons v vs =>
        obtain ⟨ofs, rest3, heq, hone, hgofs, hkofs, hfirst, hgrest⟩ :=
          goodItems_cons (v :: vs) hg (by simp)
        obtain ⟨hv, hr⟩ : v = Value.vObj ofs ∧ vs = rest3 := by
          rw [List.cons.injEq] at heq
          exact ⟨heq.1, heq.2⟩
        subst hv
        subst hr
        have hszofs : sizeOf ofs ≤ N := by
          simp only [List.cons.sizeOf_spec, Value.vObj.sizeOf_spec] at hsz
          omega
        have hszvs : sizeOf vs ≤ N := by
          simp only [List.cons.sizeOf_spec, Value.vObj.sizeOf_spec] at hsz
          omega
        obtain ⟨c1, more, hLO, hc1nd⟩ := linesO_head ofs (n + 2) hone hgofs
        rw [linesA_cons_obj ofs vs n (n + 2) c1 more hLO] at hp
        rcases List.mem_cons.mp hp with he | ht
        · subst he
          exact ⟨hpos, heven, by
            rw [Bool.or_eq_true]
            exact Or.inl (strStarts_dash_prepend c1.data)⟩
        · rcases List.mem_append.mp ht with h1 | h2
          · exact ih.1 ofs (n + 2) hszofs hgofs (by omega) (by omega) p
              (by rw [hLO]; exact List.mem_cons_of_mem _ h1)
          · exact ih.2 vs n hszvs hgrest hpos heven p h2

/-! ## Claims -/

set_option maxRecDepth 10000 in
set_option maxRecDepth 10000 in
/-- C3 counterexample: the validator rejects the serializer's output for
the root value `null`: `toToon` renders it as the single line `null`,
whose trimmed content neither starts with `"- "` nor contains `':'`, so
`validateToon` returns `false`. -/
theorem c3_counterexample :
    ¬ (∀ V : Value, validateToon (toToon V 0) = true) :=
  fun h => absurd (h .vNull) (by decide)

/-- C3 (amended): for every root value that is a nonempty object of good
fields with pairwise-distinct keys, or a nonempty array of such objects,
the structural validator accepts the serializer's output: every produced
non-blank line has even indentation and content that starts with `"- "`
or contains `':'`. -/
theorem c3_validator_sound (V : Value) (h : goodRoot V = true) :
    validateToon (toToon V 0) = true := by
  cases V with
  | vObj fs =>
    rw [show goodRoot (.vObj fs) = (!fs.isEmpty && goodFields fs && keysFresh fs)
        from rfl, Bool.and_eq_true, Bool.and_eq_true] at h
    obtain ⟨⟨h1, h2⟩, h3⟩ := h
    have hne : fs ≠ [] := by
      cases fs with
      | nil => simp at h1
      | cons a as => simp
    apply validateToon_of_lines
    rw [bridgeOut_lines _ _ _ (bridgeO fs 0 h2 hne)]
    exact (shapeN (sizeOf fs)).1 fs 0 (le_refl _) h2 (by decide) (by decide)
  | vArr items =>
    rw [show goodRoot (.vArr items) = (!items.isEmpty && goodItems items)
        from rfl, Bool.and_eq_true] at h
    obtain ⟨h1, h2⟩ := h
    have hne : items ≠ [] := by
      cases items with
      | nil => simp at h1
      | cons a as => simp
    obtain ⟨ofs, rest2, heq, hone, hgofs, hkofs, hfirst, hgrest⟩ :=
      goodItems_cons items h2 hne
    subst heq
    apply validateToon_of_lines
    have htt : toToon (.vArr (Value.vObj ofs :: rest2)) 0 =
        strJoin "\n" (toToonItems (Value.vObj ofs :: rest2) 0) := by
      rw [toToon, (rfl : (Value.vObj ofs :: rest2).isEmpty = false),
        (rfl : (Value.vObj ofs :: rest2).all isScalar = false)]
      rfl
    rw [htt, bridgeA (Value.vObj ofs :: rest2) 0 h2]
    exact (shapeN (sizeOf (Value.vObj ofs :: rest2))).2 _ 0 (le_refl _) h2
      (by decide) (by decide)
  | vNull => exact absurd h (by decide)
  | vBool b => exact absurd h (by simp [goodRoot])
  | vNum nn => exact absurd h (by simp [goodRoot])
  | vStr s => exact absurd h (by simp [goodRoot])

set_option maxRecDepth 10000 in
/-- C3 witness: a concrete good root array on which the amended validator
soundness evaluates. -/
theorem c3_witness :
    goodRoot (.vArr [.vObj [("a", .vNull)]]) = true ∧
    validateToon (toToon (.vArr [.vObj [("a", .vNull)]]) 0) = true :=
  ⟨by decide, c3_validator_sound _ (by decide)⟩

set_option maxRecDepth 10000 in
/-- C1 counterexample: the round trip fails at the root value `null`
(`toToon` renders it as the line `null`, which has no colon and no dash
marker, so `convertToJson` skips it and returns the untouched empty root
object), and also at a singleton all-scalar array field (`{"a": [null]}`
serializes inline as `a[1]: null`, a comma-less value the parser reads
back as the scalar `null`, dropping the array). -/
theorem c1_counterexample :
    (convertToJsonValue (toToon .vNull 0) = some (.vObj []) ∧
      Value.vObj [] ≠ Value.vNull) ∧
    (convertToJsonValue (toToon (.vObj [("a", .vArr [.vNull])]) 0) =
        some (.vObj [("a", .vNull)]) ∧
      Value.vObj [("a", .vNull)] ≠ Value.vObj [("a", .vArr [.vNull])]) := by decide

/-- C1 (amended): the round trip does hold for every root value that is a
nonempty object of good fields with pairwise-distinct keys, or a nonempty
array of such objects whose first field is not an array. Good field values
are: null, booleans, good finite numbers, good strings, nested such
objects, and arrays that are empty, inline all-scalar with at least two
inline-safe items (a singleton scalar array is excluded: its comma-less
inline rendering parses back as a bare scalar), or dash-form nonempty
lists of such objects whose first field is not an array. For those roots
parsing the serialized text returns exactly the original value, same keys
in the same insertion order. -/
theorem c1_round_trip (V : Value) (h : goodRoot V = true) :
    convertToJsonValue (toToon V 0) = some V := by
  cases V with
  | vObj fs =>
    rw [show goodRoot (.vObj fs) = (!fs.isEmpty && goodFields fs && keysFresh fs)
        from rfl, Bool.and_eq_true, Bool.and_eq_true] at h
    obtain ⟨⟨h1, h2⟩, h3⟩ := h
    exact convertToJson_toToon_obj fs
      (by cases fs with | nil => simp at h1 | cons a as => simp) h2 h3
  | vArr items =>
    rw [show goodRoot (.vArr items) = (!items.isEmpty && goodItems items)
        from rfl, Bool.and_eq_true] at h
    obtain ⟨h1, h2⟩ := h
    exact convertToJson_toToon_arr items
      (by cases items with | nil => simp at h1 | cons a as => simp) h2
  | vNull => exact absurd h (by decide)
  | vBool b => exact absurd h (by simp [goodRoot])
  | vNum nn => exact absurd h (by simp [goodRoot])
  | vStr s => exact absurd h (by simp [goodRoot])

set_option maxRecDepth 10000 in
/-- C1 witness: a concrete good root on which the amended round trip
evaluates. -/
theorem c1_witness :
    goodRoot (.vObj [("a", .vNull)]) = true ∧
    convertToJsonValue (toToon (.vObj [("a", .vNull)]) 0) =
      some (.vObj [("a", .vNull)]) :=
  ⟨by decide, c1_round_trip _ (by decide)⟩

/-- C2 counterexample: `convertToToon` on the example input does not return
the space-free text the claim states. -/
theorem c2_counterexample : convertToToon c2Input ≠ some c2Claimed := by decide

set_option maxRecDepth 40000 in
/-- C2 (amended): `convertToToon` on the example JSON returns the four-line
TOON text `"user: \n  name: Alice \n  active: true  \nscores[3]: 85,92,78 "`,
i.e. the claimed text except that each field line carries one trailing
space (two after `active: true`, whose line ends both an inner field and
the nested block) and the `user:` header has a space before the newline. -/
theorem c2_trailing_space_output : convertToToon c2Input = some c2Actual := by decide

/-- C4 counterexample: parsing the one-line TOON text `"[]"` yields the
empty Object, not the empty Array — the line has no colon and no dash, so
the parser skips it and returns the untouched root object. -/
theorem c4_counterexample :
    convertToJsonValue "[]" = some (.vObj []) ∧ Value.vObj [] ≠ Value.vArr [] := by
  decide

set_option maxRecDepth 10000 in
/-- C4 (amended): serializing the empty Object yields `"{}"` and the empty
Array `"[]"`; parsing `"{}"` yields the empty Object, but parsing `"[]"`
also yields the empty Object (the `[]` line is skipped). -/
theorem c4_empty_containers :
    toToon (.vObj []) 0 = "\x7b\x7d" ∧ toToon (.vArr []) 0 = "[]" ∧
    convertToJsonValue "\x7b\x7d" = some (.vObj []) ∧
    convertToJsonValue "[]" = some (.vObj []) := by decide

/-- C10: on input whose lines are all blank (the empty string included),
`convertToJson` returns the text `"{}"` and raises no error. -/
theorem c10_blank_input (s : String) (h : ∀ l ∈ splitNl s, jsTrim l = "") :
    convertToJson s = some "\x7b\x7d" := by
  have hfil : (splitNl s).filter (fun l => decide (jsTrim l ≠ "")) = [] := by
    rw [List.filter_eq_nil_iff]
    intro a ha
    simp [h a ha]
  simp only [convertToJson, convertToJsonValue]
  rw [hfil]
  simp [jsonStringify, jsonStringifyVal]

/-- Witness for C10 at a concrete blank input. -/
theorem c10_blank_input_witness :
    (∀ l ∈ splitNl "  \n\t\n", jsTrim l = "") ∧ convertToJson "  \n\t\n" = some "\x7b\x7d" :=
  ⟨by decide, c10_blank_input "  \n\t\n" (by decide)⟩

/-- C5 counterexample: the claimed characterization fails on `"\tb: 2"`:
that line has zero leading spaces (even) and its trimmed content contains a
colon, so the claim predicts `true`, but `validateToon` measures
indentation as the index of the first non-whitespace character (1, odd,
because of the tab) and returns `false`. -/
theorem c5_counterexample : ¬ ∀ t : String, (validateToon t = true ↔ c5ClaimCond t) := by
  intro hall
  have h := (hall "\tb: 2").mpr (by decide)
  exact absurd h (by decide)


/-- C5 (amended): `validateToon t` is `true` iff every non-blank line of
`t` has an even indentation measured as the index of its first
non-whitespace character (`search(/\S/)`, counting tabs and other
whitespace, not only spaces) and trimmed content that starts with `"- "`
or contains `":"`; and `validateToon "a: 1\n b: 2"` is `false` because the
second line's first non-whitespace index is 1. -/
theorem c5_validator_characterization :
    (∀ t : String, validateToon t = true ↔
      ∀ l ∈ splitNl t, jsTrim l ≠ "" →
        (∃ n, searchNonWs l = some n ∧ n % 2 = 0) ∧
        (strStarts "- " (jsTrim l) = true ∨ strHas ':' (jsTrim l) = true)) ∧
    validateToon "a: 1\n b: 2" = false := by
  refine ⟨fun t => ?_, by decide⟩
  unfold validateToon
  rw [List.all_eq_true]
  exact forall_congr' fun l => forall_congr' fun _ => validLine_iff l

/-- C6: the serializer's String branch emits the JSON-quoted form exactly
when the string is one of the literals `true`/`false`/`null`, or is
parseable as a number in the `Number()` sense (`!isNaN(Number(s))`; this
includes the empty string, whitespace, hex literals, and `Infinity`), or
contains a character outside `[A-Za-z0-9_.]`; otherwise the string is
emitted bare.  In particular the String `"true"` serializes quoted while
the Bool `true` serializes as bare `true`. -/
theorem c6_string_quoting :
    (∀ s : String, toToon (.vStr s) 0 =
      (if s = "true" ∨ s = "false" ∨ s = "null" ∨ jsIsNumeric s = true ∨
          (∃ c ∈ s.data, ¬(isWordChar c = true ∨ c = '.'))
        then jsonQuote s else s)) ∧
    toToon (.vStr "true") 0 = "\"true\"" ∧ toToon (.vBool true) 0 = "true" := by
  refine ⟨fun s => ?_, by decide, by decide⟩
  show (if s = "true" || s = "false" || s = "null" || jsIsNumeric s then jsonQuote s
    else if isBareStr s then s else jsonQuote s) = _
  by_cases hA : (s = "true" || s = "false" || s = "null" || jsIsNumeric s) = true
  · rw [if_pos hA, if_pos]
    have hA2 : s = "true" ∨ s = "false" ∨ s = "null" ∨ jsIsNumeric s = true := by
      simpa [or_assoc] using hA
    tauto
  · rw [if_neg hA]
    have hA' : ¬(s = "true" ∨ s = "false" ∨ s = "null" ∨ jsIsNumeric s = true) := by
      simpa [or_assoc] using hA
    have hne : s ≠ "" := by
      intro he
      apply hA'
      refine Or.inr (Or.inr (Or.inr ?_))
      rw [he]
      decide
    by_cases hB : isBareStr s = true
    · rw [if_pos hB, if_neg]
      intro hcond
      rcases hcond with h | h | h | h | ⟨c, hc, hcbad⟩
      · exact hA' (Or.inl h)
      · exact hA' (Or.inr (Or.inl h))
      · exact hA' (Or.inr (Or.inr (Or.inl h)))
      · exact hA' (Or.inr (Or.inr (Or.inr h)))
      · unfold isBareStr at hB
        rw [Bool.and_eq_true] at hB
        have := (List.all_eq_true.mp hB.2) c hc
        exact hcbad (by simpa using this)
    · rw [if_neg hB, if_pos]
      unfold isBareStr at hB
      have hdata : s.data ≠ [] := by
        intro he
        exact hne (by cases s; simp_all)
      have hnall : ¬ s.data.all (fun c => isWordChar c || c = '.') = true := by
        intro hall
        exact hB (by simp [hdata, hall])
      obtain ⟨c, hc, hcb⟩ := by simpa using hnall
      exact Or.inr (Or.inr (Or.inr (Or.inr ⟨c, hc, by simpa using hcb⟩)))

/-- C7 counterexample: `parseValue "[]"` returns the empty Array, whereas
the claim's case analysis sends `"[]"` (not a literal, number, or quoted
string) to the bare String `"[]"`. -/
theorem c7_counterexample :
    parseValue "[]" = .vArr [] ∧ parseValue "[]" ≠ .vStr "[]" := by decide

theorem strStarts_quote_excl (t : String) :
    ¬(strStarts "\"" t = true ∧ strStarts "'" t = true) := by
  rintro ⟨h1, h2⟩
  cases ht : t.data with
  | nil => rw [strStarts, ht] at h1; simp [List.isPrefixOf] at h1
  | cons c cs =>
    rw [strStarts, ht] at h1 h2
    simp [List.isPrefixOf] at h1 h2
    exact absurd (h1.trans h2.symm) (by decide)

/-- C7 (amended): `parseValue` agrees everywhere with the claim's case
analysis once that analysis also sends `"[]"`/`"{}"` to empty containers,
uses the `Number()` (`!isNaN`) sense of numeric — which admits `Infinity` —
and falls back to delimiter stripping when JSON unescaping of a
double-quoted text fails. -/
theorem c7_scalar_parsing : ∀ t : String, parseValue t = parseValueSpec t := by
  intro t
  by_cases h1 : t = "true"
  · subst h1; decide
  by_cases h2 : t = "false"
  · subst h2; decide
  by_cases h3 : t = "null"
  · subst h3; decide
  by_cases h4 : t = "[]"
  · subst h4; decide
  by_cases h5 : t = "\x7b\x7d"
  · subst h5; decide
  unfold parseValue parseValueSpec
  rw [if_neg h1, if_neg h2, if_neg h3, if_neg h4, if_neg h5,
      if_neg h1, if_neg h2, if_neg h3, if_neg h4, if_neg h5]
  have hnum : (jsIsNumeric t && !strStarts "\"" t && !strStarts "'" t && decide (t ≠ "")) =
      (decide (t ≠ "") && !strStarts "\"" t && !strStarts "'" t && (jsToNum t).isSome) := by
    simp only [jsIsNumeric]
    cases (jsToNum t).isSome <;> cases strStarts "\"" t <;> cases strStarts "'" t <;>
      cases (decide (t ≠ "")) <;> rfl
  rw [hnum]
  by_cases h6 : (decide (t ≠ "") && !strStarts "\"" t && !strStarts "'" t &&
      (jsToNum t).isSome) = true
  · rw [if_pos h6, if_pos h6]
  · rw [if_neg h6, if_neg h6]
    cases hds : strStarts "\"" t with
    | true =>
      cases hss : strStarts "'" t with
      | true => exact absurd ⟨hds, hss⟩ (strStarts_quote_excl t)
      | false =>
        cases hde : strEnds "\"" t <;>
          simp only [hds, hss, hde, Bool.true_and, Bool.false_and, Bool.and_true,
            Bool.and_false, Bool.or_false, Bool.false_or, Bool.true_or, Bool.or_true,
            Bool.false_eq_true, if_true, if_false, reduceIte]
    | false =>
      cases hss : strStarts "'" t with
      | false =>
        simp only [hds, hss, Bool.false_and, Bool.or_self, Bool.false_eq_true,
          if_false, reduceIte]
      | true =>
        cases hse : strEnds "'" t <;>
          simp only [hds, hss, hse, Bool.true_and, Bool.false_and, Bool.and_true,
            Bool.and_false, Bool.or_false, Bool.false_or, Bool.true_or, Bool.or_true,
            Bool.false_eq_true, if_true, if_false, reduceIte]

set_option maxRecDepth 10000 in
/-- C8: a trailing `[N]` length annotation on a field key is stripped
without being validated: for every bare key, every annotation value `N`,
and every remainder of the input, parsing with the annotation gives exactly
the same result as parsing without it (so the items present are taken
as-is, their count never compared to `N`, and no error is raised);
concretely, `"k[5]: 1,2"` parses to a two-element array with no error even
though the annotation says five. -/
theorem c8_length_annotation_unchecked :
    (∀ (k : String) (N : Nat) (r : String), isBareKey k = true →
      convertToJsonValue (k ++ "[" ++ intRepr (N : Int) ++ "]: " ++ r) =
      convertToJsonValue (k ++ ": " ++ r)) ∧
    (convertToJsonValue "k[5]: 1,2" =
      some (.vObj [("k", .vArr [.vNum (.fin (mkDec 1 0)), .vNum (.fin (mkDec 2 0))])]) ∧
     (2 : Nat) ≠ 5) := by
  refine ⟨?_, by decide, by decide⟩
  intro k N r hk
  unfold isBareKey at hk
  rw [Bool.and_eq_true] at hk
  have hkne : k.data ≠ [] := by simpa using hk.1
  have hkw : ∀ c ∈ k.data, isWordChar c = true := List.all_eq_true.mp hk.2
  obtain ⟨a, A', hkd⟩ : ∃ a A', k.data = a :: A' := by
    cases hx : k.data with
    | nil => exact absurd hx hkne
    | cons x xs => exact ⟨x, xs, rfl⟩
  have haw := isWordChar_props a (hkw a (hkd ▸ List.mem_cons_self a A'))
  -- the two inputs as head-line-plus-remainder character lists
  have hdata1 : (k ++ "[" ++ intRepr (N : Int) ++ "]: " ++ r).data =
      (((k.data ++ '[' :: (natDigits N ++ [']'])) ++ [':', ' ']) ++ r.data) := by
    rw [intRepr_ofNat]
    simp [strData_append]
  have hdata2 : (k ++ ": " ++ r).data = ((k.data ++ [':', ' ']) ++ r.data) := by
    simp [strData_append]
  have hnodig : ∀ c ∈ natDigits N, c ≠ '\n' :=
    fun c hc => (isWordChar_props c (isDigit_isWordChar c (natDigits_digits N c hc))).2.2.2.2.2.2.2.1
  have hnok : ∀ c ∈ k.data, c ≠ '\n' :=
    fun c hc => (isWordChar_props c (hkw c hc)).2.2.2.2.2.2.2.1
  have hnoNl1 : '\n' ∉ (k.data ++ '[' :: (natDigits N ++ [']'])) ++ [':', ' '] := by
    intro hm
    rcases List.mem_append.mp hm with h1 | h1
    · rcases List.mem_append.mp h1 with h2 | h2
      · exact hnok '\n' h2 rfl
      · rcases List.mem_cons.mp h2 with h3 | h3
        · exact absurd h3.symm (by decide)
        · rcases List.mem_append.mp h3 with h4 | h4
          · exact hnodig '\n' h4 rfl
          · simp at h4
    · simp at h1
  have hnoNl2 : '\n' ∉ k.data ++ [':', ' '] := by
    intro hm
    rcases List.mem_append.mp hm with h1 | h1
    · exact hnok '\n' h1 rfl
    · simp at h1
  -- split into lines
  have hsplit1 : splitNlL (k ++ "[" ++ intRepr (N : Int) ++ "]: " ++ r).data =
      (((k.data ++ '[' :: (natDigits N ++ [']'])) ++ [':', ' ']) ++
        (splitNlL r.data).headI) :: (splitNlL r.data).tail := by
    rw [hdata1]
    exact splitNlL_append_noNl _ _ hnoNl1
  have hsplit2 : splitNlL (k ++ ": " ++ r).data =
      ((k.data ++ [':', ' ']) ++ (splitNlL r.data).headI) :: (splitNlL r.data).tail := by
    rw [hdata2]
    exact splitNlL_append_noNl _ _ hnoNl2
  -- solid prefixes ending in the colon
  have hsolid1 : ∀ c ∈ (k.data ++ '[' :: (natDigits N ++ [']'])) ++ [':'],
      ¬ jsWs c = true := by
    intro c hc
    rcases List.mem_append.mp hc with h1 | h1
    · rcases List.mem_append.mp h1 with h2 | h2
      · exact (isWordChar_props c (hkw c h2)).1
      · rcases List.mem_cons.mp h2 with rfl | h3
        · decide
        · rcases List.mem_append.mp h3 with h4 | h4
          · exact (isWordChar_props c (isDigit_isWordChar c (natDigits_digits N c h4))).1
          · simp at h4; subst h4; decide
    · simp at h1; subst h1; decide
  have hsolid2 : ∀ c ∈ k.data ++ [':'], ¬ jsWs c = true := by
    intro c hc
    rcases List.mem_append.mp hc with h1 | h1
    · exact (isWordChar_props c (hkw c h1)).1
    · simp at h1; subst h1; decide
  -- trimmed head-line content on each side
  have htrim1 : jsTrimL ((((k.data ++ '[' :: (natDigits N ++ [']'])) ++ [':', ' ']) ++
      (splitNlL r.data).headI)) =
      (k.data ++ '[' :: (natDigits N ++ [']'])) ++
        ':' :: trimR (' ' :: (splitNlL r.data).headI) := by
    have : (((k.data ++ '[' :: (natDigits N ++ [']'])) ++ [':', ' ']) ++
        (splitNlL r.data).headI) =
        ((k.data ++ '[' :: (natDigits N ++ [']'])) ++ [':']) ++
          (' ' :: (splitNlL r.data).headI) := by simp
    rw [this, jsTrim_solid_append _ _ (by simp) hsolid1]
    simp
  have htrim2 : jsTrimL ((k.data ++ [':', ' ']) ++ (splitNlL r.data).headI) =
      k.data ++ ':' :: trimR (' ' :: (splitNlL r.data).headI) := by
    have : ((k.data ++ [':', ' ']) ++ (splitNlL r.data).headI) =
        (k.data ++ [':']) ++ (' ' :: (splitNlL r.data).headI) := by simp
    rw [this, jsTrim_solid_append _ _ (by simp [hkd]) hsolid2]
    simp
  have hsearch1 : searchNonWsL ((((k.data ++ '[' :: (natDigits N ++ [']'])) ++ [':', ' ']) ++
      (splitNlL r.data).headI)) = some 0 := by
    rw [hkd]
    exact searchNonWsL_cons_head a _ haw.1
  have hsearch2 : searchNonWsL ((k.data ++ [':', ' ']) ++ (splitNlL r.data).headI) =
      some 0 := by
    rw [hkd]
    exact searchNonWsL_cons_head a _ haw.1
  -- head-line analysis on each side
  have hana1 : analyzeLine ⟨(((k.data ++ '[' :: (natDigits N ++ [']'])) ++ [':', ' ']) ++
      (splitNlL r.data).headI)⟩ =
      ((0 : Int), ⟨(k.data ++ '[' :: (natDigits N ++ [']'])) ++
        ':' :: trimR (' ' :: (splitNlL r.data).headI)⟩) := by
    unfold analyzeLine
    rw [show searchNonWs ⟨(((k.data ++ '[' :: (natDigits N ++ [']'])) ++ [':', ' ']) ++
      (splitNlL r.data).headI)⟩ = some 0 from hsearch1]
    rw [show jsTrim ⟨(((k.data ++ '[' :: (natDigits N ++ [']'])) ++ [':', ' ']) ++
      (splitNlL r.data).headI)⟩ = ⟨(k.data ++ '[' :: (natDigits N ++ [']'])) ++
        ':' :: trimR (' ' :: (splitNlL r.data).headI)⟩ from congrArg String.mk htrim1]
    rfl
  have hana2 : analyzeLine ⟨((k.data ++ [':', ' ']) ++ (splitNlL r.data).headI)⟩ =
      ((0 : Int), ⟨k.data ++ ':' :: trimR (' ' :: (splitNlL r.data).headI)⟩) := by
    unfold analyzeLine
    rw [show searchNonWs ⟨((k.data ++ [':', ' ']) ++ (splitNlL r.data).headI)⟩ =
      some 0 from hsearch2]
    rw [show jsTrim ⟨((k.data ++ [':', ' ']) ++ (splitNlL r.data).headI)⟩ =
      ⟨k.data ++ ':' :: trimR (' ' :: (splitNlL r.data).headI)⟩ from
      congrArg String.mk htrim2]
    rfl
  have hfil1 : (decide (jsTrim ⟨(((k.data ++ '[' :: (natDigits N ++ [']'])) ++ [':', ' ']) ++
      (splitNlL r.data).headI)⟩ ≠ "")) = true := by
    rw [show jsTrim ⟨(((k.data ++ '[' :: (natDigits N ++ [']'])) ++ [':', ' ']) ++
      (splitNlL r.data).headI)⟩ = ⟨(k.data ++ '[' :: (natDigits N ++ [']'])) ++
        ':' :: trimR (' ' :: (splitNlL r.data).headI)⟩ from congrArg String.mk htrim1]
    simp [String.ext_iff]
  have hfil2 : (decide (jsTrim ⟨((k.data ++ [':', ' ']) ++ (splitNlL r.data).headI)⟩ ≠ "")) =
      true := by
    rw [show jsTrim ⟨((k.data ++ [':', ' ']) ++ (splitNlL r.data).headI)⟩ =
      ⟨k.data ++ ':' :: trimR (' ' :: (splitNlL r.data).headI)⟩ from
      congrArg String.mk htrim2]
    simp [String.ext_iff, hkd]
  -- the machine treats the two head lines identically
  have hrun : ∀ M : List (Int × String),
      runLines (((0 : Int), (⟨(k.data ++ '[' :: (natDigits N ++ [']'])) ++
          ':' :: trimR (' ' :: (splitNlL r.data).headI)⟩ : String)) :: M)
        [⟨.cObj [], -1, .root⟩] =
      runLines (((0 : Int), (⟨k.data ++
          ':' :: trimR (' ' :: (splitNlL r.data).headI)⟩ : String)) :: M)
        [⟨.cObj [], -1, .root⟩] := by
    intro M
    show (match lineStep 0 _ M.head? _ with
      | none => none
      | some st' => runLines M st') = (match lineStep 0 _ M.head? _ with
      | none => none
      | some st' => runLines M st')
    rw [lineStep_annotated k.data (natDigits N) _ 0 M.head? _ hkne hkw
      (natDigits_ne_nil N) (natDigits_digits N)]
  -- assemble
  unfold convertToJsonValue splitNl
  rw [hsplit1, hsplit2]
  simp only [List.map_cons, List.filter_cons, hfil1, hfil2, if_true, List.isEmpty_cons,
    Bool.false_eq_true, reduceIte, hana1, hana2]
  rw [hrun]

set_option maxRecDepth 10000 in
/-- Witness for C8 at a concrete key, annotation and remainder. -/
theorem c8_length_annotation_unchecked_witness :
    isBareKey "abc" = true ∧
    convertToJsonValue ("abc" ++ "[" ++ intRepr ((7 : Nat) : Int) ++ "]: " ++ "1,2") =
      convertToJsonValue ("abc" ++ ": " ++ "1,2") :=
  ⟨by decide, c8_length_annotation_unchecked.1 "abc" 7 "1,2" (by decide)⟩

/-- C9: `repairJson` first runs the primary attempt (`jsonrepair`, then
`formatJson` on its output).  Under the `jsonrepair` contract that its
output is valid JSON (so `formatJson` succeeds on it), the fallback runs
exactly when `jsonrepair` throws on the input; the fallback appends the net
count of unmatched `{` and `[` (clamped at zero) as `}`s and `]`s at the
end and retries; if both attempts fail the error surfaces (`none`) — no
guessed or partial result is returned. -/
theorem c9_repair_control_flow (jr fj : String → Option String) (s : String)
    (hContract : ∀ r, jr s = some r → (fj r).isSome) :
    (∀ f, (jr s).bind fj = some f → repairJson jr fj s = some f) ∧
    (jr s ≠ none → repairJson jr fj s = (jr s).bind fj) ∧
    (jr s = none → repairJson jr fj s = (jr (balanceBrackets s)).bind fj) ∧
    (balanceBrackets s = s ++
      (⟨List.replicate ((s.data.count '\x7b' : Int) - s.data.count '\x7d').toNat '\x7d'⟩ : String) ++
      (⟨List.replicate ((s.data.count '[' : Int) - s.data.count ']').toNat ']'⟩ : String)) ∧
    (jr s = none → (jr (balanceBrackets s)).bind fj = none → repairJson jr fj s = none) := by
  refine ⟨?_, ?_, ?_, ?_, ?_⟩
  · intro f hf
    simp [repairJson, hf]
  · intro hne
    obtain ⟨r, hr⟩ := Option.ne_none_iff_exists'.mp hne
    have hfj := hContract r hr
    obtain ⟨f, hf⟩ := Option.isSome_iff_exists.mp hfj
    simp [repairJson, hr, hf]
  · intro hnone
    simp [repairJson, hnone]
  · have := bracketCounts_spec s
    simp [balanceBrackets, this]
  · intro h1 h2
    simp [repairJson, h1, h2]

/-- Witness for C9 at concrete functions and input. -/
theorem c9_repair_control_flow_witness :
    (∀ r, (fun (_ : String) => some "[1]") "[1" = some r →
      ((fun (x : String) => some x) r).isSome) ∧
    balanceBrackets "[1" = "[1]" :=
  ⟨fun r _ => rfl,
   (c9_repair_control_flow (fun _ => some "[1]") (fun x => some x) "[1"
     (fun r _ => rfl)).2.2.2.1.trans (by decide)⟩

end Toon
